import Mathlib

/-!
Verification of the attribution engine of the `narrative` repository.

The Rust sources under `src-tauri/src/attribution/` are shallowly embedded:
pure functions become Lean functions, SQL tables become lists of row
structures, repository access (git2) and serde_json become explicit oracle
parameters, and `u32`/`i32` arithmetic is modelled on `Nat`/`Int` with
explicit `% 2^32` wrapping where the machine type can wrap.
-/

namespace Narrative

/-- Wrapping `u32` addition (Rust release-mode `+` on `u32`). -/
def u32add (a b : Nat) : Nat := (a + b) % 4294967296

/-- Wrapping `i32` arithmetic result (Rust release-mode overflow semantics):
the mathematical integer reduced into `[-2^31, 2^31)`. -/
def i32wrap (n : Int) : Int := (n + 2147483648) % 4294967296 - 2147483648

/-- Rust `as u32` cast of an `i32` value (two's-complement reinterpretation). -/
def i32ToU32 (n : Int) : Nat := (n % 4294967296).toNat

/-- One changed line range extracted from a commit diff
(`attribution/line_attribution.rs`, `ChangedRange`). -/
inductive ChangeKind where
  | Added
  | Modified
deriving DecidableEq

structure ChangedRange where
  start_line : Int
  end_line : Int
  kind : ChangeKind
deriving DecidableEq

/-- Database row for one line attribution of a commit
(`attribution/line_attribution.rs`, `LineAttributionCommitRow`). -/
structure LineAttributionCommitRow where
  file_path : String
  start_line : Int
  end_line : Int
  session_id : Option String
  author_type : String
  ai_percentage : Option Int
  tool : Option String
  model : Option String
deriving DecidableEq

/-- Stable insertion of a range into a list sorted by start line: the new
element goes before the first element whose start is not smaller.  Together
with `sortByStart` this models the stable `ranges.sort_by(|a, b| a.0.cmp(&b.0))`
of the source (a stable sort by a key is extensionally unique, so insertion
sort is a faithful model of Rust's stable merge sort). -/
def insertByStart (p : Int × Int) : List (Int × Int) → List (Int × Int)
  | [] => [p]
  | q :: rest => if p.1 ≤ q.1 then p :: q :: rest else q :: insertByStart p rest

/-- Stable sort by start line; models `sort_by(|a, b| a.0.cmp(&b.0))`. -/
def sortByStart : List (Int × Int) → List (Int × Int)
  | [] => []
  | p :: rest => insertByStart p (sortByStart rest)

namespace Coverage

/-- Loop body of `merge_ranges` in `attribution/coverage.rs`: `cur` is the last
interval of the accumulator (the only entry the loop can still mutate through
`last_mut`), emitted to the output as soon as a gap larger than one is found.
The comparison `start <= last.1 + 1` is `i32` arithmetic: `last.1 + 1` wraps
to `i32::MIN` at `last.1 = i32::MAX` (the release profile wraps; a debug build
would panic there), so the wrap is modelled with `i32wrap`. -/
def mergeGo (cur : Int × Int) : List (Int × Int) → List (Int × Int)
  | [] => [cur]
  | (s, e) :: rest =>
    let ne := max e s
    if s ≤ i32wrap (cur.2 + 1) then mergeGo (cur.1, max cur.2 ne) rest
    else cur :: mergeGo (s, ne) rest

/-- `merge_ranges` of `attribution/coverage.rs`: sort by start, then merge
adjacent or overlapping ranges (gap of at most one), normalizing each range's
end to at least its start. -/
def merge_ranges (ranges : List (Int × Int)) : List (Int × Int) :=
  match sortByStart ranges with
  | [] => []
  | (s, e) :: rest => mergeGo (s, max e s) rest

/-- Idealized variant of the `merge_ranges` loop body whose `last.1 + 1` does
not wrap; away from `i32::MAX` it agrees with `mergeGo` and is used to state
what the merge achieves there. -/
def mergeGoE (cur : Int × Int) : List (Int × Int) → List (Int × Int)
  | [] => [cur]
  | (s, e) :: rest =>
    let ne := max e s
    if s ≤ cur.2 + 1 then mergeGoE (cur.1, max cur.2 ne) rest
    else cur :: mergeGoE (s, ne) rest

/-- Idealized non-wrapping `merge_ranges` of `attribution/coverage.rs`. -/
def merge_rangesE (ranges : List (Int × Int)) : List (Int × Int) :=
  match sortByStart ranges with
  | [] => []
  | (s, e) :: rest => mergeGoE (s, max e s) rest

/-- `sum_ranges` of `attribution/coverage.rs`: `(end - start + 1).max(0) as u32`
summed with `u32` wrapping addition. -/
def sum_ranges (ranges : List (Int × Int)) : Nat :=
  ranges.foldl (fun acc r => u32add acc (i32ToU32 (max (i32wrap (r.2 - r.1 + 1)) 0))) 0

/-- `count_intersection` of `attribution/coverage.rs`: two-pointer sweep over
two sorted merged range lists, counting the length of their intersection.
The `while` loop with indexes `i`, `j` is modelled as recursion on the two
list suffixes; the running `count += x` accumulation is regrouped by
associativity of wrapping addition. -/
def count_intersection : List (Int × Int) → List (Int × Int) → Nat
  | (c1, c2) :: ctl, (a1, a2) :: atl =>
    if c2 < a1 then count_intersection ctl ((a1, a2) :: atl)
    else if a2 < c1 then count_intersection ((c1, c2) :: ctl) atl
    else
      let lo := max c1 a1
      let hi := min c2 a2
      let add := if lo ≤ hi then i32ToU32 (i32wrap (hi - lo + 1)) else 0
      if c2 < a2 then u32add add (count_intersection ctl ((a1, a2) :: atl))
      else u32add add (count_intersection ((c1, c2) :: ctl) atl)
  | _, _ => 0
termination_by changed attributed => changed.length + attributed.length

/-- Result of `compute_attribution_coverage` (`attribution/coverage.rs`).
The `f32` percentage is modelled exactly as a rational. -/
structure AttributionCoverageSummary where
  total_changed_lines : Nat
  attributed_lines : Nat
  coverage_percent : ℚ
deriving DecidableEq

/-- Grouping of attribution rows by file path, in encounter order
(models the `HashMap` built with `entry(..).or_default().push(..)`;
only the per-key contents and the key set are observable downstream). -/
def groupRowsStep (acc : List (String × List (Int × Int)))
    (row : LineAttributionCommitRow) : List (String × List (Int × Int)) :=
  if acc.any (fun g => g.1 = row.file_path) then
    acc.map (fun g =>
      if g.1 = row.file_path then (g.1, g.2 ++ [(row.start_line, row.end_line)]) else g)
  else acc ++ [(row.file_path, [(row.start_line, row.end_line)])]

def groupRowsByFile (rows : List LineAttributionCommitRow) :
    List (String × List (Int × Int)) :=
  rows.foldl groupRowsStep []

/-- Body of the `for (file_path, changed_ranges) in changed_by_file` loop of
`compute_attribution_coverage`: skip files without changed ranges, add the
merged changed-line count to the running total, and add the intersection with
the file's merged attributed ranges when the file has attribution rows. -/
def coverageStep (by_file : List (String × List (Int × Int)))
    (acc : Nat × Nat) (fileChanged : String × List ChangedRange) : Nat × Nat :=
  if fileChanged.2.isEmpty then acc
  else
    let changed := merge_ranges
      (fileChanged.2.map (fun r => (r.start_line, r.end_line)))
    let total := u32add acc.1 (sum_ranges changed)
    match by_file.lookup fileChanged.1 with
    | some attrRanges =>
      (total, u32add acc.2 (count_intersection changed (merge_ranges attrRanges)))
    | none => (total, acc.2)

/-- Pure core of `compute_attribution_coverage` (`attribution/coverage.rs`).
The database read `fetch_line_attributions_for_commit` and the repository
diff `collect_changed_ranges_by_file` are passed in as data. -/
def compute_attribution_coverage (attributions : List LineAttributionCommitRow)
    (changed_by_file : List (String × List ChangedRange)) :
    Option AttributionCoverageSummary :=
  if attributions.isEmpty then none
  else
    let by_file := groupRowsByFile attributions
    let totals := changed_by_file.foldl (coverageStep by_file) (0, 0)
    if totals.1 = 0 then none
    else some ⟨totals.1, totals.2, (totals.2 : ℚ) / (totals.1 : ℚ) * 100⟩

/-- Non-wrapping total of merged changed lines, used to state the
no-`u32`-overflow hypothesis of the coverage bound. -/
def idealChangedTotal (changed_by_file : List (String × List ChangedRange)) : Nat :=
  changed_by_file.foldl
    (fun acc fileChanged =>
      if fileChanged.2.isEmpty then acc
      else acc + sum_ranges (merge_ranges
        (fileChanged.2.map (fun r => (r.start_line, r.end_line)))))
    0

end Coverage

namespace SourceLens

/-- Database row for one line attribution of a file
(`attribution/source_lens.rs`, `LineAttributionRow`). -/
structure LineAttributionRow where
  start_line : Int
  end_line : Int
  session_id : Option String
  author_type : String
  ai_percentage : Option Int
  tool : Option String
  model : Option String
  trace_available : Int
deriving DecidableEq

/-- Per-line verdict (`attribution/source_lens.rs`, `LineMeta`).
`ai_percentage` is a `u8`, modelled as `Nat` with values below 256. -/
structure LineMeta where
  author_type : String
  session_id : Option String
  ai_percentage : Option Nat
  tool : Option String
  model : Option String
  trace_available : Bool
deriving DecidableEq

/-- `LineMeta::default()`: human verdict with no session or metadata. -/
def LineMeta.human : LineMeta := ⟨"human", none, none, none, none, false⟩

/-- Rust `v as u8` cast of an `i32` value. -/
def u8cast (v : Int) : Nat := (v % 256).toNat

/-- `apply_line_attr` of `attribution/source_lens.rs`: fold one attribution row
into the current verdict of a line. -/
def apply_line_attr (meta : LineMeta) (attr : LineAttributionRow) : LineMeta :=
  let incoming_kind := if attr.author_type = "" then "human" else attr.author_type
  let incoming_trace : Bool := attr.trace_available > 0
  if meta.author_type = "human" then
    { author_type := incoming_kind
      session_id := attr.session_id
      ai_percentage := attr.ai_percentage.map u8cast
      tool := attr.tool
      model := attr.model
      trace_available := incoming_trace }
  else
    let should_mix := meta.author_type ≠ incoming_kind ∨
      (incoming_kind ≠ "mixed" ∧ meta.session_id.isSome ∧ attr.session_id.isSome ∧
        meta.session_id ≠ attr.session_id)
    let meta1 :=
      if should_mix then { meta with author_type := "mixed", ai_percentage := some 50 }
      else if incoming_kind = "mixed" then
        match attr.ai_percentage with
        | some v => { meta with ai_percentage := some (u8cast v) }
        | none => meta
      else meta
    let meta2 := if meta1.session_id = none then { meta1 with session_id := attr.session_id }
      else meta1
    let meta3 := if meta2.tool = none then { meta2 with tool := attr.tool } else meta2
    let meta4 := if meta3.model = none then { meta3 with model := attr.model } else meta3
    { meta4 with trace_available := meta4.trace_available || incoming_trace }

/-- `build_line_meta` of `attribution/source_lens.rs`: start from all-human
defaults and fold every row into each line its clamped range covers.  The
inner `for line_num in start..=end` loop touches pairwise distinct indexes,
so it is modelled as a map over the line vector guarded by range membership
(the `line_num > total_lines` guard is the map staying inside the vector). -/
def build_line_meta (total_lines : Nat) (attrs : List LineAttributionRow) : List LineMeta :=
  attrs.foldl
    (fun lines attr =>
      let start := (max attr.start_line 1).toNat
      let stop := (max attr.end_line (max attr.start_line 1)).toNat
      lines.mapIdx (fun idx m =>
        if start ≤ idx + 1 ∧ idx + 1 ≤ stop then apply_line_attr m attr else m))
    (List.replicate total_lines LineMeta.human)

/-- One output line of the source lens (`attribution/models.rs`, `SourceLine`). -/
structure SourceLine where
  line_number : Nat
  content : String
  author_type : String
  session_id : Option String
  ai_percentage : Option Nat
  tool : Option String
  model : Option String
  trace_available : Bool
deriving DecidableEq

/-- Source lens page (`attribution/models.rs`, `SourceLensPage`). -/
structure SourceLensPage where
  lines : List SourceLine
  total_lines : Nat
  has_more : Bool
deriving DecidableEq

/-- The slice start computed by `get_file_source_lens`: `offset as usize`. -/
def sliceStart (offset : Nat) : Nat := offset

/-- The slice end computed by `get_file_source_lens`:
`(offset + limit) as usize` where the addition is a `u32` addition. -/
def sliceEnd (offset limit : Nat) : Nat := (offset + limit) % 4294967296

/-- Pure core of `get_file_source_lens` (`attribution/source_lens.rs`): the
file contents (git blob lines) and the attribution rows are passed in as data;
the `ensure` call and the database fetch are outside this pure pagination core. -/
def get_file_source_lens_core (file_lines : List String)
    (attrs : List LineAttributionRow) (offset limit : Nat) : SourceLensPage :=
  if file_lines.isEmpty then ⟨[], 0, false⟩
  else
    let line_meta := build_line_meta file_lines.length attrs
    let total_lines := file_lines.length
    let start := sliceStart offset
    if start ≥ file_lines.length then ⟨[], total_lines, false⟩
    else
      let stop := sliceEnd offset limit
      let hi := min stop file_lines.length
      let slice := (file_lines.drop start).take (hi - start)
      let lines := slice.mapIdx (fun idx content =>
        let line_index := start + idx
        let meta := (line_meta.get? line_index).getD LineMeta.human
        SourceLine.mk (line_index + 1) content meta.author_type meta.session_id
          meta.ai_percentage meta.tool meta.model meta.trace_available)
      ⟨lines, total_lines, stop < file_lines.length⟩

end SourceLens

namespace Store

/-- Full `line_attributions` table row (`attribution/line_attribution.rs`,
insert statements in `ensure_line_attributions_for_commit` and
`copy_line_attributions`). -/
structure LARow where
  repo_id : Int
  commit_sha : String
  file_path : String
  start_line : Int
  end_line : Int
  session_id : Option String
  author_type : String
  ai_percentage : Option Int
  tool : Option String
  model : Option String
deriving DecidableEq

/-- `commit_rewrite_keys` table row.  `created_at`/`updated_at` are modelled by
a logical clock (`DbState.clock`), which is all the `ORDER BY updated_at DESC,
created_at DESC` donor query can observe. -/
structure KeyRow where
  repo_id : Int
  commit_sha : String
  rewrite_key : String
  algorithm : String
  created_at : Nat
  updated_at : Nat
deriving DecidableEq

/-- The relational store visible to the population state machine. The cached
contribution-stats tables written by the recovered branch are not part of any
verified claim and are left out of the state. -/
structure DbState where
  line_attributions : List LARow
  commit_rewrite_keys : List KeyRow
  clock : Nat
deriving DecidableEq

/-- A linked session as returned by `fetch_sessions_for_commit`
(`attribution/stats.rs`, `LinkedSessionRow`). -/
structure LinkedSessionRow where
  session_id : String
  tool : String
  model : Option String
  files : Option String
deriving DecidableEq

/-- External collaborators of `ensure_line_attributions_for_commit`, fixed for
one `(repo, commit)` call: the git repository reads (`compute_rewrite_key`,
`list_commit_files`, `collect_changed_ranges`), the session-links query result
(`fetch_sessions_for_commit`, ordered by descending confidence), and the serde
JSON decode inside `parse_session_files`. -/
structure RepoEnv where
  compute_rewrite_key : String → Option String
  list_commit_files : String → List String
  collect_changed_ranges : String → String → List ChangedRange
  sessions : List LinkedSessionRow
  parse_session_files : Option String → List String

/-- `line_attributions_exist`: `SELECT 1 FROM line_attributions WHERE repo_id =
? AND commit_sha = ? LIMIT 1`. -/
def line_attributions_exist (s : DbState) (repo_id : Int) (commit_sha : String) : Bool :=
  s.line_attributions.any (fun r => r.repo_id = repo_id ∧ r.commit_sha = commit_sha)

/-- `store_rewrite_key`: upsert into `commit_rewrite_keys` with `ON CONFLICT
(repo_id, commit_sha) DO UPDATE`, a no-op when the key is absent. -/
def store_rewrite_key (s : DbState) (repo_id : Int) (commit_sha : String)
    (rewrite_key : Option String) (algorithm : Option String) : DbState :=
  match rewrite_key with
  | none => s
  | some key =>
    let algo := algorithm.getD "patch-id"
    if s.commit_rewrite_keys.any (fun r => r.repo_id = repo_id ∧ r.commit_sha = commit_sha) then
      { s with
        commit_rewrite_keys := s.commit_rewrite_keys.map (fun r =>
          if r.repo_id = repo_id ∧ r.commit_sha = commit_sha then
            { r with rewrite_key := key, algorithm := algo, updated_at := s.clock }
          else r)
        clock := s.clock + 1 }
    else
      { s with
        commit_rewrite_keys := s.commit_rewrite_keys ++
          [⟨repo_id, commit_sha, key, algo, s.clock, s.clock⟩]
        clock := s.clock + 1 }

/-- `store_rewrite_key_for_commit`: recompute the rewrite key from the
repository and upsert it; returns the computed key. -/
def store_rewrite_key_for_commit (env : RepoEnv) (s : DbState) (repo_id : Int)
    (commit_sha : String) : DbState × Option String :=
  let rewrite_key := env.compute_rewrite_key commit_sha
  (store_rewrite_key s repo_id commit_sha rewrite_key (some "patch-id"), rewrite_key)

/-- Candidate donors of `find_commit_by_rewrite_key`: same repo and key,
different sha, and at least one attribution row for the candidate commit. -/
def donorCandidates (s : DbState) (repo_id : Int) (rewrite_key : String)
    (exclude_commit : String) : List KeyRow :=
  s.commit_rewrite_keys.filter (fun r =>
    r.repo_id = repo_id ∧ r.rewrite_key = rewrite_key ∧ r.commit_sha ≠ exclude_commit ∧
      line_attributions_exist s r.repo_id r.commit_sha)

/-- `ORDER BY rk.updated_at DESC, rk.created_at DESC LIMIT 1`: pick the
candidate with the lexicographically largest `(updated_at, created_at)`,
keeping the earliest such row when tied (SQLite leaves ties unspecified; the
model fixes one deterministic choice). -/
def pickLatest (rows : List KeyRow) : Option KeyRow :=
  rows.foldl
    (fun acc r =>
      match acc with
      | none => some r
      | some best =>
        if best.updated_at < r.updated_at ∨
            (best.updated_at = r.updated_at ∧ best.created_at < r.created_at) then some r
        else some best)
    none

/-- `find_commit_by_rewrite_key`. -/
def find_commit_by_rewrite_key (s : DbState) (repo_id : Int) (rewrite_key : String)
    (exclude_commit : String) : Option String :=
  (pickLatest (donorCandidates s repo_id rewrite_key exclude_commit)).map
    (fun r => r.commit_sha)

/-- `copy_line_attributions`: `INSERT INTO line_attributions SELECT .. WHERE
repo_id = ? AND commit_sha = ?` with the target sha substituted; returns the
number of copied rows (`rows_affected`). -/
def copy_line_attributions (s : DbState) (repo_id : Int) (source_commit : String)
    (target_commit : String) : DbState × Nat :=
  let copied := (s.line_attributions.filter (fun r =>
    r.repo_id = repo_id ∧ r.commit_sha = source_commit)).map
    (fun r => { r with commit_sha := target_commit })
  ({ s with line_attributions := s.line_attributions ++ copied }, copied.length)

/-- `try_restore_attributions_via_rewrite_key`.  The cached-stats recompute on
success touches only the stats tables, which are outside the modelled state. -/
def try_restore_attributions_via_rewrite_key (env : RepoEnv) (s : DbState)
    (repo_id : Int) (commit_sha : String) : DbState × Bool :=
  let step := store_rewrite_key_for_commit env s repo_id commit_sha
  match step.2 with
  | none => (step.1, false)
  | some rewrite_key =>
    match find_commit_by_rewrite_key step.1 repo_id rewrite_key commit_sha with
    | none => (step.1, false)
    | some source_commit =>
      let copied := copy_line_attributions step.1 repo_id source_commit commit_sha
      if copied.2 = 0 then (copied.1, false) else (copied.1, true)

/-- The rows inserted by the computed branch of `ensure` (steps 3-4 of the
population state machine): for each commit file, the sessions whose recorded
file set contains it (defaulting to the first linked session), one row per
(range, session) with `Added → ai_agent` and `Modified → mixed, 50`. -/
def computedInsertRows (env : RepoEnv) (repo_id : Int) (commit_sha : String) : List LARow :=
  let sessions := env.sessions
  let session_files := sessions.map (fun sess => env.parse_session_files sess.files)
  (env.list_commit_files commit_sha).flatMap (fun file_path =>
    let matched_indexes := (List.range session_files.length).filter
      (fun idx => ((session_files.get? idx).getD []).contains file_path)
    let target_indexes := if matched_indexes.isEmpty then [0] else matched_indexes
    (env.collect_changed_ranges commit_sha file_path).flatMap (fun range =>
      let author_type := match range.kind with
        | .Added => "ai_agent"
        | .Modified => "mixed"
      let ai_percentage : Option Int := match range.kind with
        | .Added => none
        | .Modified => some 50
      target_indexes.filterMap (fun idx =>
        (sessions.get? idx).map (fun sess =>
          ⟨repo_id, commit_sha, file_path, range.start_line, range.end_line,
            some sess.session_id, author_type, ai_percentage, some sess.tool, sess.model⟩))))

/-- `ensure_line_attributions_for_commit` (`attribution/line_attribution.rs`):
the population state machine. Store and repository errors are not modelled
(all oracles are total), matching the error-free executions the claims are
about. -/
def ensure_line_attributions_for_commit (env : RepoEnv) (s : DbState) (repo_id : Int)
    (commit_sha : String) : DbState :=
  if line_attributions_exist s repo_id commit_sha then s
  else
    let restore := try_restore_attributions_via_rewrite_key env s repo_id commit_sha
    if restore.2 then restore.1
    else if env.sessions.isEmpty then restore.1
    else
      let inserted := { restore.1 with
        line_attributions := restore.1.line_attributions ++
          computedInsertRows env repo_id commit_sha }
      (store_rewrite_key_for_commit env inserted repo_id commit_sha).1

/-- The rewrite key currently stored for a commit, as the donor query would
read it. -/
def lookupRewriteKey (s : DbState) (repo_id : Int) (commit_sha : String) : Option String :=
  (s.commit_rewrite_keys.find? (fun r => r.repo_id = repo_id ∧ r.commit_sha = commit_sha)).map
    (fun r => r.rewrite_key)

end Store

namespace Notes

/-- Rust strings are modelled as their character lists, so that the slicing,
splitting and trimming done by the note codec can be reasoned about
structurally.  All codec strings are `Rstr`. -/
abbrev Rstr := List Char

/-- Rust `char::is_whitespace`: the Unicode White_Space property, enumerated
in full. -/
def isWs (c : Char) : Bool :=
  c.toNat ∈ [9, 10, 11, 12, 13, 32, 133, 160, 5760, 8192, 8193, 8194, 8195,
    8196, 8197, 8198, 8199, 8200, 8201, 8202, 8232, 8233, 8239, 8287, 12288]

/-- Rust `str::trim_start`. -/
def trimStart : Rstr → Rstr
  | [] => []
  | c :: rest => if isWs c then trimStart rest else c :: rest

/-- Rust `str::trim_end`. -/
def trimEnd (s : Rstr) : Rstr := (trimStart s.reverse).reverse

/-- Rust `str::trim`. -/
def trim (s : Rstr) : Rstr := trimStart (trimEnd s)

/-- Split at every occurrence of `sep`, keeping empty pieces
(Rust `str::split(sep)`); the result is always nonempty. -/
def splitOnChar (sep : Char) : Rstr → List Rstr
  | [] => [[]]
  | c :: rest =>
    if c = sep then [] :: splitOnChar sep rest
    else
      match splitOnChar sep rest with
      | l :: ls => (c :: l) :: ls
      | [] => [[c]]

/-- Strip one trailing carriage return (Rust `str::strip_suffix('\r')`
composed with `unwrap_or`). -/
def stripCr (l : Rstr) : Rstr := if l.getLast? = some '\r' then l.dropLast else l

/-- Rust `str::lines`: split at `'\n'` dropping the trailing empty piece of a
terminating newline (`split_terminator`), then strip one `'\r'` per line. -/
def rustLines (s : Rstr) : List Rstr :=
  let parts := splitOnChar '\n' s
  let parts := if parts.getLast? = some [] then parts.dropLast else parts
  parts.map stripCr

/-- Accumulator loop of `split_whitespace`: `acc` is the token read so far. -/
def swAux : Rstr → Rstr → List Rstr
  | acc, [] => if acc = [] then [] else [acc]
  | acc, c :: rest =>
    if isWs c then (if acc = [] then swAux [] rest else acc :: swAux [] rest)
    else swAux (acc ++ [c]) rest

/-- Rust `str::split_whitespace`: the maximal whitespace-free tokens. -/
def split_whitespace (s : Rstr) : List Rstr := swAux [] s

/-- Rust `str::split_once(sep)`: split at the first occurrence of `sep`. -/
def splitOnceChar (sep : Char) : Rstr → Option (Rstr × Rstr)
  | [] => none
  | c :: rest =>
    if c = sep then some ([], rest)
    else (splitOnceChar sep rest).map (fun p => (c :: p.1, p.2))

/-- ASCII decimal digit test. -/
def isDigitCh (c : Char) : Bool := 48 ≤ c.toNat ∧ c.toNat ≤ 57

/-- Numeric value of an ASCII digit. -/
def digitVal (c : Char) : Nat := c.toNat - 48

/-- Decimal value of a digit string. -/
def digitsVal (s : Rstr) : Nat := s.foldl (fun acc c => acc * 10 + digitVal c) 0

/-- Rust `str::parse::<i32>()`: optional sign, then one or more ASCII digits,
failing on anything else and on `i32` overflow. -/
def parseI32 (s : Rstr) : Option Int :=
  match s with
  | [] => none
  | c :: rest =>
    let signed : Bool × Rstr :=
      if c = '-' then (true, rest)
      else if c = '+' then (false, rest)
      else (false, c :: rest)
    if signed.2 = [] then none
    else if signed.2.all isDigitCh then
      let v : Nat := digitsVal signed.2
      if signed.1 then (if v ≤ 2147483648 then some (-(v : Int)) else none)
      else (if v ≤ 2147483647 then some (v : Int) else none)
    else none

/-- ASCII digit character of a value below ten. -/
def digitChar (d : Nat) : Char := Char.ofNat (48 + d)

/-- Big-endian decimal digits of a positive number; the fuel argument makes
the division recursion structural and is instantiated with the number itself. -/
def natDigitsAux : Nat → Nat → Rstr
  | 0, _ => []
  | fuel + 1, n => if n = 0 then [] else natDigitsAux fuel (n / 10) ++ [digitChar (n % 10)]

/-- Decimal representation of a natural number (Rust `Display` for unsigned
values). -/
def natRepr (n : Nat) : Rstr := if n = 0 then ['0'] else natDigitsAux n n

/-- Rust `Display` for `i32` (`format!("{v}")`). -/
def intRepr (n : Int) : Rstr := if n < 0 then '-' :: natRepr n.natAbs else natRepr n.toNat

/-- Rust `[..].join(sep)`. -/
def joinWith (sep : Rstr) : List Rstr → Rstr
  | [] => []
  | [l] => l
  | l :: ls => l ++ sep ++ joinWith sep ls

/-- One parsed range line entry (`attribution/notes.rs`, `NoteRange`). -/
structure NoteRange where
  session_id : Rstr
  start_line : Int
  end_line : Int
deriving DecidableEq

/-- One parsed file block (`attribution/notes.rs`, `NoteFile`). -/
structure NoteFile where
  path : Rstr
  ranges : List NoteRange
deriving DecidableEq

/-- Session source metadata (`attribution/notes.rs`, `NoteSourceMeta`). -/
structure NoteSourceMeta where
  tool : Option Rstr
  model : Option Rstr
  checkpoint_kind : Option Rstr
  conversation_id : Option Rstr
deriving DecidableEq

/-- `NoteSourceMeta::default()`. -/
def NoteSourceMeta.empty : NoteSourceMeta := ⟨none, none, none, none⟩

/-- The result of `parse_attribution_note` (`attribution/notes.rs`,
`ParsedAttributionNote`).  The sources `HashMap` is modelled as an
association list with distinct keys. -/
structure ParsedAttributionNote where
  files : List NoteFile
  sources : List (Rstr × NoteSourceMeta)
  rewrite_key : Option Rstr
  rewrite_algorithm : Option Rstr
deriving DecidableEq

/-- serde target `NoteAgentId` of `attribution/notes.rs`. -/
structure NoteAgentId where
  tool : Option Rstr
  id : Option Rstr
  model : Option Rstr
deriving DecidableEq

/-- serde target `NoteSourcePayload` of `attribution/notes.rs`. -/
structure NoteSourcePayload where
  agent_id : Option NoteAgentId
  checkpoint_kind : Option Rstr
  model : Option Rstr
deriving DecidableEq

/-- serde target `NotePayload` of `attribution/notes.rs` (the JSON tail). -/
structure NotePayload where
  schema_version : Option Rstr
  base_commit_sha : Option Rstr
  rewrite_key : Option Rstr
  rewrite_algorithm : Option Rstr
  sources : Option (List (Rstr × NoteSourcePayload))
deriving DecidableEq

/-- Loop body of `merge_ranges` in `attribution/notes.rs` (no end
normalization, unlike the coverage copy).  As in the coverage copy, the
comparison `start <= last.1 + 1` is `i32` arithmetic that wraps at
`last.1 = i32::MAX`, modelled with `i32wrap`. -/
def mergeGoN (cur : Int × Int) : List (Int × Int) → List (Int × Int)
  | [] => [cur]
  | (s, e) :: rest =>
    if s ≤ i32wrap (cur.2 + 1) then mergeGoN (cur.1, max cur.2 e) rest
    else cur :: mergeGoN (s, e) rest

/-- `merge_ranges` of `attribution/notes.rs`. -/
def merge_ranges (ranges : List (Int × Int)) : List (Int × Int) :=
  match sortByStart ranges with
  | [] => []
  | (s, e) :: rest => mergeGoN (s, e) rest

/-- Idealized variant of the notes `merge_ranges` loop body whose
`last.1 + 1` does not wrap; away from `i32::MAX` it agrees with `mergeGoN`. -/
def mergeGoNE (cur : Int × Int) : List (Int × Int) → List (Int × Int)
  | [] => [cur]
  | (s, e) :: rest =>
    if s ≤ cur.2 + 1 then mergeGoNE (cur.1, max cur.2 e) rest
    else cur :: mergeGoNE (s, e) rest

/-- Idealized non-wrapping `merge_ranges` of `attribution/notes.rs`. -/
def merge_rangesE (ranges : List (Int × Int)) : List (Int × Int) :=
  match sortByStart ranges with
  | [] => []
  | (s, e) :: rest => mergeGoNE (s, e) rest

/-- Parser state of `parse_attribution_note`: the pushed file blocks, the open
block, the collected JSON lines, and the separator flag. -/
structure PState where
  files : List NoteFile
  current : Option NoteFile
  json_lines : List Rstr
  in_json : Bool
deriving DecidableEq

/-- `current_file.take()` flushed into `files`. -/
def flushCurrent (st : PState) : List NoteFile :=
  st.files ++ (match st.current with | some f => [f] | none => [])

/-- Body of the `for segment in range_text.split(',')` loop of
`parse_attribution_note`: parse one `N` or `N-M` token, silently dropping a
malformed one and one with a nonpositive start. -/
def segStep (session_id : Rstr) (acc : List NoteRange) (segment : Rstr) : List NoteRange :=
  let seg := trim segment
  if seg.isEmpty then acc
  else
    match splitOnceChar '-' seg with
    | some p =>
      let start_line := (parseI32 (trim p.1)).getD 0
      let end_line := (parseI32 (trim p.2)).getD start_line
      if 0 < start_line then acc ++ [⟨session_id, start_line, end_line⟩] else acc
    | none =>
      let line_num := (parseI32 seg).getD 0
      if 0 < line_num then acc ++ [⟨session_id, line_num, line_num⟩] else acc

/-- The `for segment in range_text.split(',')` loop of
`parse_attribution_note`. -/
def parseSegments (session_id : Rstr) (range_text : Rstr) : List NoteRange :=
  (splitOnChar ',' range_text).foldl (segStep session_id) []

/-- One iteration of the `for line in message.lines()` loop of
`parse_attribution_note`. -/
def noteLineStep (st : PState) (line : Rstr) : PState :=
  if ¬ st.in_json ∧ trim line = "---".data then { st with in_json := true }
  else if st.in_json then { st with json_lines := st.json_lines ++ [line] }
  else
    let trimmed := trimEnd line
    if (trim trimmed).isEmpty then st
    else if ¬ (trimmed.head? = some ' ' ∨ trimmed.head? = some '\t') then
      { st with files := flushCurrent st, current := some ⟨trim trimmed, []⟩ }
    else
      match st.current with
      | none => st
      | some file =>
        match split_whitespace trimmed with
        | [] => st
        | session_id :: restToks =>
          let range_text := joinWith [' '] restToks
          if range_text.isEmpty then st
          else
            let file2 := { file with ranges := file.ranges ++ parseSegments session_id range_text }
            { st with current := some file2 }

/-- The line-loop portion of `parse_attribution_note`. -/
def parseParts (message : Rstr) : PState :=
  (rustLines message).foldl noteLineStep ⟨[], none, [], false⟩

/-- `HashMap::insert`: replace the value of an existing key or append. -/
def insertAssoc (acc : List (Rstr × NoteSourceMeta)) (key : Rstr) (value : NoteSourceMeta) :
    List (Rstr × NoteSourceMeta) :=
  if acc.any (fun p => p.1 = key) then
    acc.map (fun p => if p.1 = key then (key, value) else p)
  else acc ++ [(key, value)]

/-- The sources loop of `parse_attribution_note` (lines 193-212 of
`attribution/notes.rs`). -/
def buildSources (map : List (Rstr × NoteSourcePayload)) : List (Rstr × NoteSourceMeta) :=
  map.foldl
    (fun acc entry =>
      let source := entry.2
      let tool := source.agent_id.bind (fun id => id.tool)
      let model := (source.agent_id.bind (fun id => id.model)).or source.model
      let conversation_id := source.agent_id.bind (fun id => id.id)
      insertAssoc acc entry.1 ⟨tool, model, source.checkpoint_kind, conversation_id⟩)
    []

/-- The JSON tail text assembled by `parse_attribution_note`:
`json_lines.join("\n").trim()`. -/
def jsonTextOf (message : Rstr) : Rstr := trim (joinWith ['\n'] (parseParts message).json_lines)

/-- `parse_attribution_note` (`attribution/notes.rs`).  The call
`serde_json::from_str::<NotePayload>` is an external library and is passed in
as the oracle `payloadOfJson`; `none` models a serde parse failure. -/
def parse_attribution_note (payloadOfJson : Rstr → Option NotePayload) (message : Rstr) :
    ParsedAttributionNote :=
  let st := parseParts message
  let files := flushCurrent st
  let json_text := jsonTextOf message
  if json_text.isEmpty then ⟨files, [], none, none⟩
  else
    match payloadOfJson json_text with
    | some payload =>
      ⟨files, buildSources (payload.sources.getD []), payload.rewrite_key,
        payload.rewrite_algorithm⟩
    | none => ⟨files, [], none, none⟩

/-- Variant of the line loop that follows the specification's words for the
separator ("split at the first line exactly equal to `---`") instead of the
code's `line.trim() == "---"`; used only to compare the two readings. -/
def noteLineStepExactSep (st : PState) (line : Rstr) : PState :=
  if ¬ st.in_json ∧ line = "---".data then { st with in_json := true }
  else if st.in_json then { st with json_lines := st.json_lines ++ [line] }
  else
    let trimmed := trimEnd line
    if (trim trimmed).isEmpty then st
    else if ¬ (trimmed.head? = some ' ' ∨ trimmed.head? = some '\t') then
      { st with files := flushCurrent st, current := some ⟨trim trimmed, []⟩ }
    else
      match st.current with
      | none => st
      | some file =>
        match split_whitespace trimmed with
        | [] => st
        | session_id :: restToks =>
          let range_text := joinWith [' '] restToks
          if range_text.isEmpty then st
          else
            let file2 := { file with ranges := file.ranges ++ parseSegments session_id range_text }
            { st with current := some file2 }

/-- File blocks under the specification's exact-separator reading. -/
def parseFilesExactSep (message : Rstr) : List NoteFile :=
  flushCurrent ((rustLines message).foldl noteLineStepExactSep ⟨[], none, [], false⟩)

/-- File blocks parsed from a list of file-section lines (the lines before
the separator), with the same per-line logic as the code. -/
def parseFilesSection (ls : List Rstr) : List NoteFile :=
  flushCurrent (ls.foldl noteLineStep ⟨[], none, [], false⟩)

/-- Grouping of a file's ranges by session id in encounter order (the
`ranges_by_session` `HashMap` of `build_attribution_note`; its observable
content is per-key, and the key iteration is sorted before use). -/
def groupStep (acc : List (Rstr × List (Int × Int))) (r : NoteRange) :
    List (Rstr × List (Int × Int)) :=
  if acc.any (fun g => g.1 = r.session_id) then
    acc.map (fun g =>
      if g.1 = r.session_id then (g.1, g.2 ++ [(r.start_line, r.end_line)]) else g)
  else acc ++ [(r.session_id, [(r.start_line, r.end_line)])]

def groupRangesBySession (ranges : List NoteRange) : List (Rstr × List (Int × Int)) :=
  ranges.foldl groupStep []

/-- Byte-lexicographic string order (Rust `str::cmp` as a `≤` test). -/
def lexLe : Rstr → Rstr → Bool
  | [], _ => true
  | _ :: _, [] => false
  | a :: as1, b :: bs1 => if a < b then true else if a = b then lexLe as1 bs1 else false

/-- Stable lexicographic insertion; with `sortLex` it models `Vec::sort` on
strings (a sort by a total order is extensionally unique on distinct keys). -/
def insertLex (x : Rstr) : List Rstr → List Rstr
  | [] => [x]
  | y :: rest => if lexLe x y then x :: y :: rest else y :: insertLex x rest

/-- `session_ids.sort()` of `build_attribution_note`. -/
def sortLex : List Rstr → List Rstr
  | [] => []
  | x :: rest => insertLex x (sortLex rest)

/-- Stable insertion by path; with `sortFilesByPath` it models
`sorted_files.sort_by(|a, b| a.path.cmp(&b.path))`. -/
def insertFileByPath (f : NoteFile) : List NoteFile → List NoteFile
  | [] => [f]
  | g :: rest => if lexLe f.path g.path then f :: g :: rest else g :: insertFileByPath f rest

/-- `sort_by(|a, b| a.path.cmp(&b.path))` of `build_attribution_note`. -/
def sortFilesByPath : List NoteFile → List NoteFile
  | [] => []
  | f :: rest => insertFileByPath f (sortFilesByPath rest)

/-- One `N` or `N-M` token of a range list. -/
def rangeToken (r : Int × Int) : Rstr :=
  if r.1 = r.2 then intRepr r.1 else intRepr r.1 ++ '-' :: intRepr r.2

/-- The comma-joined range text of one session line. -/
def rangeText (merged : List (Int × Int)) : Rstr := joinWith [','] (merged.map rangeToken)

/-- `format!("  {session_id} {range_text}")`. -/
def sessionLine (session_id : Rstr) (merged : List (Int × Int)) : Rstr :=
  ' ' :: ' ' :: session_id ++ ' ' :: rangeText merged

/-- The text lines of one file block written by `build_attribution_note`:
the path, then one line per session id in sorted order with that session's
merged ranges. -/
def fileBlockLines (file : NoteFile) : List Rstr :=
  let groups := groupRangesBySession file.ranges
  let session_ids := sortLex (groups.map (fun g => g.1))
  file.path :: session_ids.map (fun sid =>
    sessionLine sid (merge_ranges ((groups.lookup sid).getD [])))

/-- `build_attribution_note` (`attribution/notes.rs`): the sorted file blocks,
the `---` separator, then the serialized JSON payload.  The serde
serialization of `AttributionNotePayload` (schema version, base commit sha,
rewrite key and algorithm, sources, `messages_redacted`) is an external
library call and is abstracted as the `payloadJson` argument; codec theorems
quantify over it. -/
def build_attribution_note (files : List NoteFile) (payloadJson : Rstr) : Rstr :=
  joinWith ['\n'] ((sortFilesByPath files).flatMap fileBlockLines ++ ["---".data, payloadJson])

/-- The set of (file path, session id, merged range) triples denoted by a
file list: for each file block and session, the merged ranges of that
session's ranges in that block. -/
def noteTriples (files : List NoteFile) : List (Rstr × Rstr × Int × Int) :=
  files.flatMap (fun f =>
    (groupRangesBySession f.ranges).flatMap (fun g =>
      (merge_ranges g.2).map (fun r => (f.path, g.1, r.1, r.2))))

/-- The ranges of one file block as the parser re-reads the block written by
`build_attribution_note`: one tagged merged range per session line, sessions
in sorted order.  A derived form of the source definitions, used to state the
round-trip lemmas. -/
def blockRanges (f : NoteFile) : List NoteRange :=
  let groups := groupRangesBySession f.ranges
  (sortLex (groups.map (fun g => g.1))).flatMap (fun sid =>
    (merge_ranges ((groups.lookup sid).getD [])).map (fun r =>
      (⟨sid, r.1, r.2⟩ : NoteRange)))

/-- The file block as re-read by the parser. -/
def parsedBlock (f : NoteFile) : NoteFile := ⟨f.path, blockRanges f⟩

end Notes

namespace NotesIo

open Notes

/-- Session metadata row (`attribution/utils.rs`, `fetch_session_meta`). -/
structure SessionMeta where
  tool : Option Rstr
  model : Option Rstr
  conversation_id : Option Rstr
deriving DecidableEq

/-- The author type derived from a source's checkpoint kind on import
(`attribution/notes_io.rs`, `store_line_attributions_from_note`). -/
def author_type_of_meta (meta : NoteSourceMeta) : String :=
  match meta.checkpoint_kind with
  | some ck => if ck = "ai_tab".data ∨ ck = "ai_assist".data then "ai_tab" else "ai_agent"
  | none => "ai_agent"

/-- The session-metadata backfill of import: when tool, model or conversation
id is missing, fill it from the sessions table without overriding present
values. -/
def backfillMeta (meta : NoteSourceMeta) (sessionMeta : Option SessionMeta) : NoteSourceMeta :=
  if meta.tool = none ∨ meta.model = none ∨ meta.conversation_id = none then
    match sessionMeta with
    | some sm =>
      { meta with
        tool := if meta.tool = none then sm.tool else meta.tool
        model := if meta.model = none then sm.model else meta.model
        conversation_id :=
          if meta.conversation_id = none then sm.conversation_id else meta.conversation_id }
    | none => meta
  else meta

/-- One `line_attributions` row inserted by import; `ai_percentage` is always
absent on import (`bind(None::<f32>)`). -/
structure ImportedRow where
  file_path : Rstr
  start_line : Int
  end_line : Int
  session_id : Rstr
  author_type : String
  ai_percentage : Option Int
  tool : Option Rstr
  model : Option Rstr
deriving DecidableEq

/-- `store_line_attributions_from_note` (`attribution/notes_io.rs`): after the
`DELETE` of the commit's previous rows, the inserted rows are exactly these,
one per (file, range) of the parsed note.  `fetch_session_meta` is the
sessions-table oracle. -/
def store_line_attributions_from_note (parsed : ParsedAttributionNote)
    (fetch_session_meta : Rstr → Option SessionMeta) : List ImportedRow :=
  parsed.files.flatMap (fun file =>
    file.ranges.map (fun range =>
      let meta0 := (parsed.sources.lookup range.session_id).getD NoteSourceMeta.empty
      let meta := backfillMeta meta0 (fetch_session_meta range.session_id)
      ⟨file.path, range.start_line, range.end_line, range.session_id,
        author_type_of_meta meta, none, meta.tool, meta.model⟩))

/-- The `(imported_ranges, imported_sessions)` counters of import: the number
of inserted rows and the number of distinct session ids among them. -/
def importCounters (parsed : ParsedAttributionNote) : Nat × Nat :=
  let sids := parsed.files.flatMap (fun file => file.ranges.map (fun r => r.session_id))
  (sids.length, sids.dedup.length)

/-- Status of `import_attribution_note_internal` (`attribution/notes_io.rs`):
`missing` when no note exists under either ref, `invalid` when the parsed
file section is empty, `imported` otherwise.  The prompt-metadata caching
steps touch only the note-meta tables and do not influence the status or the
attribution rows. -/
def import_status (note : Option Rstr) (payloadOfJson : Rstr → Option NotePayload) : String :=
  match note with
  | none => "missing"
  | some message =>
    if (parse_attribution_note payloadOfJson message).files.isEmpty then "invalid"
    else "imported"

/-- The `files_map` fold of `export_attribution_note_internal`
(`attribution/notes_io.rs`, lines 439-453): rows without a session id are
skipped, the rest are grouped into `NoteFile`s by path in encounter order
(the `HashMap` + `into_values` order is not observable through the note's
triple set). -/
def export_files (rows : List LineAttributionCommitRow) : List NoteFile :=
  rows.foldl
    (fun fm row =>
      match row.session_id with
      | none => fm
      | some sid =>
        let p := row.file_path.data
        let r : NoteRange := ⟨sid.data, row.start_line, row.end_line⟩
        if fm.any (fun f => f.path = p) then
          fm.map (fun f => if f.path = p then { f with ranges := f.ranges ++ [r] } else f)
        else fm ++ [⟨p, [r]⟩])
    []

/-- The sources fold of `export_attribution_note_internal` (lines 455-482):
first fill tool/model/checkpoint kind from the rows, then backfill missing
fields from the sessions table. -/
def export_sources (rows : List LineAttributionCommitRow)
    (fetch_session_meta : Rstr → Option SessionMeta) : List (Rstr × NoteSourceMeta) :=
  let bySession := rows.foldl
    (fun acc row =>
      match row.session_id with
      | none => acc
      | some sid =>
        let key := sid.data
        let meta0 := (acc.lookup key).getD NoteSourceMeta.empty
        let meta1 :=
          { meta0 with
            tool := if meta0.tool = none then row.tool.map (fun t => t.data) else meta0.tool
            model := if meta0.model = none then row.model.map (fun m => m.data) else meta0.model
            checkpoint_kind :=
              if meta0.checkpoint_kind = none then
                some (if row.author_type = "ai_tab" then "ai_tab".data else "ai_agent".data)
              else meta0.checkpoint_kind }
        insertAssoc acc key meta1)
    []
  bySession.map (fun entry =>
    match fetch_session_meta entry.1 with
    | some sm =>
      (entry.1,
        { entry.2 with
          tool := if entry.2.tool = none then sm.tool else entry.2.tool
          model := if entry.2.model = none then sm.model else entry.2.model
          conversation_id :=
            if entry.2.conversation_id = none then sm.conversation_id
            else entry.2.conversation_id })
    | none => entry)

/-- Status of `export_attribution_note_internal`: `empty` when the commit has
no attribution rows at all, `exported` otherwise. -/
def export_status (rows : List LineAttributionCommitRow) : String :=
  if rows.isEmpty then "empty" else "exported"

/-- Predicate: the note files built by export contain the range `(p, sid, s,
e)` in some file block. -/
def exportContains (files : List NoteFile) (p sid : Rstr) (s e : Int) : Prop :=
  ∃ f ∈ files, f.path = p ∧ (⟨sid, s, e⟩ : NoteRange) ∈ f.ranges

end NotesIo

/-- A line number lies in one of the inclusive ranges of a list. -/
def coversLine (ranges : List (Int × Int)) (n : Int) : Prop :=
  ∃ r ∈ ranges, r.1 ≤ n ∧ n ≤ r.2

instance (ranges : List (Int × Int)) (n : Int) : Decidable (coversLine ranges n) := by
  unfold coversLine
  infer_instance

/-- Exact (non-wrapping) total length of a list of inclusive ranges. -/
def intLen : List (Int × Int) → Int
  | [] => 0
  | r :: rest => (r.2 - r.1 + 1) + intLen rest

/-- Exact length of a range list whose head is truncated below `b`; the
strengthened bound of the two-pointer intersection count. -/
def truncLen (b : Int) : List (Int × Int) → Int
  | [] => 0
  | c :: rest => max (c.2 - max c.1 b + 1) 0 + intLen rest

/-! Theorems. -/

/-- C10: in `get_file_source_lens`'s pagination, for every offset and limit
whose sum does not overflow a 32-bit unsigned integer, the computed slice
bounds satisfy `start ≤ end.min(len) ≤ len` whenever the slice is taken
(`offset < total_lines`), so the slice indexing of the file's line vector is
in bounds and cannot panic. -/
theorem source_lens_slice_bounds (file_lines : List String) (offset limit : Nat)
    (hno : offset + limit < 4294967296) (htaken : offset < file_lines.length) :
    SourceLens.sliceStart offset ≤
        min (SourceLens.sliceEnd offset limit) file_lines.length ∧
      min (SourceLens.sliceEnd offset limit) file_lines.length ≤ file_lines.length := by
  unfold SourceLens.sliceStart SourceLens.sliceEnd
  rw [Nat.mod_eq_of_lt hno]
  omega

/-- Witness for C10 at `offset = 3`, `limit = 10` on a four-line file. -/
theorem source_lens_slice_bounds_witness :
    3 + 10 < 4294967296 ∧ 3 < (["a", "b", "c", "d"] : List String).length ∧
      (SourceLens.sliceStart 3 ≤
          min (SourceLens.sliceEnd 3 10) (["a", "b", "c", "d"] : List String).length ∧
        min (SourceLens.sliceEnd 3 10) (["a", "b", "c", "d"] : List String).length ≤
          (["a", "b", "c", "d"] : List String).length) :=
  ⟨by decide, by decide,
    source_lens_slice_bounds ["a", "b", "c", "d"] 3 10 (by decide) (by decide)⟩

/-- C6: in the reconciler fold, for a line whose current verdict is no longer
the human default, an incoming row forces the verdict to mixed with
`ai_percentage = 50` exactly when the incoming type differs from the current
type, or the incoming type is not mixed and both sides carry distinct known
session ids; otherwise the verdict type is unchanged and an incoming mixed
row's `ai_percentage` is adopted.  In particular (second conjunct), two
`ai_agent` rows from the distinct sessions `s1` and `s2` covering line 5
yield the verdict mixed with `ai_percentage = 50`. -/
theorem reconciler_mix_rule (meta : SourceLens.LineMeta)
    (attr : SourceLens.LineAttributionRow) (h : meta.author_type ≠ "human") :
    ((let ik := if attr.author_type = "" then "human" else attr.author_type
      let out := SourceLens.apply_line_attr meta attr
      let smix := meta.author_type ≠ ik ∨
        (ik ≠ "mixed" ∧ meta.session_id.isSome ∧ attr.session_id.isSome ∧
          meta.session_id ≠ attr.session_id)
      (smix → out.author_type = "mixed" ∧ out.ai_percentage = some 50) ∧
        (¬ smix → out.author_type = meta.author_type ∧
          (ik = "mixed" → ∀ v, attr.ai_percentage = some v →
            out.ai_percentage = some (SourceLens.u8cast v)) ∧
          (ik = "mixed" → attr.ai_percentage = none →
            out.ai_percentage = meta.ai_percentage) ∧
          (ik ≠ "mixed" → out.ai_percentage = meta.ai_percentage))) ∧
      ((SourceLens.build_line_meta 10
          [⟨5, 5, some "s1", "ai_agent", none, none, none, 0⟩,
           ⟨5, 5, some "s2", "ai_agent", none, none, none, 0⟩]).get? 4).map
          (fun m => (m.author_type, m.ai_percentage)) = some ("mixed", some 50)) := by
  refine ⟨⟨?_, ?_⟩, by decide⟩
  · intro hs
    simp only [SourceLens.apply_line_attr, if_neg h]
    rw [if_pos hs]
    constructor
    · repeat' split
      all_goals rfl
    · repeat' split
      all_goals rfl
  · intro hs
    refine ⟨?_, ?_, ?_, ?_⟩
    · simp only [SourceLens.apply_line_attr, if_neg h, if_neg hs]
      repeat' split
      all_goals rfl
    · intro hik v hv
      simp only [SourceLens.apply_line_attr, if_neg h, if_neg hs, if_pos hik, hv]
      repeat' split
      all_goals rfl
    · intro hik hv
      simp only [SourceLens.apply_line_attr, if_neg h, if_neg hs, if_pos hik, hv]
      repeat' split
      all_goals rfl
    · intro hik
      simp only [SourceLens.apply_line_attr, if_neg h, if_neg hs, if_neg hik]
      repeat' split
      all_goals rfl

/-- Witness for C6: a non-human current verdict (`ai_agent`, session `s1`)
meeting an `ai_agent` row from the distinct session `s2`. -/
theorem reconciler_mix_rule_witness :
    (⟨"ai_agent", some "s1", none, none, none, false⟩ :
        SourceLens.LineMeta).author_type ≠ "human" ∧
      (SourceLens.apply_line_attr ⟨"ai_agent", some "s1", none, none, none, false⟩
          ⟨5, 5, some "s2", "ai_agent", none, none, none, 0⟩).author_type = "mixed" :=
  ⟨by decide,
    ((reconciler_mix_rule ⟨"ai_agent", some "s1", none, none, none, false⟩
        ⟨5, 5, some "s2", "ai_agent", none, none, none, 0⟩ (by decide)).1.1
      (by decide)).1⟩

section StoreLemmas

open Store

theorem find_map_upsert (keys : List KeyRow) (repo : Int) (sha : String) (k alg : String)
    (clk : Nat) (h : keys.any (fun r => r.repo_id = repo ∧ r.commit_sha = sha) = true) :
    ((keys.map (fun r =>
        if r.repo_id = repo ∧ r.commit_sha = sha then
          { r with rewrite_key := k, algorithm := alg, updated_at := clk }
        else r)).find? (fun r => r.repo_id = repo ∧ r.commit_sha = sha)).map
      (fun r => r.rewrite_key) = some k := by
  induction keys with
  | nil => simp at h
  | cons r rest ih =>
    by_cases hr : r.repo_id = repo ∧ r.commit_sha = sha
    · simp [List.find?_cons, hr]
    · simp only [List.any_cons, Bool.or_eq_true, decide_eq_true_eq] at h
      rcases h with h | h
      · exact absurd h hr
      · simpa [List.find?_cons, hr] using ih h

theorem find_append_new (keys : List KeyRow) (repo : Int) (sha : String) (k alg : String)
    (clk : Nat) (h : keys.any (fun r => r.repo_id = repo ∧ r.commit_sha = sha) = false) :
    ((keys ++ [(⟨repo, sha, k, alg, clk, clk⟩ : KeyRow)]).find?
        (fun r => r.repo_id = repo ∧ r.commit_sha = sha)).map
      (fun r => r.rewrite_key) = some k := by
  induction keys with
  | nil => simp [List.find?_cons]
  | cons r rest ih =>
    simp only [List.any_cons, Bool.or_eq_false_iff] at h
    have hr : ¬(r.repo_id = repo ∧ r.commit_sha = sha) := by
      simpa using h.1
    simpa [List.find?_cons, hr] using ih h.2

theorem lookup_store_rewrite_key_self (s : DbState) (repo : Int) (sha : String) (k : String)
    (alg : Option String) :
    lookupRewriteKey (store_rewrite_key s repo sha (some k) alg) repo sha = some k := by
  unfold store_rewrite_key lookupRewriteKey
  by_cases h : s.commit_rewrite_keys.any (fun r => r.repo_id = repo ∧ r.commit_sha = sha) = true
  · simp only [h, if_true]
    exact find_map_upsert s.commit_rewrite_keys repo sha k (alg.getD "patch-id") s.clock h
  · have h2 : s.commit_rewrite_keys.any (fun r => r.repo_id = repo ∧ r.commit_sha = sha) = false := by
      simpa using h
    simp only [h2, Bool.false_eq_true, if_false]
    exact find_append_new s.commit_rewrite_keys repo sha k (alg.getD "patch-id") s.clock h2

/-- C1 counterexample: with attribution rows already present (the Present
no-op branch) `ensure_line_attributions_for_commit` returns without touching
`commit_rewrite_keys`, even though the repository would yield the rewrite key
`k`; so the rewrite key is not persisted in every branch. -/
theorem ensure_present_branch_skips_rewrite_key :
    (Store.ensure_line_attributions_for_commit
        ⟨fun _ => some "k", fun _ => [], fun _ _ => [], [], fun _ => []⟩
        ⟨[⟨1, "c1", "a.rs", 1, 2, none, "human", none, none, none⟩], [], 0⟩
        1 "c1").commit_rewrite_keys = [] ∧
      (⟨fun _ => some "k", fun _ => [], fun _ _ => [], [], fun _ => []⟩ :
          Store.RepoEnv).compute_rewrite_key "c1" = some "k" := by
  constructor <;> rfl

/-- C1 (amended): for every `(repo, commit)`, whenever the commit's
attribution rows do not already exist (so the Present no-op branch is not
taken) and the rewrite key computation succeeds,
`ensure_line_attributions_for_commit` persists the commit's rewrite key in
every branch of the population state machine: the recovered branch, the
no-sessions Absent branch, and the computed branch. -/
theorem ensure_persists_rewrite_key_unless_present (env : RepoEnv) (s : DbState)
    (repo_id : Int) (commit_sha : String) (k : String)
    (hnp : line_attributions_exist s repo_id commit_sha = false)
    (hkey : env.compute_rewrite_key commit_sha = some k) :
    lookupRewriteKey
        (ensure_line_attributions_for_commit env s repo_id commit_sha) repo_id commit_sha
      = some k := by
  unfold ensure_line_attributions_for_commit
  simp only [hnp, Bool.false_eq_true, if_false]
  unfold try_restore_attributions_via_rewrite_key store_rewrite_key_for_commit
  simp only [hkey]
  set s1 := store_rewrite_key s repo_id commit_sha (some k) (some "patch-id") with hs1
  have hbase : lookupRewriteKey s1 repo_id commit_sha = some k :=
    lookup_store_rewrite_key_self s repo_id commit_sha k (some "patch-id")
  cases hfind : find_commit_by_rewrite_key s1 repo_id k commit_sha with
  | none =>
    simp only []
    split
    · exact hbase
    · split
      · exact hbase
      · exact lookup_store_rewrite_key_self _ repo_id commit_sha k (some "patch-id")
  | some src =>
    simp only []
    have hcopy : ∀ t : DbState,
        lookupRewriteKey (copy_line_attributions s1 repo_id src commit_sha).1
            repo_id commit_sha = lookupRewriteKey s1 repo_id commit_sha := by
      intro _
      rfl
    split
    · split
      · exact (hcopy s1).trans hbase
      · split
        · exact (hcopy s1).trans hbase
        · exact lookup_store_rewrite_key_self _ repo_id commit_sha k (some "patch-id")
    · exact (hcopy s1).trans hbase

/-- Witness for the amended C1: an empty store, where the computed branch
runs and the key ends up persisted. -/
theorem ensure_persists_rewrite_key_unless_present_witness :
    line_attributions_exist (⟨[], [], 0⟩ : DbState) 1 "c1" = false ∧
      lookupRewriteKey
          (ensure_line_attributions_for_commit
            ⟨fun _ => some "k", fun _ => [], fun _ _ => [], [], fun _ => []⟩
            ⟨[], [], 0⟩ 1 "c1") 1 "c1" = some "k" :=
  ⟨by decide,
    ensure_persists_rewrite_key_unless_present
      ⟨fun _ => some "k", fun _ => [], fun _ _ => [], [], fun _ => []⟩
      ⟨[], [], 0⟩ 1 "c1" "k" (by decide) rfl⟩

theorem ensure_of_exists (env : RepoEnv) {s : DbState} {repo_id : Int} {commit_sha : String}
    (h : line_attributions_exist s repo_id commit_sha = true) :
    ensure_line_attributions_for_commit env s repo_id commit_sha = s := by
  unfold ensure_line_attributions_for_commit
  simp [h]

theorem store_rewrite_key_la (s : DbState) (repo_id : Int) (commit_sha : String)
    (rk alg : Option String) :
    (store_rewrite_key s repo_id commit_sha rk alg).line_attributions =
      s.line_attributions := by
  unfold store_rewrite_key
  cases rk with
  | none => rfl
  | some k =>
    dsimp only
    split <;> rfl

theorem store_rewrite_key_exist (s : DbState) (repo_id : Int) (commit_sha : String)
    (rk alg : Option String) (r2 : Int) (c2 : String) :
    line_attributions_exist (store_rewrite_key s repo_id commit_sha rk alg) r2 c2 =
      line_attributions_exist s r2 c2 := by
  unfold line_attributions_exist
  rw [store_rewrite_key_la]

theorem pickLatest_foldl_mem (rows : List KeyRow) (acc : Option KeyRow) (x : KeyRow)
    (h : rows.foldl
        (fun acc r =>
          match acc with
          | none => some r
          | some best =>
            if best.updated_at < r.updated_at ∨
                (best.updated_at = r.updated_at ∧ best.created_at < r.created_at) then some r
            else some best)
        acc = some x) :
    acc = some x ∨ x ∈ rows := by
  induction rows generalizing acc with
  | nil => exact Or.inl h
  | cons r rest ih =>
    rcases ih _ h with hstep | hmem
    · cases acc with
      | none =>
        simp only at hstep
        right
        simp [Option.some_inj.mp hstep]
      | some best =>
        simp only at hstep
        split at hstep
        · right
          simp [Option.some_inj.mp hstep]
        · left
          rw [Option.some_inj.mp hstep]
    · right
      exact List.mem_cons_of_mem r hmem

theorem pickLatest_mem {rows : List KeyRow} {x : KeyRow} (h : pickLatest rows = some x) :
    x ∈ rows := by
  rcases pickLatest_foldl_mem rows none x h with hh | hh
  · cases hh
  · exact hh

theorem donorCandidates_mem {s : DbState} {repo_id : Int} {key exclude : String} {row : KeyRow}
    (h : row ∈ donorCandidates s repo_id key exclude) :
    row.repo_id = repo_id ∧ row.rewrite_key = key ∧ row.commit_sha ≠ exclude ∧
      line_attributions_exist s row.repo_id row.commit_sha = true := by
  unfold donorCandidates at h
  have := List.of_mem_filter h
  simpa using this

theorem copy_pos {s : DbState} {repo_id : Int} {src tgt : String}
    (h : line_attributions_exist s repo_id src = true) :
    0 < (copy_line_attributions s repo_id src tgt).2 := by
  unfold line_attributions_exist at h
  rw [List.any_eq_true] at h
  obtain ⟨row, hmem, hpred⟩ := h
  unfold copy_line_attributions
  simp only [List.length_map, List.length_pos]
  intro hempty
  rw [List.filter_eq_nil_iff] at hempty
  exact hempty row hmem hpred

theorem copy_la (s : DbState) (repo_id : Int) (src tgt : String) :
    (copy_line_attributions s repo_id src tgt).1.line_attributions =
      s.line_attributions ++
        ((s.line_attributions.filter (fun r =>
            r.repo_id = repo_id ∧ r.commit_sha = src)).map
          (fun r => { r with commit_sha := tgt })) := rfl

theorem copy_keys (s : DbState) (repo_id : Int) (src tgt : String) :
    (copy_line_attributions s repo_id src tgt).1.commit_rewrite_keys =
      s.commit_rewrite_keys := rfl

theorem exist_copy_pos {s : DbState} {repo_id : Int} {src tgt : String}
    (h : 0 < (copy_line_attributions s repo_id src tgt).2) :
    line_attributions_exist (copy_line_attributions s repo_id src tgt).1 repo_id tgt = true := by
  unfold copy_line_attributions at h ⊢
  simp only [List.length_map, List.length_pos] at h
  unfold line_attributions_exist
  simp only [List.any_append, Bool.or_eq_true, List.any_map, List.any_eq_true]
  right
  obtain ⟨row, hrow⟩ := List.exists_mem_of_ne_nil _ h
  refine ⟨row, hrow, ?_⟩
  have := List.of_mem_filter hrow
  simp only [decide_eq_true_eq] at this
  simp [Function.comp, this.1]

theorem computed_rows_mem {env : RepoEnv} {repo_id : Int} {commit_sha : String} {row : LARow}
    (h : row ∈ computedInsertRows env repo_id commit_sha) :
    row.repo_id = repo_id ∧ row.commit_sha = commit_sha := by
  unfold computedInsertRows at h
  simp only [List.mem_flatMap, List.mem_filterMap, Option.map_eq_some'] at h
  obtain ⟨fp, _, rg, _, idx, _, sess, _, heq⟩ := h
  rw [← heq]
  exact ⟨rfl, rfl⟩

theorem donorCandidates_congr {u v : DbState} (repo_id : Int) (key exclude : String)
    (hk : u.commit_rewrite_keys = v.commit_rewrite_keys)
    (hla : u.line_attributions = v.line_attributions) :
    donorCandidates u repo_id key exclude = donorCandidates v repo_id key exclude := by
  unfold donorCandidates line_attributions_exist
  rw [hk, hla]

theorem filter_upsert_map (keys : List KeyRow) (p : KeyRow → Bool) (repo_id : Int)
    (c k alg : String) (clk : Nat) (hp : ∀ r : KeyRow, r.commit_sha = c → p r = false) :
    (keys.map (fun r =>
        if r.repo_id = repo_id ∧ r.commit_sha = c then
          { r with rewrite_key := k, algorithm := alg, updated_at := clk }
        else r)).filter p = keys.filter p := by
  induction keys with
  | nil => rfl
  | cons r rest ih =>
    by_cases hr : r.repo_id = repo_id ∧ r.commit_sha = c
    · have h2 : p { r with rewrite_key := k, algorithm := alg, updated_at := clk } = false :=
        hp _ hr.2
      have h3 : p r = false := hp r hr.2
      simp only [List.map_cons, List.filter_cons, if_pos hr, h2, h3, Bool.false_eq_true,
        if_false, ih]
    · simp only [List.map_cons, List.filter_cons, if_neg hr, ih]

theorem donorCandidates_store (u : DbState) (repo_id r2 : Int) (c : String)
    (rk alg : Option String) (key : String) :
    donorCandidates (store_rewrite_key u repo_id c rk alg) r2 key c =
      donorCandidates u r2 key c := by
  cases rk with
  | none => rfl
  | some k =>
    unfold store_rewrite_key
    dsimp only
    split
    · unfold donorCandidates line_attributions_exist
      exact filter_upsert_map u.commit_rewrite_keys _ repo_id c k (alg.getD "patch-id") u.clock
        (fun r hr => by simp [hr])
    · unfold donorCandidates line_attributions_exist
      rw [List.filter_append]
      have : (([(⟨repo_id, c, k, alg.getD "patch-id", u.clock, u.clock⟩ : KeyRow)]).filter
          (fun r => decide (r.repo_id = r2 ∧ r.rewrite_key = key ∧ r.commit_sha ≠ c ∧
            (u.line_attributions.any fun la =>
              decide (la.repo_id = r.repo_id ∧ la.commit_sha = r.commit_sha)) = true))) = [] := by
        simp
      rw [this, List.append_nil]

theorem find_store_eq (u : DbState) (repo_id r2 : Int) (c : String) (rk alg : Option String)
    (key : String) :
    find_commit_by_rewrite_key (store_rewrite_key u repo_id c rk alg) r2 key c =
      find_commit_by_rewrite_key u r2 key c := by
  unfold find_commit_by_rewrite_key
  rw [donorCandidates_store]

theorem find_congr {u v : DbState} (repo_id : Int) (key exclude : String)
    (hk : u.commit_rewrite_keys = v.commit_rewrite_keys)
    (hla : u.line_attributions = v.line_attributions) :
    find_commit_by_rewrite_key u repo_id key exclude =
      find_commit_by_rewrite_key v repo_id key exclude := by
  unfold find_commit_by_rewrite_key
  rw [donorCandidates_congr repo_id key exclude hk hla]

theorem find_some_mem {u : DbState} {repo_id : Int} {key c src : String}
    (h : find_commit_by_rewrite_key u repo_id key c = some src) :
    ∃ row ∈ donorCandidates u repo_id key c, row.commit_sha = src := by
  unfold find_commit_by_rewrite_key at h
  cases hp : pickLatest (donorCandidates u repo_id key c) with
  | none => rw [hp] at h; cases h
  | some row =>
    rw [hp] at h
    exact ⟨row, pickLatest_mem hp, by simpa using h⟩

theorem try_restore_keys (env : RepoEnv) (s : DbState) (repo_id : Int) (commit_sha : String) :
    (try_restore_attributions_via_rewrite_key env s repo_id commit_sha).1.commit_rewrite_keys =
      (store_rewrite_key s repo_id commit_sha (env.compute_rewrite_key commit_sha)
        (some "patch-id")).commit_rewrite_keys := by
  unfold try_restore_attributions_via_rewrite_key store_rewrite_key_for_commit
  dsimp only
  cases hk : env.compute_rewrite_key commit_sha with
  | none => rfl
  | some k =>
    dsimp only
    cases hf : find_commit_by_rewrite_key
        (store_rewrite_key s repo_id commit_sha (some k) (some "patch-id")) repo_id k
        commit_sha with
    | none => rfl
    | some src =>
      dsimp only
      split <;> rfl

theorem try_restore_false_la (env : RepoEnv) (s : DbState) (repo_id : Int)
    (commit_sha : String)
    (h : (try_restore_attributions_via_rewrite_key env s repo_id commit_sha).2 = false) :
    (try_restore_attributions_via_rewrite_key env s repo_id commit_sha).1.line_attributions =
      s.line_attributions := by
  unfold try_restore_attributions_via_rewrite_key store_rewrite_key_for_commit at h ⊢
  dsimp only at h ⊢
  cases hk : env.compute_rewrite_key commit_sha with
  | none => exact store_rewrite_key_la s repo_id commit_sha none (some "patch-id")
  | some k =>
    rw [hk] at h
    dsimp only at h ⊢
    cases hf : find_commit_by_rewrite_key
        (store_rewrite_key s repo_id commit_sha (some k) (some "patch-id")) repo_id k
        commit_sha with
    | none => exact store_rewrite_key_la s repo_id commit_sha (some k) (some "patch-id")
    | some src =>
      rw [hf] at h
      dsimp only at h ⊢
      split at h
      · rename_i hzero
        rw [if_pos hzero]
        unfold copy_line_attributions at hzero ⊢
        dsimp only at hzero ⊢
        rw [List.length_map] at hzero
        rw [List.length_eq_zero] at hzero
        rw [hzero]
        simp [store_rewrite_key_la]
      · simp at h

theorem try_restore_true_exists (env : RepoEnv) (s : DbState) (repo_id : Int)
    (commit_sha : String)
    (h : (try_restore_attributions_via_rewrite_key env s repo_id commit_sha).2 = true) :
    line_attributions_exist
        (try_restore_attributions_via_rewrite_key env s repo_id commit_sha).1
        repo_id commit_sha = true := by
  unfold try_restore_attributions_via_rewrite_key store_rewrite_key_for_commit at h ⊢
  dsimp only at h ⊢
  cases hk : env.compute_rewrite_key commit_sha with
  | none => rw [hk] at h; cases h
  | some k =>
    rw [hk] at h
    dsimp only at h ⊢
    cases hf : find_commit_by_rewrite_key
        (store_rewrite_key s repo_id commit_sha (some k) (some "patch-id")) repo_id k
        commit_sha with
    | none => rw [hf] at h; cases h
    | some src =>
      rw [hf] at h
      dsimp only at h ⊢
      split at h
      · cases h
      · rename_i hzero
        rw [if_neg hzero]
        exact exist_copy_pos (Nat.pos_of_ne_zero hzero)

theorem try_restore_false_find (env : RepoEnv) (s : DbState) (repo_id : Int)
    (commit_sha : String)
    (h : (try_restore_attributions_via_rewrite_key env s repo_id commit_sha).2 = false)
    (k : String) (hk : env.compute_rewrite_key commit_sha = some k) :
    find_commit_by_rewrite_key
        (store_rewrite_key s repo_id commit_sha (some k) (some "patch-id")) repo_id k
        commit_sha = none := by
  unfold try_restore_attributions_via_rewrite_key store_rewrite_key_for_commit at h
  rw [hk] at h
  dsimp only at h
  cases hf : find_commit_by_rewrite_key
      (store_rewrite_key s repo_id commit_sha (some k) (some "patch-id")) repo_id k
      commit_sha with
  | none => rfl
  | some src =>
    exfalso
    rw [hf] at h
    dsimp only at h
    obtain ⟨row, hmem, hsha⟩ := find_some_mem hf
    obtain ⟨hrepo, _, _, hexist⟩ := donorCandidates_mem hmem
    rw [hrepo, hsha] at hexist
    have hpos := @copy_pos _ _ _ commit_sha hexist
    split at h
    · omega
    · cases h

theorem try_restore_false_of_find_none (env : RepoEnv) (u : DbState) (repo_id : Int)
    (commit_sha : String)
    (hfind : ∀ k, env.compute_rewrite_key commit_sha = some k →
      find_commit_by_rewrite_key
        (store_rewrite_key u repo_id commit_sha (some k) (some "patch-id")) repo_id k
        commit_sha = none) :
    (try_restore_attributions_via_rewrite_key env u repo_id commit_sha).2 = false := by
  unfold try_restore_attributions_via_rewrite_key store_rewrite_key_for_commit
  dsimp only
  cases hk : env.compute_rewrite_key commit_sha with
  | none => rfl
  | some k =>
    dsimp only
    rw [hfind k hk]

theorem ensure_of_not_exists (env : RepoEnv) {s : DbState} {repo_id : Int}
    {commit_sha : String} (h : line_attributions_exist s repo_id commit_sha = false) :
    ensure_line_attributions_for_commit env s repo_id commit_sha =
      (if (try_restore_attributions_via_rewrite_key env s repo_id commit_sha).2 then
        (try_restore_attributions_via_rewrite_key env s repo_id commit_sha).1
      else if env.sessions.isEmpty then
        (try_restore_attributions_via_rewrite_key env s repo_id commit_sha).1
      else
        (store_rewrite_key_for_commit env
          { (try_restore_attributions_via_rewrite_key env s repo_id commit_sha).1 with
            line_attributions :=
              (try_restore_attributions_via_rewrite_key env s repo_id
                commit_sha).1.line_attributions ++
                computedInsertRows env repo_id commit_sha }
          repo_id commit_sha).1) := by
  unfold ensure_line_attributions_for_commit
  simp only [h, Bool.false_eq_true, if_false]

/-- C2: for every `(repo, commit)`, calling
`ensure_line_attributions_for_commit` twice in sequence over the same
repository state and oracles yields the same line-attribution rows as calling
it once: the second call changes no rows. -/
theorem ensure_idempotent (env : RepoEnv) (s : DbState) (repo_id : Int)
    (commit_sha : String) :
    (ensure_line_attributions_for_commit env
        (ensure_line_attributions_for_commit env s repo_id commit_sha)
        repo_id commit_sha).line_attributions =
      (ensure_line_attributions_for_commit env s repo_id commit_sha).line_attributions := by
  by_cases h1 : line_attributions_exist s repo_id commit_sha = true
  · rw [ensure_of_exists env h1, ensure_of_exists env h1]
  · have h1f : line_attributions_exist s repo_id commit_sha = false := by
      simpa using h1
    rw [ensure_of_not_exists env h1f]
    by_cases htr : (try_restore_attributions_via_rewrite_key env s repo_id commit_sha).2 = true
    · -- recovered branch: rows now exist, second call is the Present no-op
      rw [if_pos htr]
      rw [ensure_of_exists env (try_restore_true_exists env s repo_id commit_sha htr)]
    · have htrf : (try_restore_attributions_via_rewrite_key env s repo_id commit_sha).2
          = false := by simpa using htr
      have hla1 := try_restore_false_la env s repo_id commit_sha htrf
      have hkeys1 := try_restore_keys env s repo_id commit_sha
      rw [if_neg (by simp [htrf])]
      by_cases hsess : env.sessions.isEmpty = true
      · -- Absent branch: no rows, second call again reaches the Absent branch
        rw [if_pos hsess]
        set E := (try_restore_attributions_via_rewrite_key env s repo_id commit_sha).1 with hE
        have hexE : line_attributions_exist E repo_id commit_sha = false := by
          unfold line_attributions_exist
          rw [hla1]
          exact h1f
        have hfind2 : ∀ k, env.compute_rewrite_key commit_sha = some k →
            find_commit_by_rewrite_key
              (store_rewrite_key E repo_id commit_sha (some k) (some "patch-id")) repo_id k
              commit_sha = none := by
          intro k hk
          rw [find_store_eq]
          refine (find_congr repo_id k commit_sha ?_ ?_).trans
            (try_restore_false_find env s repo_id commit_sha htrf k hk)
          · rw [hkeys1, hk]
          · rw [hla1, store_rewrite_key_la]
        have htr2 := try_restore_false_of_find_none env E repo_id commit_sha hfind2
        rw [ensure_of_not_exists env hexE, if_neg (by simp [htr2]), if_pos hsess]
        exact try_restore_false_la env E repo_id commit_sha htr2
      · -- computed branch
        rw [if_neg hsess]
        set rows := computedInsertRows env repo_id commit_sha with hrowsdef
        set E := (store_rewrite_key_for_commit env
          { (try_restore_attributions_via_rewrite_key env s repo_id commit_sha).1 with
            line_attributions :=
              (try_restore_attributions_via_rewrite_key env s repo_id
                commit_sha).1.line_attributions ++ rows }
          repo_id commit_sha).1 with hE
        have hEla : E.line_attributions = s.line_attributions ++ rows := by
          rw [hE]
          unfold store_rewrite_key_for_commit
          dsimp only
          rw [store_rewrite_key_la]
          dsimp only
          rw [hla1]
        by_cases hr0 : rows = []
        · -- the computed branch inserted nothing: second call repeats it verbatim
          have hexE : line_attributions_exist E repo_id commit_sha = false := by
            unfold line_attributions_exist
            rw [hEla, hr0, List.append_nil]
            exact h1f
          have hEkeys : E.commit_rewrite_keys =
              (store_rewrite_key
                { (try_restore_attributions_via_rewrite_key env s repo_id commit_sha).1 with
                  line_attributions :=
                    (try_restore_attributions_via_rewrite_key env s repo_id
                      commit_sha).1.line_attributions ++ rows }
                repo_id commit_sha (env.compute_rewrite_key commit_sha)
                (some "patch-id")).commit_rewrite_keys := by
            rw [hE]
            rfl
          have hfind2 : ∀ k, env.compute_rewrite_key commit_sha = some k →
              find_commit_by_rewrite_key
                (store_rewrite_key E repo_id commit_sha (some k) (some "patch-id")) repo_id k
                commit_sha = none := by
            intro k hk
            rw [find_store_eq]
            have hbase := try_restore_false_find env s repo_id commit_sha htrf k hk
            have hfE : find_commit_by_rewrite_key E repo_id k commit_sha =
                find_commit_by_rewrite_key
                  { (try_restore_attributions_via_rewrite_key env s repo_id commit_sha).1 with
                    line_attributions :=
                      (try_restore_attributions_via_rewrite_key env s repo_id
                        commit_sha).1.line_attributions ++ rows }
                  repo_id k commit_sha := by
              rw [hE]
              unfold store_rewrite_key_for_commit
              dsimp only
              exact find_store_eq _ repo_id repo_id commit_sha _ _ k
            rw [hfE]
            refine (find_congr repo_id k commit_sha ?_ ?_).trans hbase
            · rw [hkeys1, hk]
            · dsimp only
              rw [hla1, hr0, List.append_nil, store_rewrite_key_la]
          have htr2 := try_restore_false_of_find_none env E repo_id commit_sha hfind2
          rw [ensure_of_not_exists env hexE, if_neg (by simp [htr2]), if_neg hsess]
          unfold store_rewrite_key_for_commit
          dsimp only
          rw [store_rewrite_key_la]
          dsimp only
          rw [← hrowsdef, hr0, List.append_nil]
          exact try_restore_false_la env E repo_id commit_sha htr2
        · -- rows were inserted: second call is the Present no-op
          have hexE : line_attributions_exist E repo_id commit_sha = true := by
            unfold line_attributions_exist
            rw [hEla]
            obtain ⟨row, hrow⟩ := List.exists_mem_of_ne_nil rows hr0
            rw [List.any_append, Bool.or_eq_true]
            right
            rw [List.any_eq_true]
            obtain ⟨hrepo, hsha⟩ := computed_rows_mem (hrowsdef ▸ hrow)
            exact ⟨row, hrow, by simp [hrepo, hsha]⟩
          rw [ensure_of_exists env hexE]

end StoreLemmas

section NotesIoLemmas

open Notes NotesIo

theorem exportContains_push (fm : List NoteFile) (p0 : Rstr) (r0 : NoteRange)
    (p sid : Rstr) (s e : Int) :
    exportContains
        (if fm.any (fun f => f.path = p0) then
          fm.map (fun f => if f.path = p0 then { f with ranges := f.ranges ++ [r0] } else f)
        else fm ++ [⟨p0, [r0]⟩]) p sid s e ↔
      exportContains fm p sid s e ∨ (p = p0 ∧ (⟨sid, s, e⟩ : NoteRange) = r0) := by
  by_cases hany : fm.any (fun f => f.path = p0) = true
  · rw [if_pos hany]
    unfold exportContains
    constructor
    · rintro ⟨f2, hf2, hpath, hmem⟩
      rw [List.mem_map] at hf2
      obtain ⟨f, hf, hgf⟩ := hf2
      by_cases hfp : f.path = p0
      · rw [← hgf, if_pos hfp] at hpath hmem
        simp only at hpath hmem
        rw [List.mem_append] at hmem
        rcases hmem with hmem | hmem
        · exact Or.inl ⟨f, hf, hpath, hmem⟩
        · right
          rw [List.mem_singleton] at hmem
          exact ⟨hpath ▸ hfp, hmem⟩
      · rw [← hgf, if_neg hfp] at hpath hmem
        exact Or.inl ⟨f, hf, hpath, hmem⟩
    · rintro (⟨f, hf, hpath, hmem⟩ | ⟨hp, hr⟩)
      · refine ⟨if f.path = p0 then { f with ranges := f.ranges ++ [r0] } else f,
          List.mem_map_of_mem _ hf, ?_, ?_⟩
        · split <;> simpa using hpath
        · split
          · simpa using Or.inl hmem
          · exact hmem
      · rw [List.any_eq_true] at hany
        obtain ⟨f, hf, hfp⟩ := hany
        rw [decide_eq_true_eq] at hfp
        refine ⟨{ f with ranges := f.ranges ++ [r0] }, ?_, ?_, ?_⟩
        · rw [List.mem_map]
          exact ⟨f, hf, by rw [if_pos hfp]⟩
        · simpa using hfp.trans hp.symm
        · simp [← hr]
  · rw [if_neg hany]
    unfold exportContains
    constructor
    · rintro ⟨f, hf, hpath, hmem⟩
      rw [List.mem_append] at hf
      rcases hf with hf | hf
      · exact Or.inl ⟨f, hf, hpath, hmem⟩
      · rw [List.mem_singleton] at hf
        subst hf
        simp only [List.mem_singleton] at hmem
        exact Or.inr ⟨hpath ▸ rfl, hmem⟩
    · rintro (⟨f, hf, hpath, hmem⟩ | ⟨hp, hr⟩)
      · exact ⟨f, List.mem_append_left _ hf, hpath, hmem⟩
      · exact ⟨⟨p0, [r0]⟩, List.mem_append_right _ (List.mem_singleton_self _),
          hp.symm, by simp [hr]⟩

theorem export_files_foldl (rows : List LineAttributionCommitRow) (fm : List NoteFile)
    (p sid : Rstr) (s e : Int) :
    exportContains
        (rows.foldl
          (fun fm row =>
            match row.session_id with
            | none => fm
            | some sid0 =>
              let p0 := row.file_path.data
              let r : NoteRange := ⟨sid0.data, row.start_line, row.end_line⟩
              if fm.any (fun f => f.path = p0) then
                fm.map (fun f =>
                  if f.path = p0 then { f with ranges := f.ranges ++ [r] } else f)
              else fm ++ [⟨p0, [r]⟩])
          fm) p sid s e ↔
      exportContains fm p sid s e ∨
        ∃ row ∈ rows, ∃ sid0 : String, row.session_id = some sid0 ∧ sid0.data = sid ∧
          row.file_path.data = p ∧ row.start_line = s ∧ row.end_line = e := by
  induction rows generalizing fm with
  | nil => simp
  | cons row rest ih =>
    rw [List.foldl_cons, ih]
    cases hsid : row.session_id with
    | none =>
      simp only [hsid]
      constructor
      · rintro (hc | ⟨r2, hr2, rest2⟩)
        · exact Or.inl hc
        · exact Or.inr ⟨r2, List.mem_cons_of_mem _ hr2, rest2⟩
      · rintro (hc | ⟨r2, hr2, sid0, hsid0, rest2⟩)
        · exact Or.inl hc
        · rcases List.mem_cons.mp hr2 with hr2 | hr2
          · subst hr2
            rw [hsid] at hsid0
            cases hsid0
          · exact Or.inr ⟨r2, hr2, sid0, hsid0, rest2⟩
    | some sid0 =>
      simp only [hsid]
      rw [exportContains_push]
      constructor
      · rintro ((hc | ⟨hp, hr⟩) | ⟨r2, hr2, rest2⟩)
        · exact Or.inl hc
        · injection hr with h1 h2 h3
          exact Or.inr ⟨row, List.mem_cons_self _ _, sid0, hsid, h1.symm, hp.symm,
            h2.symm, h3.symm⟩
        · exact Or.inr ⟨r2, List.mem_cons_of_mem _ hr2, rest2⟩
      · rintro (hc | ⟨r2, hr2, sid1, hsid1, hdata, hpath, hs, he⟩)
        · exact Or.inl (Or.inl hc)
        · rcases List.mem_cons.mp hr2 with hr2 | hr2
          · subst hr2
            rw [hsid] at hsid1
            injection hsid1 with hs1
            subst hs1
            refine Or.inl (Or.inr ⟨hpath.symm, ?_⟩)
            rw [← hdata, ← hs, ← he]
          · exact Or.inr ⟨r2, hr2, sid1, hsid1, hdata, hpath, hs, he⟩

/-- C9: export silently omits attribution rows that have no session id: the
note files built by `export_attribution_note_internal` contain exactly the
ranges of the commit's rows whose `session_id` is set (so a row with a null
session id never contributes a range), while the export status is still
`exported` whenever any rows exist, with or without session ids. -/
theorem export_omits_sessionless_rows (rows : List LineAttributionCommitRow) :
    (NotesIo.export_status rows = "exported" ↔ rows ≠ []) ∧
      ∀ (p sid : Notes.Rstr) (s e : Int),
        NotesIo.exportContains (NotesIo.export_files rows) p sid s e ↔
          ∃ row ∈ rows, ∃ sid0 : String, row.session_id = some sid0 ∧ sid0.data = sid ∧
            row.file_path.data = p ∧ row.start_line = s ∧ row.end_line = e := by
  constructor
  · unfold export_status
    by_cases h : rows.isEmpty = true
    · rw [if_pos h]
      simp [List.isEmpty_iff.mp h]
    · rw [if_neg h]
      rw [Bool.not_eq_true, List.isEmpty_eq_false] at h
      simp [h]
  · intro p sid s e
    unfold export_files
    rw [export_files_foldl]
    simp [exportContains]

end NotesIoLemmas

section RangeLemmas

theorem insertByStart_perm (p : Int × Int) (l : List (Int × Int)) :
    List.Perm (insertByStart p l) (p :: l) := by
  induction l with
  | nil => rfl
  | cons q rest ih =>
    unfold insertByStart
    split
    · rfl
    · exact ((ih.cons q).trans (List.Perm.swap p q rest))

theorem sortByStart_perm (l : List (Int × Int)) : List.Perm (sortByStart l) l := by
  induction l with
  | nil => rfl
  | cons p rest ih =>
    exact (insertByStart_perm p (sortByStart rest)).trans (ih.cons p)

theorem mem_insertByStart {x p : Int × Int} {l : List (Int × Int)} :
    x ∈ insertByStart p l ↔ x = p ∨ x ∈ l := by
  rw [(insertByStart_perm p l).mem_iff, List.mem_cons]

theorem mem_sortByStart {x : Int × Int} {l : List (Int × Int)} :
    x ∈ sortByStart l ↔ x ∈ l := (sortByStart_perm l).mem_iff

theorem insertByStart_sorted (p : Int × Int) (l : List (Int × Int))
    (h : List.Pairwise (fun a b : Int × Int => a.1 ≤ b.1) l) :
    List.Pairwise (fun a b : Int × Int => a.1 ≤ b.1) (insertByStart p l) := by
  induction l with
  | nil => simp [insertByStart]
  | cons q rest ih =>
    rw [List.pairwise_cons] at h
    unfold insertByStart
    split
    · rename_i hle
      rw [List.pairwise_cons]
      refine ⟨?_, List.pairwise_cons.mpr h⟩
      intro x hx
      rcases List.mem_cons.mp hx with hx | hx
      · exact hx ▸ hle
      · exact le_trans hle (h.1 x hx)
    · rename_i hgt
      rw [List.pairwise_cons]
      refine ⟨?_, ih h.2⟩
      intro x hx
      rcases mem_insertByStart.mp hx with hx | hx
      · subst hx
        omega
      · exact h.1 x hx

theorem sortByStart_sorted (l : List (Int × Int)) :
    List.Pairwise (fun a b : Int × Int => a.1 ≤ b.1) (sortByStart l) := by
  induction l with
  | nil => simp [sortByStart]
  | cons p rest ih => exact insertByStart_sorted p (sortByStart rest) ih

theorem mergeGoN_bounds (B : Int) (cur : Int × Int) (rest : List (Int × Int))
    (hcur : cur.1 ≤ cur.2) (hcurB : cur.2 ≤ B)
    (hwf : ∀ r ∈ rest, r.1 ≤ r.2) (hB : ∀ r ∈ rest, r.2 ≤ B)
    (hge : ∀ r ∈ rest, cur.1 ≤ r.1)
    (hsorted : List.Pairwise (fun a b : Int × Int => a.1 ≤ b.1) rest) :
    ∀ x ∈ Notes.mergeGoN cur rest, cur.1 ≤ x.1 ∧ x.1 ≤ x.2 ∧ x.2 ≤ B := by
  induction rest generalizing cur with
  | nil =>
    intro x hx
    rw [Notes.mergeGoN, List.mem_singleton] at hx
    subst hx
    exact ⟨le_refl _, hcur, hcurB⟩
  | cons q rest ih =>
    obtain ⟨s, e⟩ := q
    rw [List.pairwise_cons] at hsorted
    intro x hx
    rw [Notes.mergeGoN] at hx
    split at hx
    · rename_i hmerge
      have heB : e ≤ B := hB (s, e) (List.mem_cons_self _ _)
      have := ih (cur.1, max cur.2 e) (by simp; omega) (by simp; omega)
        (fun r hr => hwf r (List.mem_cons_of_mem _ hr))
        (fun r hr => hB r (List.mem_cons_of_mem _ hr))
        (fun r hr => hge r (List.mem_cons_of_mem _ hr))
        hsorted.2 x hx
      simpa using this
    · rename_i hpush
      rcases List.mem_cons.mp hx with hx | hx
      · subst hx
        exact ⟨le_refl _, hcur, hcurB⟩
      · have hse : s ≤ e := hwf (s, e) (List.mem_cons_self _ _)
        have heB : e ≤ B := hB (s, e) (List.mem_cons_self _ _)
        have hs : cur.1 ≤ s := hge (s, e) (List.mem_cons_self _ _)
        have := ih (s, e) hse heB
          (fun r hr => hwf r (List.mem_cons_of_mem _ hr))
          (fun r hr => hB r (List.mem_cons_of_mem _ hr))
          (fun r hr => hsorted.1 r hr)
          hsorted.2 x hx
        exact ⟨le_trans hs this.1, this.2⟩

theorem mergeGoN_start_bound (cur : Int × Int) (rest : List (Int × Int))
    (hcur : cur.1 ≤ cur.2)
    (hwf : ∀ r ∈ rest, r.1 ≤ r.2)
    (hge : ∀ r ∈ rest, cur.1 ≤ r.1)
    (hsorted : List.Pairwise (fun a b : Int × Int => a.1 ≤ b.1) rest) :
    ∀ x ∈ Notes.mergeGoN cur rest, cur.1 ≤ x.1 ∧ x.1 ≤ x.2 := by
  induction rest generalizing cur with
  | nil =>
    intro x hx
    rw [Notes.mergeGoN, List.mem_singleton] at hx
    subst hx
    exact ⟨le_refl _, hcur⟩
  | cons q rest ih =>
    obtain ⟨s, e⟩ := q
    rw [List.pairwise_cons] at hsorted
    intro x hx
    rw [Notes.mergeGoN] at hx
    split at hx
    · rename_i hmerge
      have := ih (cur.1, max cur.2 e) (by simp; omega)
        (fun r hr => hwf r (List.mem_cons_of_mem _ hr))
        (fun r hr => hge r (List.mem_cons_of_mem _ hr))
        hsorted.2 x hx
      simpa using this
    · rename_i hpush
      rcases List.mem_cons.mp hx with hx | hx
      · subst hx
        exact ⟨le_refl _, hcur⟩
      · have hse : s ≤ e := hwf (s, e) (List.mem_cons_self _ _)
        have hs : cur.1 ≤ s := hge (s, e) (List.mem_cons_self _ _)
        have := ih (s, e) hse
          (fun r hr => hwf r (List.mem_cons_of_mem _ hr))
          (fun r hr => hsorted.1 r hr)
          hsorted.2 x hx
        exact ⟨le_trans hs this.1, this.2⟩

theorem mergeGoNE_start_bound (cur : Int × Int) (rest : List (Int × Int))
    (hcur : cur.1 ≤ cur.2)
    (hwf : ∀ r ∈ rest, r.1 ≤ r.2)
    (hge : ∀ r ∈ rest, cur.1 ≤ r.1)
    (hsorted : List.Pairwise (fun a b : Int × Int => a.1 ≤ b.1) rest) :
    ∀ x ∈ Notes.mergeGoNE cur rest, cur.1 ≤ x.1 ∧ x.1 ≤ x.2 := by
  induction rest generalizing cur with
  | nil =>
    intro x hx
    rw [Notes.mergeGoNE, List.mem_singleton] at hx
    subst hx
    exact ⟨le_refl _, hcur⟩
  | cons q rest ih =>
    obtain ⟨s, e⟩ := q
    rw [List.pairwise_cons] at hsorted
    intro x hx
    rw [Notes.mergeGoNE] at hx
    split at hx
    · rename_i hmerge
      have := ih (cur.1, max cur.2 e) (by simp; omega)
        (fun r hr => hwf r (List.mem_cons_of_mem _ hr))
        (fun r hr => hge r (List.mem_cons_of_mem _ hr))
        hsorted.2 x hx
      simpa using this
    · rename_i hpush
      rcases List.mem_cons.mp hx with hx | hx
      · subst hx
        exact ⟨le_refl _, hcur⟩
      · have hse : s ≤ e := hwf (s, e) (List.mem_cons_self _ _)
        have hs : cur.1 ≤ s := hge (s, e) (List.mem_cons_self _ _)
        have := ih (s, e) hse
          (fun r hr => hwf r (List.mem_cons_of_mem _ hr))
          (fun r hr => hsorted.1 r hr)
          hsorted.2 x hx
        exact ⟨le_trans hs this.1, this.2⟩

theorem mergeGoNE_gaps (cur : Int × Int) (rest : List (Int × Int))
    (hcur : cur.1 ≤ cur.2)
    (hwf : ∀ r ∈ rest, r.1 ≤ r.2)
    (hge : ∀ r ∈ rest, cur.1 ≤ r.1)
    (hsorted : List.Pairwise (fun a b : Int × Int => a.1 ≤ b.1) rest) :
    List.Pairwise (fun a b : Int × Int => a.2 + 1 < b.1) (Notes.mergeGoNE cur rest) := by
  induction rest generalizing cur with
  | nil =>
    rw [Notes.mergeGoNE]
    simp
  | cons q rest ih =>
    obtain ⟨s, e⟩ := q
    rw [List.pairwise_cons] at hsorted
    rw [Notes.mergeGoNE]
    split
    · rename_i hmerge
      exact ih (cur.1, max cur.2 e) (by simp; omega)
        (fun r hr => hwf r (List.mem_cons_of_mem _ hr))
        (fun r hr => hge r (List.mem_cons_of_mem _ hr))
        hsorted.2
    · rename_i hpush
      have hse : s ≤ e := hwf (s, e) (List.mem_cons_self _ _)
      rw [List.pairwise_cons]
      constructor
      · intro x hx
        have hb := mergeGoNE_start_bound (s, e) rest hse
          (fun r hr => hwf r (List.mem_cons_of_mem _ hr))
          (fun r hr => hsorted.1 r hr) hsorted.2 x hx
        simp only at hb
        omega
      · exact ih (s, e) hse
          (fun r hr => hwf r (List.mem_cons_of_mem _ hr))
          (fun r hr => hsorted.1 r hr)
          hsorted.2

theorem mergeGoNE_covers (cur : Int × Int) (rest : List (Int × Int))
    (hcur : cur.1 ≤ cur.2)
    (hwf : ∀ r ∈ rest, r.1 ≤ r.2)
    (hge : ∀ r ∈ rest, cur.1 ≤ r.1)
    (hsorted : List.Pairwise (fun a b : Int × Int => a.1 ≤ b.1) rest) :
    ∀ n : Int, coversLine (Notes.mergeGoNE cur rest) n ↔
      ((cur.1 ≤ n ∧ n ≤ cur.2) ∨ coversLine rest n) := by
  induction rest generalizing cur with
  | nil =>
    intro n
    rw [Notes.mergeGoNE]
    simp [coversLine]
  | cons q rest ih =>
    obtain ⟨s, e⟩ := q
    rw [List.pairwise_cons] at hsorted
    intro n
    rw [Notes.mergeGoNE]
    split
    · rename_i hmerge
      rw [ih (cur.1, max cur.2 e) (by simp; omega)
        (fun r hr => hwf r (List.mem_cons_of_mem _ hr))
        (fun r hr => hge r (List.mem_cons_of_mem _ hr))
        hsorted.2 n]
      have hse : s ≤ e := hwf (s, e) (List.mem_cons_self _ _)
      have hs : cur.1 ≤ s := hge (s, e) (List.mem_cons_self _ _)
      simp only [coversLine, List.mem_cons]
      constructor
      · rintro (⟨h1, h2⟩ | ⟨r, hr, h1, h2⟩)
        · have h2m : n ≤ max cur.2 e := by simpa using h2
          rcases le_or_lt n cur.2 with hc | hc
          · exact Or.inl ⟨h1, hc⟩
          · exact Or.inr ⟨(s, e), Or.inl rfl, show s ≤ n by omega, show n ≤ e by omega⟩
        · exact Or.inr ⟨r, Or.inr hr, h1, h2⟩
      · rintro (⟨h1, h2⟩ | ⟨r, hr | hr, h1, h2⟩)
        · exact Or.inl ⟨h1, by simp; omega⟩
        · subst hr
          simp only at h1 h2
          exact Or.inl ⟨by omega, by simp; omega⟩
        · exact Or.inr ⟨r, hr, h1, h2⟩
    · rename_i hpush
      have hse : s ≤ e := hwf (s, e) (List.mem_cons_self _ _)
      have hcov := ih (s, e) hse
        (fun r hr => hwf r (List.mem_cons_of_mem _ hr))
        (fun r hr => hsorted.1 r hr)
        hsorted.2 n
      simp only [coversLine, List.mem_cons] at hcov ⊢
      constructor
      · rintro ⟨r, hr | hr, h1, h2⟩
        · subst hr
          exact Or.inl ⟨h1, h2⟩
        · rcases hcov.mp ⟨r, hr, h1, h2⟩ with h | ⟨r2, hr2, hh⟩
          · exact Or.inr ⟨(s, e), Or.inl rfl, h⟩
          · exact Or.inr ⟨r2, Or.inr hr2, hh⟩
      · rintro (⟨h1, h2⟩ | ⟨r, hr | hr, h1, h2⟩)
        · exact ⟨cur, Or.inl rfl, h1, h2⟩
        · subst hr
          simp only at h1 h2
          rcases hcov.mpr (Or.inl ⟨h1, h2⟩) with ⟨r2, hr2, hh⟩
          exact ⟨r2, Or.inr hr2, hh⟩
        · rcases hcov.mpr (Or.inr ⟨r, hr, h1, h2⟩) with ⟨r2, hr2, hh⟩
          exact ⟨r2, Or.inr hr2, hh⟩

theorem coversLine_perm {l1 l2 : List (Int × Int)} (h : List.Perm l1 l2) (n : Int) :
    coversLine l1 n ↔ coversLine l2 n := by
  unfold coversLine
  exact ⟨fun ⟨r, hr, hh⟩ => ⟨r, h.mem_iff.mp hr, hh⟩,
    fun ⟨r, hr, hh⟩ => ⟨r, h.mem_iff.mpr hr, hh⟩⟩

theorem mergeGoE_eq_mergeGoNE (cur : Int × Int) (rest : List (Int × Int))
    (hwf : ∀ r ∈ rest, r.1 ≤ r.2) :
    Coverage.mergeGoE cur rest = Notes.mergeGoNE cur rest := by
  induction rest generalizing cur with
  | nil => rfl
  | cons q rest ih =>
    obtain ⟨s, e⟩ := q
    have hse : s ≤ e := hwf (s, e) (List.mem_cons_self _ _)
    show (if s ≤ cur.2 + 1 then Coverage.mergeGoE (cur.1, max cur.2 (max e s)) rest
        else cur :: Coverage.mergeGoE (s, max e s) rest) =
      (if s ≤ cur.2 + 1 then Notes.mergeGoNE (cur.1, max cur.2 e) rest
        else cur :: Notes.mergeGoNE (s, e) rest)
    rw [max_eq_left hse]
    split
    · exact ih (cur.1, max cur.2 e) (fun r hr => hwf r (List.mem_cons_of_mem _ hr))
    · rw [ih (s, e) (fun r hr => hwf r (List.mem_cons_of_mem _ hr))]

theorem sortByStart_eq_nil {ranges : List (Int × Int)} (h : sortByStart ranges = []) :
    ranges = [] := by
  have := (sortByStart_perm ranges).length_eq
  rw [h] at this
  exact List.length_eq_zero.mp this.symm

theorem merge_rangesE_eq (ranges : List (Int × Int)) (hwf : ∀ r ∈ ranges, r.1 ≤ r.2) :
    Coverage.merge_rangesE ranges = Notes.merge_rangesE ranges := by
  unfold Coverage.merge_rangesE Notes.merge_rangesE
  cases hs : sortByStart ranges with
  | nil => rfl
  | cons q rest =>
    obtain ⟨s, e⟩ := q
    have hwfs : ∀ r ∈ sortByStart ranges, r.1 ≤ r.2 :=
      fun r hr => hwf r (mem_sortByStart.mp hr)
    rw [hs] at hwfs
    have hse : s ≤ e := hwfs (s, e) (List.mem_cons_self _ _)
    show Coverage.mergeGoE (s, max e s) rest = Notes.mergeGoNE (s, e) rest
    rw [max_eq_left hse]
    exact mergeGoE_eq_mergeGoNE (s, e) rest (fun r hr => hwfs r (List.mem_cons_of_mem _ hr))

theorem notes_merge_ranges_props (ranges : List (Int × Int))
    (hwf : ∀ r ∈ ranges, r.1 ≤ r.2) :
    List.Pairwise (fun a b : Int × Int => a.2 + 1 < b.1) (Notes.merge_rangesE ranges) ∧
      (∀ x ∈ Notes.merge_rangesE ranges, x.1 ≤ x.2) ∧
      (∀ n : Int, coversLine (Notes.merge_rangesE ranges) n ↔ coversLine ranges n) := by
  unfold Notes.merge_rangesE
  cases hs : sortByStart ranges with
  | nil =>
    have h0 : ranges = [] := sortByStart_eq_nil hs
    subst h0
    simp [coversLine]
  | cons q rest =>
    obtain ⟨s, e⟩ := q
    have hwfs : ∀ r ∈ sortByStart ranges, r.1 ≤ r.2 :=
      fun r hr => hwf r (mem_sortByStart.mp hr)
    have hsorted := sortByStart_sorted ranges
    rw [hs] at hwfs hsorted
    rw [List.pairwise_cons] at hsorted
    have hse : s ≤ e := hwfs (s, e) (List.mem_cons_self _ _)
    have hwfr : ∀ r ∈ rest, r.1 ≤ r.2 := fun r hr => hwfs r (List.mem_cons_of_mem _ hr)
    have hge : ∀ r ∈ rest, (s, e).1 ≤ r.1 := fun r hr => hsorted.1 r hr
    refine ⟨mergeGoNE_gaps (s, e) rest hse hwfr hge hsorted.2, ?_, ?_⟩
    · intro x hx
      exact (mergeGoNE_start_bound (s, e) rest hse hwfr hge hsorted.2 x hx).2
    · intro n
      rw [mergeGoNE_covers (s, e) rest hse hwfr hge hsorted.2 n]
      have hperm := sortByStart_perm ranges
      rw [hs] at hperm
      rw [← coversLine_perm hperm n]
      simp only [coversLine, List.mem_cons]
      constructor
      · rintro (⟨h1, h2⟩ | ⟨r, hr, hh⟩)
        · exact ⟨(s, e), Or.inl rfl, h1, h2⟩
        · exact ⟨r, Or.inr hr, hh⟩
      · rintro ⟨r, hr | hr, hh⟩
        · subst hr
          exact Or.inl hh
        · exact Or.inr ⟨r, hr, hh⟩

theorem i32wrap_eq {n : Int} (h1 : -2147483648 ≤ n) (h2 : n ≤ 2147483647) :
    i32wrap n = n := by
  unfold i32wrap
  omega

theorem i32ToU32_eq {n : Int} (h1 : 0 ≤ n) (h2 : n < 4294967296) :
    i32ToU32 n = n.toNat := by
  unfold i32ToU32
  omega

theorem mergeGoNE_bounds (B : Int) (cur : Int × Int) (rest : List (Int × Int))
    (hcur : cur.1 ≤ cur.2) (hcurB : cur.2 ≤ B)
    (hwf : ∀ r ∈ rest, r.1 ≤ r.2) (hB : ∀ r ∈ rest, r.2 ≤ B)
    (hge : ∀ r ∈ rest, cur.1 ≤ r.1)
    (hsorted : List.Pairwise (fun a b : Int × Int => a.1 ≤ b.1) rest) :
    ∀ x ∈ Notes.mergeGoNE cur rest, cur.1 ≤ x.1 ∧ x.1 ≤ x.2 ∧ x.2 ≤ B := by
  induction rest generalizing cur with
  | nil =>
    intro x hx
    rw [Notes.mergeGoNE, List.mem_singleton] at hx
    subst hx
    exact ⟨le_refl _, hcur, hcurB⟩
  | cons q rest ih =>
    obtain ⟨s, e⟩ := q
    rw [List.pairwise_cons] at hsorted
    intro x hx
    rw [Notes.mergeGoNE] at hx
    split at hx
    · rename_i hmerge
      have heB : e ≤ B := hB (s, e) (List.mem_cons_self _ _)
      have := ih (cur.1, max cur.2 e) (by simp; omega) (by simp; omega)
        (fun r hr => hwf r (List.mem_cons_of_mem _ hr))
        (fun r hr => hB r (List.mem_cons_of_mem _ hr))
        (fun r hr => hge r (List.mem_cons_of_mem _ hr))
        hsorted.2 x hx
      simpa using this
    · rename_i hpush
      rcases List.mem_cons.mp hx with hx | hx
      · subst hx
        exact ⟨le_refl _, hcur, hcurB⟩
      · have hse : s ≤ e := hwf (s, e) (List.mem_cons_self _ _)
        have heB : e ≤ B := hB (s, e) (List.mem_cons_self _ _)
        have hs : cur.1 ≤ s := hge (s, e) (List.mem_cons_self _ _)
        have := ih (s, e) hse heB
          (fun r hr => hwf r (List.mem_cons_of_mem _ hr))
          (fun r hr => hB r (List.mem_cons_of_mem _ hr))
          (fun r hr => hsorted.1 r hr)
          hsorted.2 x hx
        exact ⟨le_trans hs this.1, this.2⟩

theorem mergeGoN_eq_E (rest : List (Int × Int)) : ∀ cur : Int × Int,
    -2147483648 ≤ cur.2 → cur.2 ≤ 2147483646 →
    (∀ r ∈ rest, -2147483648 ≤ r.2 ∧ r.2 ≤ 2147483646) →
    Notes.mergeGoN cur rest = Notes.mergeGoNE cur rest := by
  induction rest with
  | nil => intro cur _ _ _; rfl
  | cons q rest ih =>
    intro cur hlo hhi hb
    obtain ⟨s, e⟩ := q
    have hq1 : -2147483648 ≤ e := (hb (s, e) (List.mem_cons_self _ _)).1
    have hq2 : e ≤ 2147483646 := (hb (s, e) (List.mem_cons_self _ _)).2
    show (if s ≤ i32wrap (cur.2 + 1) then Notes.mergeGoN (cur.1, max cur.2 e) rest
        else cur :: Notes.mergeGoN (s, e) rest) =
      (if s ≤ cur.2 + 1 then Notes.mergeGoNE (cur.1, max cur.2 e) rest
        else cur :: Notes.mergeGoNE (s, e) rest)
    rw [i32wrap_eq (by omega) (by omega)]
    split
    · exact ih (cur.1, max cur.2 e) (by simp; omega) (by simp; omega)
        (fun r hr => hb r (List.mem_cons_of_mem _ hr))
    · rw [ih (s, e) (by simp; omega) (by simp; omega)
        (fun r hr => hb r (List.mem_cons_of_mem _ hr))]

theorem notes_merge_eq_E (rs : List (Int × Int))
    (hb : ∀ r ∈ rs, -2147483648 ≤ r.2 ∧ r.2 ≤ 2147483646) :
    Notes.merge_ranges rs = Notes.merge_rangesE rs := by
  unfold Notes.merge_ranges Notes.merge_rangesE
  cases hs : sortByStart rs with
  | nil => rfl
  | cons q rest =>
    obtain ⟨s, e⟩ := q
    have hbs : ∀ r ∈ sortByStart rs, -2147483648 ≤ r.2 ∧ r.2 ≤ 2147483646 :=
      fun r hr => hb r (mem_sortByStart.mp hr)
    rw [hs] at hbs
    exact mergeGoN_eq_E rest (s, e)
      (hbs (s, e) (List.mem_cons_self _ _)).1
      (hbs (s, e) (List.mem_cons_self _ _)).2
      (fun r hr => hbs r (List.mem_cons_of_mem _ hr))

theorem mergeGo_eq_E (rest : List (Int × Int)) : ∀ cur : Int × Int,
    -2147483648 ≤ cur.2 → cur.2 ≤ 2147483646 →
    (∀ r ∈ rest, -2147483648 ≤ r.1 ∧ r.1 ≤ 2147483646 ∧
      -2147483648 ≤ r.2 ∧ r.2 ≤ 2147483646) →
    Coverage.mergeGo cur rest = Coverage.mergeGoE cur rest := by
  induction rest with
  | nil => intro cur _ _ _; rfl
  | cons q rest ih =>
    intro cur hlo hhi hb
    obtain ⟨s, e⟩ := q
    have h1 : -2147483648 ≤ s := (hb (s, e) (List.mem_cons_self _ _)).1
    have h2 : s ≤ 2147483646 := (hb (s, e) (List.mem_cons_self _ _)).2.1
    have h3 : -2147483648 ≤ e := (hb (s, e) (List.mem_cons_self _ _)).2.2.1
    have h4 : e ≤ 2147483646 := (hb (s, e) (List.mem_cons_self _ _)).2.2.2
    show (if s ≤ i32wrap (cur.2 + 1) then Coverage.mergeGo (cur.1, max cur.2 (max e s)) rest
        else cur :: Coverage.mergeGo (s, max e s) rest) =
      (if s ≤ cur.2 + 1 then Coverage.mergeGoE (cur.1, max cur.2 (max e s)) rest
        else cur :: Coverage.mergeGoE (s, max e s) rest)
    rw [i32wrap_eq (by omega) (by omega)]
    split
    · exact ih (cur.1, max cur.2 (max e s)) (by simp; omega) (by simp; omega)
        (fun r hr => hb r (List.mem_cons_of_mem _ hr))
    · rw [ih (s, max e s) (by simp; omega) (by simp; omega)
        (fun r hr => hb r (List.mem_cons_of_mem _ hr))]

theorem coverage_merge_eq_E (rs : List (Int × Int))
    (hb : ∀ r ∈ rs, -2147483648 ≤ r.1 ∧ r.1 ≤ 2147483646 ∧
      -2147483648 ≤ r.2 ∧ r.2 ≤ 2147483646) :
    Coverage.merge_ranges rs = Coverage.merge_rangesE rs := by
  unfold Coverage.merge_ranges Coverage.merge_rangesE
  cases hs : sortByStart rs with
  | nil => rfl
  | cons q rest =>
    obtain ⟨s, e⟩ := q
    have hbs : ∀ r ∈ sortByStart rs, -2147483648 ≤ r.1 ∧ r.1 ≤ 2147483646 ∧
        -2147483648 ≤ r.2 ∧ r.2 ≤ 2147483646 :=
      fun r hr => hb r (mem_sortByStart.mp hr)
    rw [hs] at hbs
    have h1 : -2147483648 ≤ s := (hbs (s, e) (List.mem_cons_self _ _)).1
    have h2 : s ≤ 2147483646 := (hbs (s, e) (List.mem_cons_self _ _)).2.1
    have h3 : -2147483648 ≤ e := (hbs (s, e) (List.mem_cons_self _ _)).2.2.1
    have h4 : e ≤ 2147483646 := (hbs (s, e) (List.mem_cons_self _ _)).2.2.2
    exact mergeGo_eq_E rest (s, max e s) (by simp; omega) (by simp; omega)
      (fun r hr => hbs r (List.mem_cons_of_mem _ hr))

/-- C8 counterexample: on the well-formed input
`[(1, 2147483647), (2, 2147483647)]` (both ranges have `start ≤ end`) the
`i32` computation `last.1 + 1` wraps at `i32::MAX`, so both `merge_ranges`
copies leave the two overlapping ranges unmerged: the output is not pairwise
non-overlapping, refuting the claimed invariant. -/
theorem merge_ranges_overflow_counterexample :
    (∀ r ∈ [((1 : Int), (2147483647 : Int)), (2, 2147483647)], r.1 ≤ r.2) ∧
      Coverage.merge_ranges [(1, 2147483647), (2, 2147483647)] =
        [(1, 2147483647), (2, 2147483647)] ∧
      Notes.merge_ranges [(1, 2147483647), (2, 2147483647)] =
        [(1, 2147483647), (2, 2147483647)] ∧
      ¬ List.Pairwise (fun a b : Int × Int => a.2 < b.1 ∨ b.2 < a.1)
        (Coverage.merge_ranges [(1, 2147483647), (2, 2147483647)]) := by
  decide

/-- C8 (amended): for every list of input ranges with `start ≤ end` whose
endpoints are `i32` values with `end ≤ i32::MAX - 1` — so the `last.1 + 1`
comparison cannot wrap — the coverage and notes `merge_ranges` copies agree,
and the output is sorted by start in ascending order, pairwise
non-overlapping, and covers exactly the union of the input intervals. -/
theorem merge_ranges_invariant (ranges : List (Int × Int))
    (hwf : ∀ r ∈ ranges, r.1 ≤ r.2 ∧ -2147483648 ≤ r.1 ∧ r.2 ≤ 2147483646) :
    Coverage.merge_ranges ranges = Notes.merge_ranges ranges ∧
      List.Pairwise (fun a b : Int × Int => a.1 ≤ b.1) (Coverage.merge_ranges ranges) ∧
      List.Pairwise (fun a b : Int × Int => a.2 < b.1 ∨ b.2 < a.1)
        (Coverage.merge_ranges ranges) ∧
      (∀ n : Int, coversLine (Coverage.merge_ranges ranges) n ↔ coversLine ranges n) := by
  have hwf1 : ∀ r ∈ ranges, r.1 ≤ r.2 := fun r hr => (hwf r hr).1
  have hC : Coverage.merge_ranges ranges = Coverage.merge_rangesE ranges :=
    coverage_merge_eq_E ranges (fun r hr => by
      have h := hwf r hr
      exact ⟨by omega, by omega, by omega, by omega⟩)
  have hN : Notes.merge_ranges ranges = Notes.merge_rangesE ranges :=
    notes_merge_eq_E ranges (fun r hr => by
      have h := hwf r hr
      exact ⟨by omega, by omega⟩)
  obtain ⟨hgaps, hwfout, hcov⟩ := notes_merge_ranges_props ranges hwf1
  have heq := merge_rangesE_eq ranges hwf1
  rw [hC, hN, heq]
  refine ⟨rfl, ?_, ?_, hcov⟩
  · refine List.Pairwise.imp_of_mem (fun {a b} ha hb hr => ?_) hgaps
    have hwa := hwfout a ha
    omega
  · exact hgaps.imp (fun h => Or.inl (by omega))

/-- Witness for the amended C8 on the ranges `[(5,7), (1,3), (4,4)]`. -/
theorem merge_ranges_invariant_witness :
    (∀ r ∈ [((5 : Int), (7 : Int)), (1, 3), (4, 4)],
        r.1 ≤ r.2 ∧ -2147483648 ≤ r.1 ∧ r.2 ≤ 2147483646) ∧
      (Coverage.merge_ranges [(5, 7), (1, 3), (4, 4)] =
          Notes.merge_ranges [(5, 7), (1, 3), (4, 4)] ∧
        List.Pairwise (fun a b : Int × Int => a.1 ≤ b.1)
          (Coverage.merge_ranges [(5, 7), (1, 3), (4, 4)]) ∧
        List.Pairwise (fun a b : Int × Int => a.2 < b.1 ∨ b.2 < a.1)
          (Coverage.merge_ranges [(5, 7), (1, 3), (4, 4)]) ∧
        (∀ n : Int, coversLine (Coverage.merge_ranges [(5, 7), (1, 3), (4, 4)]) n ↔
          coversLine [(5, 7), (1, 3), (4, 4)] n)) :=
  ⟨by decide, merge_ranges_invariant [(5, 7), (1, 3), (4, 4)] (by decide)⟩

theorem intLen_nonneg (C : List (Int × Int)) (hwf : ∀ r ∈ C, r.1 ≤ r.2) :
    0 ≤ intLen C := by
  induction C with
  | nil => simp [intLen]
  | cons r rest ih =>
    have h1 := hwf r (List.mem_cons_self _ _)
    have h2 := ih (fun x hx => hwf x (List.mem_cons_of_mem _ hx))
    rw [intLen]
    omega

theorem truncLen_nonneg (b : Int) (C : List (Int × Int))
    (hwf : ∀ r ∈ C, r.1 ≤ r.2) : 0 ≤ truncLen b C := by
  cases C with
  | nil => simp [truncLen]
  | cons c rest =>
    have h2 := intLen_nonneg rest (fun x hx => hwf x (List.mem_cons_of_mem _ hx))
    rw [truncLen]
    omega

theorem truncLen_le_intLen (b : Int) (C : List (Int × Int))
    (hwf : ∀ r ∈ C, r.1 ≤ r.2) : truncLen b C ≤ intLen C := by
  cases C with
  | nil => simp [truncLen, intLen]
  | cons c rest =>
    have h1 := hwf c (List.mem_cons_self _ _)
    rw [truncLen, intLen]
    omega

theorem intLen_le_span (C : List (Int × Int)) (lo B : Int)
    (hwf : ∀ r ∈ C, r.1 ≤ r.2)
    (hgap : List.Pairwise (fun x y : Int × Int => x.2 + 1 < y.1) C)
    (hin : ∀ r ∈ C, lo ≤ r.1 ∧ r.2 ≤ B) :
    intLen C ≤ max (B - lo + 1) 0 := by
  induction C generalizing lo with
  | nil => simp [intLen]
  | cons c rest ih =>
    rw [List.pairwise_cons] at hgap
    have hc := hin c (List.mem_cons_self _ _)
    have hcwf := hwf c (List.mem_cons_self _ _)
    have hrest := ih (c.2 + 2)
      (fun x hx => hwf x (List.mem_cons_of_mem _ hx)) hgap.2
      (fun x hx => ⟨by have := hgap.1 x hx; omega, (hin x (List.mem_cons_of_mem _ hx)).2⟩)
    rw [intLen]
    omega

theorem intLen_cons (r : Int × Int) (rest : List (Int × Int)) :
    intLen (r :: rest) = (r.2 - r.1 + 1) + intLen rest := rfl

theorem sum_ranges_foldl (C : List (Int × Int)) (acc : Nat)
    (h1 : ∀ r ∈ C, 1 ≤ r.1) (hwf : ∀ r ∈ C, r.1 ≤ r.2)
    (hB : ∀ r ∈ C, r.2 ≤ 2147483647)
    (hno : (acc : Int) + intLen C < 4294967296) :
    C.foldl (fun acc r => u32add acc (i32ToU32 (max (i32wrap (r.2 - r.1 + 1)) 0))) acc =
      acc + (intLen C).toNat := by
  induction C generalizing acc with
  | nil => simp [intLen]
  | cons r rest ih =>
    have hr1 := h1 r (List.mem_cons_self _ _)
    have hrwf := hwf r (List.mem_cons_self _ _)
    have hrB := hB r (List.mem_cons_self _ _)
    have hrestnn := intLen_nonneg rest (fun x hx => hwf x (List.mem_cons_of_mem _ hx))
    rw [intLen_cons] at hno
    have hterm1 : 1 ≤ r.2 - r.1 + 1 := by omega
    have hterm2 : r.2 - r.1 + 1 ≤ 2147483647 := by omega
    rw [List.foldl_cons]
    rw [i32wrap_eq (by omega) hterm2]
    rw [max_eq_left (by omega)]
    rw [i32ToU32_eq (by omega) (by omega)]
    have hadd : u32add acc (r.2 - r.1 + 1).toNat = acc + (r.2 - r.1 + 1).toNat := by
      unfold u32add
      refine Nat.mod_eq_of_lt ?_
      omega
    rw [hadd]
    rw [ih (acc + (r.2 - r.1 + 1).toNat)
      (fun x hx => h1 x (List.mem_cons_of_mem _ hx))
      (fun x hx => hwf x (List.mem_cons_of_mem _ hx))
      (fun x hx => hB x (List.mem_cons_of_mem _ hx))
      (by push_cast; omega)]
    rw [intLen_cons]
    omega

theorem sum_ranges_exact (C : List (Int × Int))
    (h1 : ∀ r ∈ C, 1 ≤ r.1) (hwf : ∀ r ∈ C, r.1 ≤ r.2)
    (hB : ∀ r ∈ C, r.2 ≤ 2147483647)
    (hno : intLen C < 4294967296) :
    Coverage.sum_ranges C = (intLen C).toNat := by
  unfold Coverage.sum_ranges
  rw [sum_ranges_foldl C 0 h1 hwf hB (by push_cast; omega)]
  omega

theorem count_intersection_nil_left (A : List (Int × Int)) :
    Coverage.count_intersection [] A = 0 := by
  rw [Coverage.count_intersection]
  intro c1 c2 ctl a1 a2 atl h1 h2
  cases h1

theorem count_intersection_nil_right (C : List (Int × Int)) :
    Coverage.count_intersection C [] = 0 := by
  cases C with
  | nil => exact count_intersection_nil_left []
  | cons c ctl =>
    rw [Coverage.count_intersection]
    intro c1 c2 ctl2 a1 a2 atl h1 h2
    cases h2

theorem count_le_trunc (C A : List (Int × Int)) : ∀ b : Int,
    (∀ r ∈ C, r.1 ≤ r.2) → (∀ r ∈ C, 1 ≤ r.1) → (∀ r ∈ C, r.2 ≤ 2147483647) →
    List.Pairwise (fun x y : Int × Int => x.2 + 1 < y.1) C →
    (∀ r ∈ A, r.1 ≤ r.2) →
    List.Pairwise (fun x y : Int × Int => x.2 + 1 < y.1) A →
    (∀ r ∈ A, b ≤ r.1) →
    (Coverage.count_intersection C A : Int) ≤ truncLen b C := by
  induction C, A using Coverage.count_intersection.induct with
  | case1 c1 c2 ctl a1 a2 atl hlt ih =>
    intro b hCwf hC1 hCB hCgap hAwf hAgap hAb
    rw [Coverage.count_intersection, if_pos hlt]
    have hCgap2 := (List.pairwise_cons.mp hCgap).2
    have hrec := ih b (fun r hr => hCwf r (List.mem_cons_of_mem _ hr))
      (fun r hr => hC1 r (List.mem_cons_of_mem _ hr))
      (fun r hr => hCB r (List.mem_cons_of_mem _ hr)) hCgap2 hAwf hAgap hAb
    have htr := truncLen_le_intLen b ctl (fun r hr => hCwf r (List.mem_cons_of_mem _ hr))
    have hc := hCwf (c1, c2) (List.mem_cons_self _ _)
    rw [truncLen]
    simp only at hc ⊢
    omega
  | case2 c1 c2 ctl a1 a2 atl hlt hlt2 ih =>
    intro b hCwf hC1 hCB hCgap hAwf hAgap hAb
    rw [Coverage.count_intersection, if_neg hlt, if_pos hlt2]
    exact ih b hCwf hC1 hCB hCgap (fun r hr => hAwf r (List.mem_cons_of_mem _ hr))
      (List.pairwise_cons.mp hAgap).2 (fun r hr => hAb r (List.mem_cons_of_mem _ hr))
  | case3 c1 c2 ctl a1 a2 atl h1 h2 h3 ih =>
    intro b hCwf hC1 hCB hCgap hAwf hAgap hAb
    rw [Coverage.count_intersection, if_neg h1, if_neg h2]
    simp only [if_pos h3]
    have hcwf := hCwf (c1, c2) (List.mem_cons_self _ _)
    have hawf := hAwf (a1, a2) (List.mem_cons_self _ _)
    have hc1 := hC1 (c1, c2) (List.mem_cons_self _ _)
    have hcB := hCB (c1, c2) (List.mem_cons_self _ _)
    have hab := hAb (a1, a2) (List.mem_cons_self _ _)
    simp only at hcwf hawf hc1 hcB hab
    have hCgap2 := (List.pairwise_cons.mp hCgap).2
    have hrec := ih b (fun r hr => hCwf r (List.mem_cons_of_mem _ hr))
      (fun r hr => hC1 r (List.mem_cons_of_mem _ hr))
      (fun r hr => hCB r (List.mem_cons_of_mem _ hr)) hCgap2 hAwf hAgap hAb
    have htr := truncLen_le_intLen b ctl (fun r hr => hCwf r (List.mem_cons_of_mem _ hr))
    have hctlspan := intLen_le_span ctl 1 2147483647
      (fun r hr => hCwf r (List.mem_cons_of_mem _ hr)) hCgap2
      (fun r hr => ⟨hC1 r (List.mem_cons_of_mem _ hr), hCB r (List.mem_cons_of_mem _ hr)⟩)
    have hlohi : max c1 a1 ≤ min c2 a2 := by omega
    rw [if_pos hlohi]
    have hv1 : (1 : Int) ≤ min c2 a2 - max c1 a1 + 1 := by omega
    have hv2 : min c2 a2 - max c1 a1 + 1 ≤ 2147483647 := by omega
    rw [i32wrap_eq (by omega) hv2, i32ToU32_eq (by omega) (by omega)]
    have hadd : u32add (min c2 a2 - max c1 a1 + 1).toNat
        (Coverage.count_intersection ctl ((a1, a2) :: atl)) =
        (min c2 a2 - max c1 a1 + 1).toNat +
          Coverage.count_intersection ctl ((a1, a2) :: atl) := by
      unfold u32add
      refine Nat.mod_eq_of_lt ?_
      have := truncLen_nonneg b ctl (fun r hr => hCwf r (List.mem_cons_of_mem _ hr))
      omega
    rw [hadd, truncLen]
    simp only
    push_cast
    omega
  | case4 c1 c2 ctl a1 a2 atl h1 h2 h3 ih =>
    intro b hCwf hC1 hCB hCgap hAwf hAgap hAb
    rw [Coverage.count_intersection, if_neg h1, if_neg h2]
    simp only [if_neg h3]
    have hcwf := hCwf (c1, c2) (List.mem_cons_self _ _)
    have hawf := hAwf (a1, a2) (List.mem_cons_self _ _)
    have hc1 := hC1 (c1, c2) (List.mem_cons_self _ _)
    have hcB := hCB (c1, c2) (List.mem_cons_self _ _)
    have hab := hAb (a1, a2) (List.mem_cons_self _ _)
    simp only at hcwf hawf hc1 hcB hab
    have hAgap2 := (List.pairwise_cons.mp hAgap).2
    have hAgap1 := (List.pairwise_cons.mp hAgap).1
    have hrec := ih (a2 + 1) hCwf hC1 hCB hCgap
      (fun r hr => hAwf r (List.mem_cons_of_mem _ hr)) hAgap2
      (fun r hr => by have := hAgap1 r hr; omega)
    have hspan := intLen_le_span ((c1, c2) :: ctl) 1 2147483647 hCwf hCgap
      (fun r hr => ⟨hC1 r hr, hCB r hr⟩)
    have htr := truncLen_le_intLen (a2 + 1) ((c1, c2) :: ctl) hCwf
    have hlohi : max c1 a1 ≤ min c2 a2 := by omega
    rw [if_pos hlohi]
    have hv1 : (1 : Int) ≤ min c2 a2 - max c1 a1 + 1 := by omega
    have hv2 : min c2 a2 - max c1 a1 + 1 ≤ 2147483647 := by omega
    rw [i32wrap_eq (by omega) hv2, i32ToU32_eq (by omega) (by omega)]
    have hnn := truncLen_nonneg (a2 + 1) ((c1, c2) :: ctl) hCwf
    have hadd : u32add (min c2 a2 - max c1 a1 + 1).toNat
        (Coverage.count_intersection ((c1, c2) :: ctl) atl) =
        (min c2 a2 - max c1 a1 + 1).toNat +
          Coverage.count_intersection ((c1, c2) :: ctl) atl := by
      unfold u32add
      refine Nat.mod_eq_of_lt ?_
      omega
    rw [hadd]
    rw [truncLen] at hrec ⊢
    have hintnn := intLen_nonneg ctl (fun r hr => hCwf r (List.mem_cons_of_mem _ hr))
    simp only at hrec ⊢
    push_cast
    omega
  | case5 C A hnc =>
    intro b hCwf hC1 hCB hCgap hAwf hAgap hAb
    have hz : Coverage.count_intersection C A = 0 := by
      match C, A with
      | [], A2 => exact count_intersection_nil_left A2
      | c :: ctl, [] => exact count_intersection_nil_right (c :: ctl)
      | (c1, c2) :: ctl, (a1, a2) :: atl =>
        exact absurd rfl (fun h => hnc c1 c2 ctl a1 a2 atl h rfl)
    rw [hz]
    push_cast
    exact truncLen_nonneg b C hCwf

theorem insertByStart_map_norm (p : Int × Int) (l : List (Int × Int)) :
    insertByStart (p.1, max p.2 p.1) (l.map (fun r => (r.1, max r.2 r.1))) =
      (insertByStart p l).map (fun r => (r.1, max r.2 r.1)) := by
  induction l with
  | nil => rfl
  | cons q rest ih =>
    rw [List.map_cons, insertByStart, insertByStart]
    simp only
    split
    · rfl
    · rw [List.map_cons, ih]

theorem sortByStart_map_norm (l : List (Int × Int)) :
    sortByStart (l.map (fun r => (r.1, max r.2 r.1))) =
      (sortByStart l).map (fun r => (r.1, max r.2 r.1)) := by
  induction l with
  | nil => rfl
  | cons p rest ih =>
    rw [List.map_cons, sortByStart, sortByStart, ih]
    exact insertByStart_map_norm p (sortByStart rest)

theorem mergeGo_eq_goN_norm (rest : List (Int × Int)) : ∀ cur : Int × Int,
    Coverage.mergeGoE cur rest =
      Notes.mergeGoNE cur (rest.map (fun r => (r.1, max r.2 r.1))) := by
  induction rest with
  | nil => intro cur; rfl
  | cons q rest ih =>
    intro cur
    obtain ⟨s, e⟩ := q
    show (if s ≤ cur.2 + 1 then Coverage.mergeGoE (cur.1, max cur.2 (max e s)) rest
        else cur :: Coverage.mergeGoE (s, max e s) rest) =
      (if s ≤ cur.2 + 1 then
          Notes.mergeGoNE (cur.1, max cur.2 (max e s))
            (rest.map (fun r => (r.1, max r.2 r.1)))
        else (cur.1, cur.2) :: Notes.mergeGoNE (s, max e s)
            (rest.map (fun r => (r.1, max r.2 r.1))))
    split
    · exact ih (cur.1, max cur.2 (max e s))
    · rw [ih (s, max e s)]

theorem coverage_merge_norm (rs : List (Int × Int)) :
    Coverage.merge_rangesE rs =
      Notes.merge_rangesE (rs.map (fun r => (r.1, max r.2 r.1))) := by
  unfold Coverage.merge_rangesE Notes.merge_rangesE
  rw [sortByStart_map_norm]
  cases hs : sortByStart rs with
  | nil => rfl
  | cons q rest =>
    obtain ⟨s, e⟩ := q
    rw [List.map_cons]
    exact mergeGo_eq_goN_norm rest (s, max e s)

theorem coverage_merge_props (rs : List (Int × Int)) :
    List.Pairwise (fun x y : Int × Int => x.2 + 1 < y.1) (Coverage.merge_rangesE rs) ∧
      (∀ x ∈ Coverage.merge_rangesE rs, x.1 ≤ x.2) := by
  rw [coverage_merge_norm]
  obtain ⟨hgap, hwf, _⟩ := notes_merge_ranges_props
    (rs.map (fun r => (r.1, max r.2 r.1)))
    (by
      intro r hr
      rw [List.mem_map] at hr
      obtain ⟨x, _, hx⟩ := hr
      subst hx
      simp)
  exact ⟨hgap, hwf⟩

theorem count_le_intLen (C A : List (Int × Int))
    (hCwf : ∀ r ∈ C, r.1 ≤ r.2) (hC1 : ∀ r ∈ C, 1 ≤ r.1)
    (hCB : ∀ r ∈ C, r.2 ≤ 2147483647)
    (hCgap : List.Pairwise (fun x y : Int × Int => x.2 + 1 < y.1) C)
    (hAwf : ∀ r ∈ A, r.1 ≤ r.2)
    (hAgap : List.Pairwise (fun x y : Int × Int => x.2 + 1 < y.1) A) :
    (Coverage.count_intersection C A : Int) ≤ intLen C := by
  cases A with
  | nil =>
    rw [count_intersection_nil_right]
    push_cast
    exact intLen_nonneg C hCwf
  | cons a atl =>
    have hAb : ∀ r ∈ a :: atl, a.1 ≤ r.1 := by
      intro r hr
      rcases List.mem_cons.mp hr with hr | hr
      · subst hr; exact le_refl _
      · have h1 := (List.pairwise_cons.mp hAgap).1 r hr
        have h2 := hAwf a (List.mem_cons_self _ _)
        omega
    exact (count_le_trunc C (a :: atl) a.1 hCwf hC1 hCB hCgap hAwf hAgap hAb).trans
      (truncLen_le_intLen a.1 C hCwf)

theorem changed_merged_bounds (rs : List (Int × Int))
    (h : ∀ r ∈ rs, 1 ≤ r.1 ∧ r.1 ≤ r.2 ∧ r.2 ≤ 2147483647) :
    ∀ x ∈ Coverage.merge_rangesE rs, 1 ≤ x.1 ∧ x.1 ≤ x.2 ∧ x.2 ≤ 2147483647 := by
  rw [merge_rangesE_eq rs (fun r hr => (h r hr).2.1)]
  unfold Notes.merge_rangesE
  cases hs : sortByStart rs with
  | nil => simp
  | cons q rest =>
    obtain ⟨s, e⟩ := q
    have hmem : ∀ r ∈ (s, e) :: rest, 1 ≤ r.1 ∧ r.1 ≤ r.2 ∧ r.2 ≤ 2147483647 := by
      intro r hr
      refine h r ?_
      rw [← @mem_sortByStart r rs, hs]
      exact hr
    have hsorted := sortByStart_sorted rs
    rw [hs] at hsorted
    rw [List.pairwise_cons] at hsorted
    have hse := (hmem (s, e) (List.mem_cons_self _ _)).2.1
    have hbounds := mergeGoNE_bounds 2147483647 (s, e) rest hse
      (hmem (s, e) (List.mem_cons_self _ _)).2.2
      (fun r hr => (hmem r (List.mem_cons_of_mem _ hr)).2.1)
      (fun r hr => (hmem r (List.mem_cons_of_mem _ hr)).2.2)
      (fun r hr => hsorted.1 r hr) hsorted.2
    intro x hx
    have hb := hbounds x hx
    have hs1 := (hmem (s, e) (List.mem_cons_self _ _)).1
    simp only at hb hs1
    exact ⟨by omega, hb.2.1, hb.2.2⟩

theorem ideal_shift (files : List (String × List ChangedRange)) : ∀ a : Nat,
    files.foldl
        (fun acc fileChanged =>
          if fileChanged.2.isEmpty then acc
          else acc + Coverage.sum_ranges (Coverage.merge_ranges
            (fileChanged.2.map (fun r => (r.start_line, r.end_line))))) a =
      a + files.foldl
        (fun acc fileChanged =>
          if fileChanged.2.isEmpty then acc
          else acc + Coverage.sum_ranges (Coverage.merge_ranges
            (fileChanged.2.map (fun r => (r.start_line, r.end_line))))) 0 := by
  induction files with
  | nil => intro a; simp
  | cons fc rest ih =>
    intro a
    rw [List.foldl_cons, List.foldl_cons]
    split
    · exact ih a
    · have h1 := ih (a + Coverage.sum_ranges (Coverage.merge_ranges
        (fc.2.map (fun r => (r.start_line, r.end_line)))))
      have h2 := ih (0 + Coverage.sum_ranges (Coverage.merge_ranges
        (fc.2.map (fun r => (r.start_line, r.end_line)))))
      rw [h1, h2]
      omega

theorem idealChangedTotal_cons (fc : String × List ChangedRange)
    (files : List (String × List ChangedRange)) :
    Coverage.idealChangedTotal (fc :: files) =
      (if fc.2.isEmpty then 0
        else Coverage.sum_ranges (Coverage.merge_ranges
          (fc.2.map (fun r => (r.start_line, r.end_line))))) +
        Coverage.idealChangedTotal files := by
  unfold Coverage.idealChangedTotal
  rw [List.foldl_cons, ideal_shift]
  split <;> simp

theorem lookup_val_mem (l : List (String × List (Int × Int))) (k : String)
    (v : List (Int × Int)) (h : l.lookup k = some v) : ∃ k2, (k2, v) ∈ l := by
  induction l with
  | nil => cases h
  | cons a l ih =>
    obtain ⟨a1, a2⟩ := a
    rw [List.lookup] at h
    cases hk : (k == a1) with
    | true =>
      rw [hk] at h
      have h2 : some a2 = some v := h
      rw [Option.some_inj] at h2
      subst h2
      exact ⟨a1, List.mem_cons_self _ _⟩
    | false =>
      rw [hk] at h
      have h2 : List.lookup k l = some v := h
      obtain ⟨k2, hk2⟩ := ih h2
      exact ⟨k2, List.mem_cons_of_mem _ hk2⟩

theorem groupRows_fold_vals (S : LineAttributionCommitRow → Prop)
    (rows : List LineAttributionCommitRow) :
    (∀ r ∈ rows, S r) →
    ∀ acc : List (String × List (Int × Int)),
    (∀ g ∈ acc, ∀ pt ∈ g.2, ∃ row, S row ∧ pt = (row.start_line, row.end_line)) →
    ∀ g ∈ rows.foldl Coverage.groupRowsStep acc, ∀ pt ∈ g.2,
      ∃ row, S row ∧ pt = (row.start_line, row.end_line) := by
  induction rows with
  | nil => intro _ acc hacc; exact hacc
  | cons r rest ih =>
    intro hS acc hacc
    rw [List.foldl_cons]
    refine ih (fun u hu => hS u (List.mem_cons_of_mem _ hu)) _ ?_
    have hSr : S r := hS r (List.mem_cons_self _ _)
    unfold Coverage.groupRowsStep
    split
    · intro g hg pt hpt
      rcases List.mem_map.mp hg with ⟨g0, hg0, hup⟩
      by_cases hgid : g0.1 = r.file_path
      · rw [if_pos hgid] at hup
        subst hup
        rcases List.mem_append.mp hpt with h | h
        · exact hacc g0 hg0 pt h
        · rw [List.mem_singleton] at h
          subst h
          exact ⟨r, hSr, rfl⟩
      · rw [if_neg hgid] at hup
        subst hup
        exact hacc g0 hg0 pt hpt
    · intro g hg pt hpt
      rcases List.mem_append.mp hg with h | h
      · exact hacc g h pt hpt
      · rw [List.mem_singleton] at h
        subst h
        rw [List.mem_singleton] at hpt
        subst hpt
        exact ⟨r, hSr, rfl⟩

theorem groupRowsByFile_vals (rows : List LineAttributionCommitRow) :
    ∀ g ∈ Coverage.groupRowsByFile rows, ∀ pt ∈ g.2,
      ∃ row ∈ rows, pt = (row.start_line, row.end_line) := by
  have h := groupRows_fold_vals (fun r => r ∈ rows) rows (fun r hr => hr) []
    (by intro g hg; cases hg)
  intro g hg pt hpt
  obtain ⟨row, hr1, hr2⟩ := h g hg pt hpt
  exact ⟨row, hr1, hr2⟩

theorem coverage_fold (files : List (String × List ChangedRange))
    (by_file : List (String × List (Int × Int))) (acc : Nat × Nat)
    (hch : ∀ fc ∈ files, ∀ r ∈ fc.2,
      1 ≤ r.start_line ∧ r.start_line ≤ r.end_line ∧ r.end_line ≤ 2147483646)
    (hby : ∀ g ∈ by_file, ∀ r ∈ g.2, -2147483648 ≤ r.1 ∧ r.1 ≤ 2147483646 ∧
      -2147483648 ≤ r.2 ∧ r.2 ≤ 2147483646)
    (hacc : acc.2 ≤ acc.1)
    (hno : acc.1 + Coverage.idealChangedTotal files < 4294967296) :
    (files.foldl (Coverage.coverageStep by_file) acc).1 =
        acc.1 + Coverage.idealChangedTotal files ∧
      (files.foldl (Coverage.coverageStep by_file) acc).2 ≤
        (files.foldl (Coverage.coverageStep by_file) acc).1 := by
  induction files generalizing acc with
  | nil =>
    refine ⟨?_, hacc⟩
    simp [Coverage.idealChangedTotal]
  | cons fc rest ih =>
    rw [List.foldl_cons]
    rw [idealChangedTotal_cons] at hno ⊢
    by_cases hemp : fc.2.isEmpty = true
    · rw [if_pos hemp] at hno ⊢
      have hstep : Coverage.coverageStep by_file acc fc = acc := by
        unfold Coverage.coverageStep
        rw [if_pos hemp]
      rw [hstep]
      have hres := ih acc (fun x hx => hch x (List.mem_cons_of_mem _ hx)) hacc (by omega)
      refine ⟨?_, hres.2⟩
      omega
    · rw [if_neg hemp] at hno ⊢
      set pairs := fc.2.map (fun r => (r.start_line, r.end_line)) with hpairs
      have hpb : ∀ r ∈ pairs, 1 ≤ r.1 ∧ r.1 ≤ r.2 ∧ r.2 ≤ 2147483646 := by
        intro r hr
        rw [hpairs, List.mem_map] at hr
        obtain ⟨x, hx, hxe⟩ := hr
        subst hxe
        exact hch fc (List.mem_cons_self _ _) x hx
      have hbr : Coverage.merge_ranges pairs = Coverage.merge_rangesE pairs :=
        coverage_merge_eq_E pairs (fun r hr => by
          have h := hpb r hr
          exact ⟨by omega, by omega, by omega, by omega⟩)
      rw [hbr] at hno ⊢
      have hmb := changed_merged_bounds pairs (fun r hr => by
        have h := hpb r hr
        exact ⟨h.1, h.2.1, by omega⟩)
      have hmprops := coverage_merge_props pairs
      have hspan := intLen_le_span (Coverage.merge_rangesE pairs) 1 2147483647
        (fun r hr => (hmb r hr).2.1) hmprops.1
        (fun r hr => ⟨(hmb r hr).1, (hmb r hr).2.2⟩)
      have hnn := intLen_nonneg (Coverage.merge_rangesE pairs)
        (fun r hr => (hmb r hr).2.1)
      have hexact : Coverage.sum_ranges (Coverage.merge_rangesE pairs) =
          (intLen (Coverage.merge_rangesE pairs)).toNat :=
        sum_ranges_exact _ (fun r hr => (hmb r hr).1) (fun r hr => (hmb r hr).2.1)
          (fun r hr => (hmb r hr).2.2) (by omega)
      have hsn : Coverage.sum_ranges (Coverage.merge_rangesE pairs) ≤ 2147483647 := by
        rw [hexact]
        omega
      have htot : u32add acc.1 (Coverage.sum_ranges (Coverage.merge_rangesE pairs)) =
          acc.1 + Coverage.sum_ranges (Coverage.merge_rangesE pairs) := by
        unfold u32add
        exact Nat.mod_eq_of_lt (by omega)
      cases hlk : by_file.lookup fc.1 with
      | none =>
        have hstep : Coverage.coverageStep by_file acc fc =
            (acc.1 + Coverage.sum_ranges (Coverage.merge_rangesE pairs), acc.2) := by
          unfold Coverage.coverageStep
          rw [if_neg hemp]
          simp only [← hpairs, hbr, hlk, htot]
        rw [hstep]
        have hres := ih (acc.1 + Coverage.sum_ranges (Coverage.merge_rangesE pairs), acc.2)
          (fun x hx => hch x (List.mem_cons_of_mem _ hx)) (by simp; omega) (by simp; omega)
        refine ⟨?_, hres.2⟩
        rw [hres.1]
        omega
      | some attrRanges =>
        obtain ⟨k2, hk2⟩ := lookup_val_mem by_file fc.1 attrRanges hlk
        have habr : Coverage.merge_ranges attrRanges = Coverage.merge_rangesE attrRanges :=
          coverage_merge_eq_E attrRanges (fun r hr => hby (k2, attrRanges) hk2 r hr)
        have haprops := coverage_merge_props attrRanges
        have hcnt := count_le_intLen (Coverage.merge_rangesE pairs)
          (Coverage.merge_rangesE attrRanges)
          (fun r hr => (hmb r hr).2.1) (fun r hr => (hmb r hr).1)
          (fun r hr => (hmb r hr).2.2) hmprops.1 haprops.2 haprops.1
        have hcntN : Coverage.count_intersection (Coverage.merge_rangesE pairs)
            (Coverage.merge_rangesE attrRanges) ≤
            Coverage.sum_ranges (Coverage.merge_rangesE pairs) := by
          rw [hexact]
          omega
        have hc2 : u32add acc.2 (Coverage.count_intersection (Coverage.merge_rangesE pairs)
            (Coverage.merge_rangesE attrRanges)) =
            acc.2 + Coverage.count_intersection (Coverage.merge_rangesE pairs)
              (Coverage.merge_rangesE attrRanges) := by
          unfold u32add
          exact Nat.mod_eq_of_lt (by omega)
        have hstep : Coverage.coverageStep by_file acc fc =
            (acc.1 + Coverage.sum_ranges (Coverage.merge_rangesE pairs),
              acc.2 + Coverage.count_intersection (Coverage.merge_rangesE pairs)
                (Coverage.merge_rangesE attrRanges)) := by
          unfold Coverage.coverageStep
          rw [if_neg hemp]
          simp only [← hpairs, hbr, habr, hlk, htot, hc2]
        rw [hstep]
        have hres := ih (acc.1 + Coverage.sum_ranges (Coverage.merge_rangesE pairs),
            acc.2 + Coverage.count_intersection (Coverage.merge_rangesE pairs)
              (Coverage.merge_rangesE attrRanges))
          (fun x hx => hch x (List.mem_cons_of_mem _ hx)) (by simp; omega) (by simp; omega)
        refine ⟨?_, hres.2⟩
        rw [hres.1]
        omega

/-- C7 counterexample: with one changed range `1..=2147483647` and two
attribution rows `1..=2147483647` and `2..=2147483647` on the same file —
inputs admitted by the original claim — the `i32` `last.1 + 1` wraps at
`i32::MAX`, the attributed ranges stay unmerged and overlapping, the
two-pointer intersection double-counts them, and the reported coverage is
about 200 percent: `attributed_lines > total_changed_lines` and
`coverage_percent > 100`, refuting the claimed bound. -/
theorem coverage_percent_overflow_counterexample :
    (∀ fc ∈ [("a.rs", [(⟨1, 2147483647, .Added⟩ : ChangedRange)])], ∀ r ∈ fc.2,
        1 ≤ r.start_line ∧ r.start_line ≤ r.end_line ∧ r.end_line ≤ 2147483647) ∧
      Coverage.idealChangedTotal [("a.rs", [⟨1, 2147483647, .Added⟩])] < 4294967296 ∧
      Coverage.compute_attribution_coverage
          [⟨"a.rs", 1, 2147483647, some "s1", "ai_agent", none, none, none⟩,
            ⟨"a.rs", 2, 2147483647, some "s1", "ai_agent", none, none, none⟩]
          [("a.rs", [⟨1, 2147483647, .Added⟩])] =
        some ⟨2147483647, 4294967293, (4294967293 : ℚ) / 2147483647 * 100⟩ ∧
      (2147483647 : Nat) < 4294967293 ∧
      (100 : ℚ) < (4294967293 : ℚ) / 2147483647 * 100 := by
  refine ⟨by decide, by decide, ?_, by norm_num, by norm_num⟩
  have hbase : Coverage.count_intersection [((1 : Int), (2147483647 : Int))] [] = 0 := by
    rw [Coverage.count_intersection.eq_def]
  norm_num [Coverage.compute_attribution_coverage, Coverage.groupRowsByFile,
    Coverage.groupRowsStep, Coverage.coverageStep, Coverage.merge_ranges,
    Coverage.mergeGo, Coverage.sum_ranges, Coverage.count_intersection,
    sortByStart, insertByStart, u32add, i32wrap, i32ToU32, List.lookup,
    hbase, Int.toNat_ofNat]
  have h1 : Int.toNat 2147483647 = 2147483647 := rfl
  have h2 : Int.toNat 2147483646 = 2147483646 := rfl
  rw [h1, h2]
  norm_num

/-- C7 (amended): for attribution rows and per-file changed ranges whose
`i32` line numbers stay at or below `i32::MAX - 1` — so the merge's
`last.1 + 1` cannot wrap — and whose merged changed total fits in `u32`,
`compute_attribution_coverage` returns a `coverage_percent` between 0 and
100 whenever the total of merged changed lines is positive — because the
attributed count is an intersection with the changed set, so
`attributed_lines ≤ total_changed_lines` — and returns `none` when the
changed-line total is zero. -/
theorem coverage_percent_bounds (attributions : List LineAttributionCommitRow)
    (changed_by_file : List (String × List ChangedRange))
    (hrow : ∀ row ∈ attributions, -2147483648 ≤ row.start_line ∧
      row.start_line ≤ 2147483646 ∧ -2147483648 ≤ row.end_line ∧
      row.end_line ≤ 2147483646)
    (hch : ∀ fc ∈ changed_by_file, ∀ r ∈ fc.2,
      1 ≤ r.start_line ∧ r.start_line ≤ r.end_line ∧ r.end_line ≤ 2147483646)
    (hno : Coverage.idealChangedTotal changed_by_file < 4294967296) :
    (∀ summary,
      Coverage.compute_attribution_coverage attributions changed_by_file = some summary →
        summary.attributed_lines ≤ summary.total_changed_lines ∧
          0 < summary.total_changed_lines ∧
          0 ≤ summary.coverage_percent ∧ summary.coverage_percent ≤ 100) ∧
      (Coverage.idealChangedTotal changed_by_file = 0 →
        Coverage.compute_attribution_coverage attributions changed_by_file = none) := by
  have hby : ∀ g ∈ Coverage.groupRowsByFile attributions, ∀ r ∈ g.2,
      -2147483648 ≤ r.1 ∧ r.1 ≤ 2147483646 ∧ -2147483648 ≤ r.2 ∧ r.2 ≤ 2147483646 := by
    intro g hg r hr
    obtain ⟨row, hrowm, hre⟩ := groupRowsByFile_vals attributions g hg r hr
    have h := hrow row hrowm
    rw [hre]
    exact ⟨h.1, h.2.1, h.2.2.1, h.2.2.2⟩
  obtain ⟨htot, hle⟩ := coverage_fold changed_by_file
    (Coverage.groupRowsByFile attributions) (0, 0) hch hby (le_refl 0) (by omega)
  unfold Coverage.compute_attribution_coverage
  by_cases hemp : attributions.isEmpty = true
  · rw [if_pos hemp]
    exact ⟨fun summary h => (nomatch h), fun _ => rfl⟩
  · rw [if_neg hemp]
    constructor
    · intro summary h
      simp only at h
      split at h
      · cases h
      · rename_i hne
        rw [Option.some_inj] at h
        subst h
        simp only
        rw [htot] at hne hle ⊢
        dsimp only at hne hle ⊢
        refine ⟨hle, by omega, ?_, ?_⟩
        · positivity
        · set a := (changed_by_file.foldl
            (Coverage.coverageStep (Coverage.groupRowsByFile attributions)) (0, 0)).2 with ha
          set t := 0 + Coverage.idealChangedTotal changed_by_file with ht
          have htpos : 0 < t := by omega
          have hat : a ≤ t := hle
          have hdiv : (a : ℚ) / (t : ℚ) ≤ 1 := by
            rw [div_le_one (by positivity)]
            exact_mod_cast hat
          calc (a : ℚ) / (t : ℚ) * 100 ≤ 1 * 100 :=
                mul_le_mul_of_nonneg_right hdiv (by norm_num)
            _ = 100 := one_mul 100
    · intro hzero
      simp only
      rw [htot, hzero]
      rfl

/-- Witness for the amended C7: one attributed range `1..3` against one
changed range `1..5` of one file. -/
theorem coverage_percent_bounds_witness :
    (∀ row ∈ [(⟨"a.rs", 1, 3, some "s1", "ai_agent", none, none, none⟩ :
        LineAttributionCommitRow)],
      -2147483648 ≤ row.start_line ∧ row.start_line ≤ 2147483646 ∧
        -2147483648 ≤ row.end_line ∧ row.end_line ≤ 2147483646) ∧
    (∀ fc ∈ [("a.rs", [(⟨1, 5, .Added⟩ : ChangedRange)])], ∀ r ∈ fc.2,
        1 ≤ r.start_line ∧ r.start_line ≤ r.end_line ∧ r.end_line ≤ 2147483646) ∧
      Coverage.idealChangedTotal [("a.rs", [⟨1, 5, .Added⟩])] < 4294967296 ∧
      ((∀ summary,
        Coverage.compute_attribution_coverage
            [⟨"a.rs", 1, 3, some "s1", "ai_agent", none, none, none⟩]
            [("a.rs", [⟨1, 5, .Added⟩])] = some summary →
          summary.attributed_lines ≤ summary.total_changed_lines ∧
            0 < summary.total_changed_lines ∧
            0 ≤ summary.coverage_percent ∧ summary.coverage_percent ≤ 100) ∧
        (Coverage.idealChangedTotal [("a.rs", [⟨1, 5, .Added⟩])] = 0 →
          Coverage.compute_attribution_coverage
            [⟨"a.rs", 1, 3, some "s1", "ai_agent", none, none, none⟩]
            [("a.rs", [⟨1, 5, .Added⟩])] = none)) :=
  ⟨by decide, by decide, by decide,
    coverage_percent_bounds [⟨"a.rs", 1, 3, some "s1", "ai_agent", none, none, none⟩]
      [("a.rs", [⟨1, 5, .Added⟩])] (by decide) (by decide) (by decide)⟩

end RangeLemmas

section NoteParseLemmas

open Notes

theorem noteLineStep_noJson (F : List NoteFile) (C : Option NoteFile) (J : List Rstr)
    (l : Rstr) (hl : ¬ trim l = "---".data) :
    noteLineStep ⟨F, C, J, false⟩ l =
      ⟨(noteLineStep ⟨F, C, [], false⟩ l).files,
        (noteLineStep ⟨F, C, [], false⟩ l).current, J, false⟩ := by
  unfold noteLineStep
  simp only [hl, and_false, if_false, Bool.false_eq_true, false_and, ite_false,
    not_false_eq_true]
  repeat' split
  all_goals rfl

theorem fold_noJson (ls : List Rstr) : ∀ (F : List NoteFile) (C : Option NoteFile)
    (J : List Rstr), (∀ l ∈ ls, ¬ trim l = "---".data) →
    ls.foldl noteLineStep ⟨F, C, J, false⟩ =
      ⟨(ls.foldl noteLineStep ⟨F, C, [], false⟩).files,
        (ls.foldl noteLineStep ⟨F, C, [], false⟩).current, J, false⟩ := by
  induction ls with
  | nil => intro F C J _; rfl
  | cons l rest ih =>
    intro F C J hls
    have hl := hls l (List.mem_cons_self _ _)
    rw [List.foldl_cons, List.foldl_cons]
    rw [noteLineStep_noJson F C J l hl]
    rw [ih _ _ J (fun x hx => hls x (List.mem_cons_of_mem _ hx))]
    rw [ih _ _ [] (fun x hx => hls x (List.mem_cons_of_mem _ hx))]
    have hstep : noteLineStep ⟨F, C, [], false⟩ l =
        ⟨(noteLineStep ⟨F, C, [], false⟩ l).files,
          (noteLineStep ⟨F, C, [], false⟩ l).current, [], false⟩ :=
      noteLineStep_noJson F C [] l hl
    rw [← hstep]

theorem noteLineStep_sep (F : List NoteFile) (C : Option NoteFile) (J : List Rstr)
    (l : Rstr) (hl : trim l = "---".data) :
    noteLineStep ⟨F, C, J, false⟩ l = ⟨F, C, J, true⟩ := by
  unfold noteLineStep
  rw [if_pos (by simp [hl])]

theorem fold_json (ls : List Rstr) : ∀ (F : List NoteFile) (C : Option NoteFile)
    (J : List Rstr),
    ls.foldl noteLineStep ⟨F, C, J, true⟩ = ⟨F, C, J ++ ls, true⟩ := by
  induction ls with
  | nil => intro F C J; simp
  | cons l rest ih =>
    intro F C J
    rw [List.foldl_cons]
    have hstep : noteLineStep ⟨F, C, J, true⟩ l = ⟨F, C, J ++ [l], true⟩ := by
      unfold noteLineStep
      rw [if_neg (by simp)]
      simp
    rw [hstep, ih]
    simp

theorem dropWhile_head_sep (ls : List Rstr) (x : Rstr) (xs : List Rstr)
    (h : ls.dropWhile (fun l => !(decide (trim l = "---".data))) = x :: xs) :
    trim x = "---".data := by
  induction ls with
  | nil => cases h
  | cons l rest ih =>
    rw [List.dropWhile_cons] at h
    split at h
    · exact ih h
    · rename_i hneg
      cases h
      simpa using hneg

theorem parseParts_characterization (msg : Rstr) :
    (parseParts msg).files ++
        (match (parseParts msg).current with | some f => [f] | none => []) =
      parseFilesSection ((rustLines msg).takeWhile
        (fun l => !(decide (trim l = "---".data)))) ∧
    (parseParts msg).json_lines =
      (rustLines msg).drop
        (((rustLines msg).takeWhile (fun l => !(decide (trim l = "---".data)))).length + 1) := by
  unfold parseParts parseFilesSection flushCurrent
  set q : Rstr → Bool := fun l => !(decide (trim l = "---".data)) with hq
  have hsplit := @List.takeWhile_append_dropWhile _ q (rustLines msg)
  have hpre : ∀ l ∈ (rustLines msg).takeWhile q, ¬ trim l = "---".data := by
    intro l hl
    have := List.mem_takeWhile_imp hl
    rw [hq] at this
    simpa using this
  cases hdrop : (rustLines msg).dropWhile q with
  | nil =>
    have hls : rustLines msg = (rustLines msg).takeWhile q := by
      conv_lhs => rw [← hsplit]
      rw [hdrop, List.append_nil]
    rw [← hls] at hpre ⊢
    rw [fold_noJson (rustLines msg) [] none [] hpre]
    refine ⟨rfl, ?_⟩
    simp only
    rw [List.drop_eq_nil_of_le]
    rw [hls]
    omega
  | cons x xs =>
    have hx : trim x = "---".data := dropWhile_head_sep (rustLines msg) x xs hdrop
    have hls : rustLines msg = (rustLines msg).takeWhile q ++ x :: xs := by
      conv_lhs => rw [← hsplit]
      rw [hdrop]
    have hfold : (rustLines msg).foldl noteLineStep ⟨[], none, [], false⟩ =
        ⟨(((rustLines msg).takeWhile q).foldl noteLineStep ⟨[], none, [], false⟩).files,
          (((rustLines msg).takeWhile q).foldl noteLineStep ⟨[], none, [], false⟩).current,
          xs, true⟩ := by
      conv_lhs => rw [hls]
      rw [List.foldl_append, fold_noJson ((rustLines msg).takeWhile q) [] none [] hpre]
      rw [List.foldl_cons, noteLineStep_sep _ _ _ x hx, fold_json]
      simp
    rw [hfold]
    refine ⟨rfl, ?_⟩
    show xs = (rustLines msg).drop (((rustLines msg).takeWhile q).length + 1)
    nth_rewrite 2 [hls]
    have happ : (rustLines msg).takeWhile q ++ x :: xs =
        ((rustLines msg).takeWhile q ++ [x]) ++ xs := by
      simp
    rw [happ, List.drop_left' (by simp)]

/-- C4 counterexample: in the note body `" ---\nx.rs"` no line is exactly the
three-character string `---`, yet `parse_attribution_note` treats the first
line (whose *trimmed* content is `---`) as the separator: the file section
comes out empty and `x.rs` lands in the JSON tail, whereas the
exact-separator reading of the specification would parse `x.rs` as a file
block and leave the JSON tail empty. -/
theorem note_separator_counterexample :
    (∀ l ∈ rustLines " ---\nx.rs".data, ¬ l = "---".data) ∧
      (parse_attribution_note (fun _ => none) " ---\nx.rs".data).files = [] ∧
      jsonTextOf " ---\nx.rs".data = "x.rs".data ∧
      parseFilesExactSep " ---\nx.rs".data = [⟨"x.rs".data, []⟩] := by
  decide

/-- C4 (amended): `parse_attribution_note` splits at the first line whose
*trimmed* content equals `---` (the code tests `line.trim() == "---"`, not
exact equality): its parsed file blocks are exactly those of the lines
strictly before that line, and its collected JSON-tail lines are exactly the
lines strictly after it. -/
theorem note_separator_trimmed_split (pj : Rstr → Option NotePayload) (msg : Rstr) :
    (parse_attribution_note pj msg).files =
      parseFilesSection ((rustLines msg).takeWhile
        (fun l => !(decide (trim l = "---".data)))) ∧
    (parseParts msg).json_lines =
      (rustLines msg).drop
        (((rustLines msg).takeWhile
          (fun l => !(decide (trim l = "---".data)))).length + 1) := by
  have h := parseParts_characterization msg
  constructor
  · have hf : (parse_attribution_note pj msg).files = flushCurrent (parseParts msg) := by
      unfold parse_attribution_note
      dsimp only
      split
      · rfl
      · split <;> rfl
    rw [hf]
    unfold flushCurrent
    exact h.1
  · exact h.2

end NoteParseLemmas

section ImportLemmas

open Notes NotesIo

/-- C5: for every note body whose file/range section parses to at least one
file but whose JSON tail is not valid JSON (the serde oracle returns `none`),
parsing keeps all parsed files and ranges with an empty sources map and no
rewrite metadata; import of such a note reports status `imported`; and (when
the sessions table has no metadata for the note's sessions) the stored rows
are exactly one row per parsed (file, range) with author type `ai_agent` and
empty metadata. -/
theorem note_json_failure_import (pj : Rstr → Option NotePayload) (msg : Rstr)
    (fetch : Rstr → Option SessionMeta)
    (hne : (parse_attribution_note pj msg).files.isEmpty = false)
    (hjson : pj (jsonTextOf msg) = none)
    (hfetch : ∀ sid, fetch sid = none) :
    parse_attribution_note pj msg = ⟨flushCurrent (parseParts msg), [], none, none⟩ ∧
    import_status (some msg) pj = "imported" ∧
    store_line_attributions_from_note (parse_attribution_note pj msg) fetch =
      (parse_attribution_note pj msg).files.flatMap (fun file =>
        file.ranges.map (fun range =>
          ⟨file.path, range.start_line, range.end_line, range.session_id,
            "ai_agent", none, none, none⟩)) := by
  have h1 : parse_attribution_note pj msg = ⟨flushCurrent (parseParts msg), [], none, none⟩ := by
    unfold parse_attribution_note
    dsimp only
    split
    · rfl
    · rw [hjson]
  refine ⟨h1, ?_, ?_⟩
  · unfold import_status
    simp [hne]
  · rw [h1]
    unfold store_line_attributions_from_note
    simp only [List.lookup_nil, Option.getD_none, hfetch]
    rfl

/-- Witness for C5: the note `a.rs\n  s1 2-3\n---\nnot json` with a failing
JSON oracle and an empty sessions table. -/
theorem note_json_failure_import_witness :
    (parse_attribution_note (fun _ => none) "a.rs\n  s1 2-3\n---\nnot json".data).files.isEmpty
        = false ∧
    (parse_attribution_note (fun _ => none) "a.rs\n  s1 2-3\n---\nnot json".data =
        ⟨flushCurrent (parseParts "a.rs\n  s1 2-3\n---\nnot json".data), [], none, none⟩ ∧
      import_status (some "a.rs\n  s1 2-3\n---\nnot json".data) (fun _ => none) = "imported" ∧
      store_line_attributions_from_note
          (parse_attribution_note (fun _ => none) "a.rs\n  s1 2-3\n---\nnot json".data)
          (fun _ => none) =
        (parse_attribution_note (fun _ => none)
            "a.rs\n  s1 2-3\n---\nnot json".data).files.flatMap (fun file =>
          file.ranges.map (fun range =>
            ⟨file.path, range.start_line, range.end_line, range.session_id,
              "ai_agent", none, none, none⟩))) :=
  ⟨by decide,
    note_json_failure_import (fun _ => none) "a.rs\n  s1 2-3\n---\nnot json".data
      (fun _ => none) (by decide) rfl (fun _ => rfl)⟩

end ImportLemmas

section CodecLemmas

open Notes

theorem trimStart_length_le (s : Rstr) : (trimStart s).length ≤ s.length := by
  induction s with
  | nil => exact le_refl _
  | cons c rest ih =>
    rw [trimStart]
    split
    · exact le_trans ih (by simp)
    · exact le_refl _

theorem trimStart_eq_of_length (s : Rstr) (h : (trimStart s).length = s.length) :
    trimStart s = s := by
  induction s with
  | nil => rfl
  | cons c rest ih =>
    by_cases hc : isWs c = true
    · rw [trimStart, if_pos hc] at h
      have hle := trimStart_length_le rest
      rw [List.length_cons] at h
      omega
    · rw [trimStart, if_neg hc]

theorem trim_eq_self_parts (p : Rstr) (h : trim p = p) :
    trimStart p = p ∧ trimEnd p = p := by
  have hE1 : (trimEnd p).length ≤ p.length := by
    calc (trimEnd p).length = (trimStart p.reverse).length := by
          unfold trimEnd
          rw [List.length_reverse]
      _ ≤ p.reverse.length := trimStart_length_le _
      _ = p.length := List.length_reverse _
  have hS1 : p.length ≤ (trimEnd p).length := by
    conv_lhs => rw [← h]
    exact trimStart_length_le _
  have hE : trimEnd p = p := by
    have h2 : (trimStart p.reverse).length = p.reverse.length := by
      have : (trimEnd p).length = p.length := le_antisymm hE1 hS1
      unfold trimEnd at this
      rw [List.length_reverse] at this
      rw [this, List.length_reverse]
    have h3 := trimStart_eq_of_length p.reverse h2
    unfold trimEnd
    rw [h3, List.reverse_reverse]
  have hS : trimStart p = p := by
    calc trimStart p = trimStart (trimEnd p) := by rw [hE]
      _ = trim p := rfl
      _ = p := h
  exact ⟨hS, hE⟩

theorem head_not_ws_of_trimStart_eq {c : Char} {rest : Rstr}
    (h : trimStart (c :: rest) = c :: rest) : isWs c = false := by
  by_contra hc
  rw [Bool.not_eq_false] at hc
  rw [trimStart, if_pos hc] at h
  have hle := trimStart_length_le rest
  have hl := congrArg List.length h
  rw [List.length_cons] at hl
  omega

theorem trimStart_eq_of_head {c : Char} (rest : Rstr) (h : isWs c = false) :
    trimStart (c :: rest) = c :: rest := by
  rw [trimStart, if_neg (by simp [h])]

theorem trimEnd_append_nonws (a b : Rstr) (hb : b ≠ [])
    (hbc : ∀ c ∈ b, isWs c = false) : trimEnd (a ++ b) = a ++ b := by
  unfold trimEnd
  rw [List.reverse_append]
  cases hrb : b.reverse with
  | nil => exact absurd (List.reverse_eq_nil_iff.mp hrb) hb
  | cons c rest =>
    have hc : c ∈ b := by
      have hm : c ∈ b.reverse := by
        rw [hrb]
        exact List.mem_cons_self _ _
      exact List.mem_reverse.mp hm
    rw [List.cons_append, trimStart_eq_of_head _ (hbc c hc), ← List.cons_append,
      ← hrb, ← List.reverse_append, List.reverse_reverse]

theorem trimEnd_eq_self_of_nonws (s : Rstr) (h : ∀ c ∈ s, isWs c = false) :
    trimEnd s = s := by
  cases s with
  | nil => rfl
  | cons c rest =>
    have := trimEnd_append_nonws [] (c :: rest) (by simp) (by simpa using h)
    simpa using this

theorem trim_eq_self_of_nonws (s : Rstr) (h : ∀ c ∈ s, isWs c = false) :
    trim s = s := by
  unfold trim
  rw [trimEnd_eq_self_of_nonws s h]
  cases s with
  | nil => rfl
  | cons c rest => exact trimStart_eq_of_head _ (h c (List.mem_cons_self _ _))

theorem splitOnChar_not_mem (sep : Char) (s : Rstr) (h : sep ∉ s) :
    splitOnChar sep s = [s] := by
  induction s with
  | nil => rfl
  | cons c rest ih =>
    rw [splitOnChar, if_neg (by intro hc; subst hc; exact h (List.mem_cons_self _ _)),
      ih (fun hm => h (List.mem_cons_of_mem _ hm))]

theorem splitOnChar_append_sep (sep : Char) (a b : Rstr) (h : sep ∉ a) :
    splitOnChar sep (a ++ sep :: b) = a :: splitOnChar sep b := by
  induction a with
  | nil => rw [List.nil_append, splitOnChar, if_pos rfl]
  | cons c a ih =>
    rw [List.cons_append, splitOnChar,
      if_neg (by intro hc; subst hc; exact h (List.mem_cons_self _ _)),
      ih (fun hm => h (List.mem_cons_of_mem _ hm))]

theorem splitOnChar_ne_nil (sep : Char) (s : Rstr) : splitOnChar sep s ≠ [] := by
  induction s with
  | nil => simp [splitOnChar]
  | cons c rest ih =>
    rw [splitOnChar]
    split
    · simp
    · cases h : splitOnChar sep rest with
      | nil => exact absurd h ih
      | cons l ls => simp

theorem joinWith_cons (sep : Rstr) (l : Rstr) (ls : List Rstr) (h : ls ≠ []) :
    joinWith sep (l :: ls) = l ++ sep ++ joinWith sep ls := by
  cases ls with
  | nil => exact absurd rfl h
  | cons m ms => rfl

theorem joinWith_chars (sep : Rstr) (ts : List Rstr) :
    ∀ c ∈ joinWith sep ts, (∃ t ∈ ts, c ∈ t) ∨ c ∈ sep := by
  induction ts with
  | nil => intro c hc; cases hc
  | cons t ts ih =>
    intro c hc
    cases ts with
    | nil =>
      left
      exact ⟨t, List.mem_cons_self _ _, hc⟩
    | cons m ms =>
      rw [joinWith_cons _ _ _ (by simp)] at hc
      rcases List.mem_append.mp hc with hc1 | hc2
      · rcases List.mem_append.mp hc1 with hct | hcs
        · exact Or.inl ⟨t, List.mem_cons_self _ _, hct⟩
        · exact Or.inr hcs
      · rcases ih c hc2 with ⟨u, hu, hcu⟩ | hcs
        · exact Or.inl ⟨u, List.mem_cons_of_mem _ hu, hcu⟩
        · exact Or.inr hcs

theorem joinWith_head_ne_nil (sep : Rstr) (t : Rstr) (ts : List Rstr) (ht : t ≠ []) :
    joinWith sep (t :: ts) ≠ [] := by
  cases ts with
  | nil => exact ht
  | cons m ms =>
    rw [joinWith_cons _ _ _ (by simp)]
    intro h
    rcases List.append_eq_nil.mp h with ⟨h1, _⟩
    rcases List.append_eq_nil.mp h1 with ⟨h2, _⟩
    exact ht h2

theorem splitOnceChar_not_mem (sep : Char) (s : Rstr) (h : sep ∉ s) :
    splitOnceChar sep s = none := by
  induction s with
  | nil => rfl
  | cons c rest ih =>
    rw [splitOnceChar, if_neg (by intro hc; subst hc; exact h (List.mem_cons_self _ _)),
      ih (fun hm => h (List.mem_cons_of_mem _ hm))]
    rfl

theorem splitOnceChar_append (sep : Char) (a b : Rstr) (h : sep ∉ a) :
    splitOnceChar sep (a ++ sep :: b) = some (a, b) := by
  induction a with
  | nil => rw [List.nil_append, splitOnceChar, if_pos rfl]
  | cons c a ih =>
    rw [List.cons_append, splitOnceChar,
      if_neg (by intro hc; subst hc; exact h (List.mem_cons_self _ _)),
      ih (fun hm => h (List.mem_cons_of_mem _ hm))]
    rfl

theorem swAux_token (t : Rstr) (ht : ∀ c ∈ t, isWs c = false) :
    ∀ (acc s : Rstr), swAux acc (t ++ s) = swAux (acc ++ t) s := by
  induction t with
  | nil => intro acc s; rw [List.nil_append, List.append_nil]
  | cons c t ih =>
    intro acc s
    rw [List.cons_append, swAux, if_neg (by simp [ht c (List.mem_cons_self _ _)]),
      ih (fun d hd => ht d (List.mem_cons_of_mem _ hd)) (acc ++ [c]) s,
      List.append_assoc, List.singleton_append]

theorem swAux_ws_nil (c : Char) (rest : Rstr) (hc : isWs c = true) :
    swAux [] (c :: rest) = swAux [] rest := by
  rw [swAux, if_pos hc, if_pos rfl]

theorem split_whitespace_sid_rt (sid rt : Rstr) (hs : sid ≠ [])
    (hsw : ∀ c ∈ sid, isWs c = false) (hr : rt ≠ [])
    (hrw : ∀ c ∈ rt, isWs c = false) :
    split_whitespace (' ' :: ' ' :: (sid ++ ' ' :: rt)) = [sid, rt] := by
  unfold split_whitespace
  rw [swAux_ws_nil _ _ (by decide), swAux_ws_nil _ _ (by decide)]
  have h1 := swAux_token sid hsw [] (' ' :: rt)
  rw [List.nil_append] at h1
  rw [h1, swAux, if_pos (by decide), if_neg hs]
  have h2 := swAux_token rt hrw [] []
  rw [List.nil_append, List.append_nil] at h2
  rw [h2, swAux, if_neg hr]

theorem isDigitCh_digitChar (d : Nat) (h : d < 10) : isDigitCh (digitChar d) = true := by
  interval_cases d <;> decide

theorem digitVal_digitChar (d : Nat) (h : d < 10) : digitVal (digitChar d) = d := by
  interval_cases d <;> decide

theorem digit_char_facts (c : Char) (h : isDigitCh c = true) :
    isWs c = false ∧ c ≠ '-' ∧ c ≠ '+' ∧ c ≠ ',' ∧ c ≠ '\n' := by
  simp only [isDigitCh, decide_eq_true_eq] at h
  refine ⟨?_, ?_, ?_, ?_, ?_⟩
  · simp only [isWs, decide_eq_false_iff_not, List.mem_cons, List.not_mem_nil]
    push_neg
    simp only [not_false_eq_true, and_true]
    omega
  · intro hc; subst hc; exact absurd h (by decide)
  · intro hc; subst hc; exact absurd h (by decide)
  · intro hc; subst hc; exact absurd h (by decide)
  · intro hc; subst hc; exact absurd h (by decide)

theorem digitsVal_append (s : Rstr) (c : Char) :
    digitsVal (s ++ [c]) = digitsVal s * 10 + digitVal c := by
  unfold digitsVal
  rw [List.foldl_append]
  rfl

theorem natDigitsAux_digits (fuel n : Nat) :
    ∀ c ∈ natDigitsAux fuel n, isDigitCh c = true := by
  induction fuel generalizing n with
  | zero => intro c hc; cases hc
  | succ fuel ih =>
    intro c hc
    rw [natDigitsAux] at hc
    split at hc
    · cases hc
    · rcases List.mem_append.mp hc with hc1 | hc2
      · exact ih (n / 10) c hc1
      · rw [List.mem_singleton] at hc2
        subst hc2
        exact isDigitCh_digitChar _ (Nat.mod_lt _ (by norm_num))

theorem natDigitsAux_val (fuel : Nat) : ∀ n : Nat, n ≤ fuel →
    digitsVal (natDigitsAux fuel n) = n := by
  induction fuel with
  | zero =>
    intro n hn
    have h0 : n = 0 := by omega
    subst h0
    rfl
  | succ fuel ih =>
    intro n hn
    rw [natDigitsAux]
    split
    · rename_i h0
      rw [h0]
      rfl
    · rename_i h0
      have hdiv : n / 10 < n := Nat.div_lt_self (by omega) (by norm_num)
      rw [digitsVal_append, ih (n / 10) (by omega),
        digitVal_digitChar _ (Nat.mod_lt _ (by norm_num))]
      omega

theorem natRepr_spec (n : Nat) (h : 1 ≤ n) :
    natRepr n ≠ [] ∧ (∀ c ∈ natRepr n, isDigitCh c = true) ∧
      digitsVal (natRepr n) = n := by
  unfold natRepr
  rw [if_neg (by omega)]
  refine ⟨?_, natDigitsAux_digits n n, natDigitsAux_val n n (le_refl n)⟩
  cases n with
  | zero => omega
  | succ m =>
    rw [natDigitsAux, if_neg (by omega)]
    simp

theorem parseI32_natRepr (n : Nat) (h1 : 1 ≤ n) (h2 : n ≤ 2147483647) :
    parseI32 (natRepr n) = some (n : Int) := by
  obtain ⟨hne, hdig, hval⟩ := natRepr_spec n h1
  cases hr : natRepr n with
  | nil => exact absurd hr hne
  | cons c rest =>
    rw [hr] at hdig hval
    have hc := hdig c (List.mem_cons_self _ _)
    obtain ⟨hws, hminus, hplus, hcomma, hnl⟩ := digit_char_facts c hc
    have hall : (c :: rest).all isDigitCh = true := List.all_eq_true.mpr hdig
    simp only [parseI32]
    rw [if_neg hminus, if_neg hplus]
    dsimp only
    rw [if_neg (show ¬(c :: rest = []) by simp), if_pos hall, hval,
      if_neg (by simp), if_pos h2]

theorem intRepr_pos_eq (n : Int) (h1 : 1 ≤ n) : intRepr n = natRepr n.toNat := by
  unfold intRepr
  rw [if_neg (by omega)]

theorem intRepr_digits (n : Int) (h1 : 1 ≤ n) :
    intRepr n ≠ [] ∧ ∀ c ∈ intRepr n, isDigitCh c = true := by
  rw [intRepr_pos_eq n h1]
  obtain ⟨a, b, _⟩ := natRepr_spec n.toNat (by omega)
  exact ⟨a, b⟩

theorem intRepr_no_dash (n : Int) (h1 : 1 ≤ n) : '-' ∉ intRepr n := by
  intro h
  have := (intRepr_digits n h1).2 '-' h
  exact absurd this (by decide)

theorem parseI32_intRepr (n : Int) (h1 : 1 ≤ n) (h2 : n ≤ 2147483647) :
    parseI32 (intRepr n) = some n := by
  rw [intRepr_pos_eq n h1, parseI32_natRepr n.toNat (by omega) (by omega)]
  congr 1
  omega

theorem rangeToken_spec (r : Int × Int) (h1 : 1 ≤ r.1) (h2 : r.1 ≤ r.2)
    (_h3 : r.2 ≤ 2147483647) :
    rangeToken r ≠ [] ∧ (∀ c ∈ rangeToken r, isDigitCh c = true ∨ c = '-') := by
  unfold rangeToken
  split
  · obtain ⟨ha, hb⟩ := intRepr_digits r.1 h1
    exact ⟨ha, fun c hc => Or.inl (hb c hc)⟩
  · obtain ⟨ha, hb⟩ := intRepr_digits r.1 h1
    obtain ⟨hc2, hd⟩ := intRepr_digits r.2 (by omega)
    constructor
    · intro hx
      rcases List.append_eq_nil.mp hx with ⟨hx1, _⟩
      exact ha hx1
    · intro c hc
      rcases List.mem_append.mp hc with h | h
      · exact Or.inl (hb c h)
      · rcases List.mem_cons.mp h with h | h
        · exact Or.inr h
        · exact Or.inl (hd c h)

theorem rangeToken_nonws (r : Int × Int) (h1 : 1 ≤ r.1) (h2 : r.1 ≤ r.2)
    (h3 : r.2 ≤ 2147483647) : ∀ c ∈ rangeToken r, isWs c = false := by
  intro c hc
  rcases (rangeToken_spec r h1 h2 h3).2 c hc with h | h
  · exact (digit_char_facts c h).1
  · subst h; decide

theorem segStep_rangeToken (sid : Rstr) (acc : List NoteRange) (r : Int × Int)
    (h1 : 1 ≤ r.1) (h2 : r.1 ≤ r.2) (h3 : r.2 ≤ 2147483647) :
    segStep sid acc (rangeToken r) = acc ++ [⟨sid, r.1, r.2⟩] := by
  have hne := (rangeToken_spec r h1 h2 h3).1
  have htr : trim (rangeToken r) = rangeToken r :=
    trim_eq_self_of_nonws _ (rangeToken_nonws r h1 h2 h3)
  have hI : ¬ ((rangeToken r).isEmpty = true) := by
    rw [List.isEmpty_iff]
    exact hne
  by_cases hr12 : r.1 = r.2
  · have htok : rangeToken r = intRepr r.1 := by
      unfold rangeToken
      rw [if_pos hr12]
    simp only [segStep]
    rw [htr, if_neg hI, htok, splitOnceChar_not_mem '-' _ (intRepr_no_dash r.1 h1)]
    dsimp only
    rw [parseI32_intRepr r.1 h1 (by omega)]
    simp only [Option.getD_some]
    rw [if_pos (by omega)]
    rw [show (⟨sid, r.1, r.1⟩ : NoteRange) = ⟨sid, r.1, r.2⟩ by rw [hr12]]
  · have htok : rangeToken r = intRepr r.1 ++ '-' :: intRepr r.2 := by
      unfold rangeToken
      rw [if_neg hr12]
    simp only [segStep]
    rw [htr, if_neg hI, htok, splitOnceChar_append '-' _ _ (intRepr_no_dash r.1 h1)]
    dsimp only
    rw [trim_eq_self_of_nonws _ (fun c hc => (digit_char_facts c
        ((intRepr_digits r.1 h1).2 c hc)).1),
      trim_eq_self_of_nonws _ (fun c hc => (digit_char_facts c
        ((intRepr_digits r.2 (by omega)).2 c hc)).1),
      parseI32_intRepr r.1 h1 (by omega), parseI32_intRepr r.2 (by omega) h3]
    simp only [Option.getD_some]
    rw [if_pos (by omega)]

theorem segfold (sid : Rstr) (ms : List (Int × Int))
    (hwf : ∀ r ∈ ms, 1 ≤ r.1 ∧ r.1 ≤ r.2 ∧ r.2 ≤ 2147483647) :
    ∀ acc, (ms.map rangeToken).foldl (segStep sid) acc =
      acc ++ ms.map (fun r => (⟨sid, r.1, r.2⟩ : NoteRange)) := by
  induction ms with
  | nil => intro acc; simp
  | cons r ms ih =>
    intro acc
    obtain ⟨a, b, c⟩ := hwf r (List.mem_cons_self _ _)
    rw [List.map_cons, List.foldl_cons, segStep_rangeToken sid acc r a b c,
      ih (fun q hq => hwf q (List.mem_cons_of_mem _ hq))
        (acc ++ [(⟨sid, r.1, r.2⟩ : NoteRange)]),
      List.map_cons, List.append_assoc, List.singleton_append]

theorem splitOnChar_joinWith (sep : Char) (ts : List Rstr) (hne : ts ≠ [])
    (hc : ∀ t ∈ ts, sep ∉ t) :
    splitOnChar sep (joinWith [sep] ts) = ts := by
  induction ts with
  | nil => exact absurd rfl hne
  | cons t ts ih =>
    cases ts with
    | nil => exact splitOnChar_not_mem sep t (hc t (List.mem_cons_self _ _))
    | cons m msx =>
      rw [joinWith_cons _ _ _ (by simp), List.append_assoc, List.singleton_append,
        splitOnChar_append_sep sep t _ (hc t (List.mem_cons_self _ _)),
        ih (by simp) (fun u hu => hc u (List.mem_cons_of_mem _ hu))]

theorem rangeText_chars (ms : List (Int × Int))
    (hwf : ∀ r ∈ ms, 1 ≤ r.1 ∧ r.1 ≤ r.2 ∧ r.2 ≤ 2147483647) :
    ∀ c ∈ rangeText ms, isDigitCh c = true ∨ c = '-' ∨ c = ',' := by
  intro c hc
  unfold rangeText at hc
  rcases joinWith_chars [','] (ms.map rangeToken) c hc with ⟨t, ht, hct⟩ | hcs
  · rcases List.mem_map.mp ht with ⟨r, hr, rfl⟩
    obtain ⟨a, b, d⟩ := hwf r hr
    rcases (rangeToken_spec r a b d).2 c hct with h | h
    · exact Or.inl h
    · exact Or.inr (Or.inl h)
  · rcases List.mem_cons.mp hcs with h | h
    · exact Or.inr (Or.inr h)
    · exact absurd h (List.not_mem_nil c)

theorem rangeText_nonws (ms : List (Int × Int))
    (hwf : ∀ r ∈ ms, 1 ≤ r.1 ∧ r.1 ≤ r.2 ∧ r.2 ≤ 2147483647) :
    ∀ c ∈ rangeText ms, isWs c = false := by
  intro c hc
  rcases rangeText_chars ms hwf c hc with h | h | h
  · exact (digit_char_facts c h).1
  · subst h; decide
  · subst h; decide

theorem rangeText_ne_nil (ms : List (Int × Int)) (hne : ms ≠ [])
    (hwf : ∀ r ∈ ms, 1 ≤ r.1 ∧ r.1 ≤ r.2 ∧ r.2 ≤ 2147483647) :
    rangeText ms ≠ [] := by
  cases ms with
  | nil => exact absurd rfl hne
  | cons r ms =>
    obtain ⟨a, b, d⟩ := hwf r (List.mem_cons_self _ _)
    unfold rangeText
    rw [List.map_cons]
    exact joinWith_head_ne_nil _ _ _ (rangeToken_spec r a b d).1

theorem parseSegments_rangeText (sid : Rstr) (ms : List (Int × Int))
    (hwf : ∀ r ∈ ms, 1 ≤ r.1 ∧ r.1 ≤ r.2 ∧ r.2 ≤ 2147483647) :
    parseSegments sid (rangeText ms) =
      ms.map (fun r => (⟨sid, r.1, r.2⟩ : NoteRange)) := by
  cases ms with
  | nil => rfl
  | cons r ms =>
    have hnotin : ∀ t ∈ (r :: ms).map rangeToken, ',' ∉ t := by
      intro t ht hct
      rcases List.mem_map.mp ht with ⟨q, hq, rfl⟩
      obtain ⟨a, b, d⟩ := hwf q hq
      rcases (rangeToken_spec q a b d).2 ',' hct with h | h
      · exact absurd h (by decide)
      · exact absurd h (by decide)
    unfold parseSegments rangeText
    rw [splitOnChar_joinWith ',' _ (by simp) hnotin, segfold sid _ hwf [],
      List.nil_append]

theorem trimStart_cons_ws (c : Char) (s : Rstr) (hc : isWs c = true) :
    trimStart (c :: s) = trimStart s := by
  rw [trimStart, if_pos hc]

theorem noteLineStep_sessionLine (F : List NoteFile) (p : Rstr) (rs : List NoteRange)
    (J : List Rstr) (sid : Rstr) (ms : List (Int × Int))
    (hs : sid ≠ []) (hsw : ∀ c ∈ sid, isWs c = false) (hms : ms ≠ [])
    (hwf : ∀ r ∈ ms, 1 ≤ r.1 ∧ r.1 ≤ r.2 ∧ r.2 ≤ 2147483647) :
    noteLineStep ⟨F, some ⟨p, rs⟩, J, false⟩ (sessionLine sid ms) =
      ⟨F, some ⟨p, rs ++ ms.map (fun r => (⟨sid, r.1, r.2⟩ : NoteRange))⟩, J, false⟩ := by
  have hrtne := rangeText_ne_nil ms hms hwf
  have hrtw := rangeText_nonws ms hwf
  have hTE : trimEnd (' ' :: ' ' :: (sid ++ ' ' :: rangeText ms)) =
      ' ' :: ' ' :: (sid ++ ' ' :: rangeText ms) := by
    have h := trimEnd_append_nonws (' ' :: ' ' :: sid ++ [' ']) (rangeText ms) hrtne hrtw
    simpa [List.append_assoc] using h
  have hTS : trimStart (' ' :: ' ' :: (sid ++ ' ' :: rangeText ms)) =
      sid ++ ' ' :: rangeText ms := by
    rw [trimStart_cons_ws _ _ (by decide), trimStart_cons_ws _ _ (by decide)]
    cases sid with
    | nil => exact absurd rfl hs
    | cons c s =>
      rw [List.cons_append]
      exact trimStart_eq_of_head _ (hsw c (List.mem_cons_self _ _))
  have htrim : trim (' ' :: ' ' :: (sid ++ ' ' :: rangeText ms)) =
      sid ++ ' ' :: rangeText ms := by
    unfold trim
    rw [hTE, hTS]
  have hsl : sessionLine sid ms = ' ' :: ' ' :: (sid ++ ' ' :: rangeText ms) := rfl
  rw [hsl]
  simp only [noteLineStep]
  rw [hTE, htrim]
  rw [if_neg (by
    intro h
    have hsp : ' ' ∈ sid ++ ' ' :: rangeText ms :=
      List.mem_append_right _ (List.mem_cons_self _ _)
    rw [h.2] at hsp
    exact absurd hsp (by decide))]
  rw [if_neg (by simp)]
  rw [if_neg (by
    rw [List.isEmpty_iff]
    intro h
    rcases List.append_eq_nil.mp h with ⟨h1, h2⟩
    cases h2)]
  rw [if_neg (fun h => h (Or.inl rfl))]
  rw [split_whitespace_sid_rt sid (rangeText ms) hs hsw hrtne hrtw]
  dsimp only
  rw [show joinWith [' '] [rangeText ms] = rangeText ms from rfl]
  rw [if_neg (by rw [List.isEmpty_iff]; exact hrtne)]
  rw [parseSegments_rangeText sid ms hwf]

theorem noteLineStep_pathLine (F : List NoteFile) (C : Option NoteFile) (J : List Rstr)
    (p : Rstr) (hp : trim p = p) (hpne : p ≠ []) (hpsep : p ≠ "---".data) :
    noteLineStep ⟨F, C, J, false⟩ p =
      ⟨flushCurrent ⟨F, C, J, false⟩, some ⟨p, []⟩, J, false⟩ := by
  obtain ⟨hS, hE⟩ := trim_eq_self_parts p hp
  simp only [noteLineStep]
  rw [hE, hp]
  rw [if_neg (fun h => hpsep h.2)]
  rw [if_neg (by simp)]
  rw [if_neg (by rw [List.isEmpty_iff]; exact hpne)]
  have hhead : ¬(p.head? = some ' ' ∨ p.head? = some '\t') := by
    cases p with
    | nil => exact absurd rfl hpne
    | cons c s =>
      have hc := head_not_ws_of_trimStart_eq hS
      rintro (h | h)
      · rw [List.head?_cons, Option.some_inj] at h
        subst h
        exact absurd hc (by decide)
      · rw [List.head?_cons, Option.some_inj] at h
        subst h
        exact absurd hc (by decide)
  rw [if_pos hhead]

theorem fold_sessionLines (msOf : Rstr → List (Int × Int)) (sids : List Rstr) :
    ∀ (F : List NoteFile) (p : Rstr) (rs : List NoteRange) (J : List Rstr),
    (∀ sid ∈ sids, sid ≠ [] ∧ (∀ c ∈ sid, isWs c = false) ∧ msOf sid ≠ [] ∧
      ∀ r ∈ msOf sid, 1 ≤ r.1 ∧ r.1 ≤ r.2 ∧ r.2 ≤ 2147483647) →
    (sids.map (fun sid => sessionLine sid (msOf sid))).foldl noteLineStep
        ⟨F, some ⟨p, rs⟩, J, false⟩ =
      ⟨F, some ⟨p, rs ++ sids.flatMap (fun sid =>
        (msOf sid).map (fun r => (⟨sid, r.1, r.2⟩ : NoteRange)))⟩, J, false⟩ := by
  induction sids with
  | nil =>
    intro F p rs J _
    simp
  | cons sid sids ih =>
    intro F p rs J hwf
    obtain ⟨a, b, c, d⟩ := hwf sid (List.mem_cons_self _ _)
    rw [List.map_cons, List.foldl_cons,
      noteLineStep_sessionLine F p rs J sid (msOf sid) a b c d,
      ih F p _ J (fun u hu => hwf u (List.mem_cons_of_mem _ hu))]
    rw [List.flatMap_cons, ← List.append_assoc]

theorem group_fold_inv (S : NoteRange → Prop) (rs : List NoteRange) :
    (∀ r ∈ rs, S r) →
    ∀ acc : List (Rstr × List (Int × Int)),
    ((acc.map Prod.fst).Nodup ∧ ∀ g ∈ acc, g.2 ≠ [] ∧
      ∀ pt ∈ g.2, ∃ r, S r ∧ r.session_id = g.1 ∧ pt = (r.start_line, r.end_line)) →
    (((rs.foldl groupStep acc).map Prod.fst).Nodup ∧
      ∀ g ∈ rs.foldl groupStep acc, g.2 ≠ [] ∧
        ∀ pt ∈ g.2, ∃ r, S r ∧ r.session_id = g.1 ∧ pt = (r.start_line, r.end_line)) := by
  induction rs with
  | nil => intro _ acc hacc; exact hacc
  | cons r rest ih =>
    intro hS acc hacc
    rw [List.foldl_cons]
    refine ih (fun u hu => hS u (List.mem_cons_of_mem _ hu)) (groupStep acc r) ?_
    have hSr : S r := hS r (List.mem_cons_self _ _)
    unfold groupStep
    split
    · constructor
      · have hkeys : (acc.map (fun g =>
            if g.1 = r.session_id then (g.1, g.2 ++ [(r.start_line, r.end_line)])
            else g)).map Prod.fst = acc.map Prod.fst := by
          rw [List.map_map]
          refine List.map_congr_left (fun g hg => ?_)
          dsimp only [Function.comp]
          split <;> rfl
        rw [hkeys]
        exact hacc.1
      · intro g hg
        rcases List.mem_map.mp hg with ⟨g0, hg0, hup⟩
        by_cases hgid : g0.1 = r.session_id
        · rw [if_pos hgid] at hup
          subst hup
          refine ⟨by simp, ?_⟩
          intro pt hpt
          rcases List.mem_append.mp hpt with h | h
          · rcases (hacc.2 g0 hg0).2 pt h with ⟨u, hu1, hu2, hu3⟩
            exact ⟨u, hu1, hu2, hu3⟩
          · rw [List.mem_singleton] at h
            subst h
            exact ⟨r, hSr, hgid.symm, rfl⟩
        · rw [if_neg hgid] at hup
          subst hup
          exact hacc.2 g0 hg0
    · rename_i hany
      have hall : ∀ g ∈ acc, ¬ g.1 = r.session_id := by
        intro g hg hgid
        exact hany (List.any_eq_true.mpr ⟨g, hg, by simp [hgid]⟩)
      constructor
      · rw [List.map_append]
        rw [List.nodup_append]
        refine ⟨hacc.1, by simp, ?_⟩
        intro k hk
        rcases List.mem_map.mp hk with ⟨g, hg, hgk⟩
        simp only [List.map_cons, List.map_nil, List.mem_singleton]
        intro hkid
        exact hall g hg (by rw [hgk, hkid])
      · intro g hg
        rcases List.mem_append.mp hg with h | h
        · exact hacc.2 g h
        · rw [List.mem_singleton] at h
          subst h
          refine ⟨by simp, ?_⟩
          intro pt hpt
          rw [List.mem_singleton] at hpt
          subst hpt
          exact ⟨r, hSr, rfl, rfl⟩

theorem group_props (rs : List NoteRange) :
    ((groupRangesBySession rs).map Prod.fst).Nodup ∧
    ∀ g ∈ groupRangesBySession rs, g.2 ≠ [] ∧
      ∀ pt ∈ g.2, ∃ r ∈ rs, r.session_id = g.1 ∧ pt = (r.start_line, r.end_line) := by
  have h := group_fold_inv (fun r => r ∈ rs) rs (fun r hr => hr) [] (by simp)
  exact h

theorem lookup_of_mem_nodup (l : List (Rstr × List (Int × Int)))
    (hn : (l.map Prod.fst).Nodup) (k : Rstr) (v : List (Int × Int))
    (h : (k, v) ∈ l) : l.lookup k = some v := by
  induction l with
  | nil => cases h
  | cons a l ih =>
    rw [List.map_cons, List.nodup_cons] at hn
    rcases List.mem_cons.mp h with h2 | h2
    · rw [← h2]
      simp [List.lookup]
    · obtain ⟨a1, a2⟩ := a
      have hk : (k == a1) = false := by
        rw [beq_eq_false_iff_ne]
        intro hka
        subst hka
        exact hn.1 (List.mem_map.mpr ⟨(k, v), h2, rfl⟩)
      rw [List.lookup, hk]
      exact ih hn.2 h2

theorem insertLex_perm (x : Rstr) (l : List Rstr) :
    List.Perm (insertLex x l) (x :: l) := by
  induction l with
  | nil => exact List.Perm.refl _
  | cons y rest ih =>
    rw [insertLex]
    split
    · exact List.Perm.refl _
    · exact (ih.cons y).trans (List.Perm.swap x y rest)

theorem sortLex_perm (l : List Rstr) : List.Perm (sortLex l) l := by
  induction l with
  | nil => exact List.Perm.refl _
  | cons x rest ih => exact (insertLex_perm x (sortLex rest)).trans (ih.cons x)

theorem mem_sortLex {x : Rstr} {l : List Rstr} : x ∈ sortLex l ↔ x ∈ l :=
  (sortLex_perm l).mem_iff

theorem insertFileByPath_perm (f : NoteFile) (l : List NoteFile) :
    List.Perm (insertFileByPath f l) (f :: l) := by
  induction l with
  | nil => exact List.Perm.refl _
  | cons g rest ih =>
    rw [insertFileByPath]
    split
    · exact List.Perm.refl _
    · exact (ih.cons g).trans (List.Perm.swap f g rest)

theorem sortFilesByPath_perm (l : List NoteFile) :
    List.Perm (sortFilesByPath l) l := by
  induction l with
  | nil => exact List.Perm.refl _
  | cons f rest ih =>
    exact (insertFileByPath_perm f (sortFilesByPath rest)).trans (ih.cons f)

theorem mem_sortFilesByPath {f : NoteFile} {l : List NoteFile} :
    f ∈ sortFilesByPath l ↔ f ∈ l :=
  (sortFilesByPath_perm l).mem_iff

theorem mergeGoN_ne_nil (cur : Int × Int) (rest : List (Int × Int)) :
    Notes.mergeGoN cur rest ≠ [] := by
  induction rest generalizing cur with
  | nil => rw [Notes.mergeGoN]; simp
  | cons q rest ih =>
    obtain ⟨s, e⟩ := q
    rw [Notes.mergeGoN]
    split
    · exact ih _
    · simp

theorem notes_merge_ne_nil (rs : List (Int × Int)) (h : rs ≠ []) :
    Notes.merge_ranges rs ≠ [] := by
  unfold Notes.merge_ranges
  cases hs : sortByStart rs with
  | nil => exact absurd (sortByStart_eq_nil hs) h
  | cons q rest => exact mergeGoN_ne_nil q rest

theorem notes_merge_bounds (rs : List (Int × Int)) (K : Int)
    (hwf : ∀ r ∈ rs, 1 ≤ r.1 ∧ r.1 ≤ r.2 ∧ r.2 ≤ K) :
    ∀ q ∈ Notes.merge_ranges rs, 1 ≤ q.1 ∧ q.1 ≤ q.2 ∧ q.2 ≤ K := by
  unfold Notes.merge_ranges
  cases hs : sortByStart rs with
  | nil => intro q hq; cases hq
  | cons c rest =>
    have hmem : ∀ r ∈ sortByStart rs, 1 ≤ r.1 ∧ r.1 ≤ r.2 ∧ r.2 ≤ K :=
      fun r hr => hwf r (mem_sortByStart.mp hr)
    have hsorted := sortByStart_sorted rs
    rw [hs] at hmem hsorted
    rw [List.pairwise_cons] at hsorted
    intro q hq
    have hc := hmem c (List.mem_cons_self _ _)
    have hb := mergeGoN_bounds K c rest hc.2.1 hc.2.2
      (fun r hr => (hmem r (List.mem_cons_of_mem _ hr)).2.1)
      (fun r hr => (hmem r (List.mem_cons_of_mem _ hr)).2.2)
      (fun r hr => hsorted.1 r hr)
      hsorted.2 q hq
    exact ⟨le_trans hc.1 hb.1, hb.2.1, hb.2.2⟩

theorem block_session_wf (f : NoteFile)
    (hwf : ∀ r ∈ f.ranges, (r.session_id ≠ [] ∧ ∀ c ∈ r.session_id, isWs c = false) ∧
      1 ≤ r.start_line ∧ r.start_line ≤ r.end_line ∧ r.end_line ≤ 2147483647) :
    ∀ sid ∈ sortLex ((groupRangesBySession f.ranges).map (fun g => g.1)),
      sid ≠ [] ∧ (∀ c ∈ sid, isWs c = false) ∧
      Notes.merge_ranges (((groupRangesBySession f.ranges).lookup sid).getD []) ≠ [] ∧
      ∀ r ∈ Notes.merge_ranges (((groupRangesBySession f.ranges).lookup sid).getD []),
        1 ≤ r.1 ∧ r.1 ≤ r.2 ∧ r.2 ≤ 2147483647 := by
  obtain ⟨hnodup, hmem⟩ := group_props f.ranges
  intro sid hsid
  have hk : sid ∈ (groupRangesBySession f.ranges).map (fun g => g.1) :=
    mem_sortLex.mp hsid
  rcases List.mem_map.mp hk with ⟨g, hg, hg1⟩
  obtain ⟨k, v⟩ := g
  dsimp only at hg1
  subst hg1
  obtain ⟨hvne, hpts⟩ := hmem (k, v) hg
  have hlk : (groupRangesBySession f.ranges).lookup k = some v :=
    lookup_of_mem_nodup _ (by
      have := hnodup
      rw [show (groupRangesBySession f.ranges).map Prod.fst =
        (groupRangesBySession f.ranges).map (fun g => g.1) from rfl] at this
      exact this) k v hg
  have hvwf : ∀ pt ∈ v, 1 ≤ pt.1 ∧ pt.1 ≤ pt.2 ∧ pt.2 ≤ 2147483647 := by
    intro pt hpt
    rcases hpts pt hpt with ⟨r, hr, hrid, hrpt⟩
    obtain ⟨_, a, b, c⟩ := hwf r hr
    rw [hrpt]
    exact ⟨a, b, c⟩
  have hsidwf : k ≠ [] ∧ ∀ c ∈ k, isWs c = false := by
    cases hv : v with
    | nil => exact absurd hv hvne
    | cons pt pts =>
      have hpt : pt ∈ v := by rw [hv]; exact List.mem_cons_self _ _
      rcases hpts pt hpt with ⟨r, hr, hrid, _⟩
      obtain ⟨⟨a, b⟩, _⟩ := hwf r hr
      have hrid2 : r.session_id = k := hrid
      rw [← hrid2]
      exact ⟨a, b⟩
  rw [hlk]
  exact ⟨hsidwf.1, hsidwf.2,
    notes_merge_ne_nil v hvne, notes_merge_bounds v 2147483647 hvwf⟩

theorem fold_fileBlock (f : NoteFile) (F : List NoteFile) (C : Option NoteFile)
    (J : List Rstr)
    (hp : trim f.path = f.path) (hpne : f.path ≠ []) (hpsep : f.path ≠ "---".data)
    (hwf : ∀ r ∈ f.ranges, (r.session_id ≠ [] ∧ ∀ c ∈ r.session_id, isWs c = false) ∧
      1 ≤ r.start_line ∧ r.start_line ≤ r.end_line ∧ r.end_line ≤ 2147483647) :
    (fileBlockLines f).foldl noteLineStep ⟨F, C, J, false⟩ =
      ⟨flushCurrent ⟨F, C, J, false⟩, some (parsedBlock f), J, false⟩ := by
  have hcond := block_session_wf f hwf
  simp only [fileBlockLines]
  rw [List.foldl_cons, noteLineStep_pathLine F C J f.path hp hpne hpsep,
    fold_sessionLines
      (fun sid => Notes.merge_ranges (((groupRangesBySession f.ranges).lookup sid).getD []))
      (sortLex ((groupRangesBySession f.ranges).map (fun g => g.1)))
      (flushCurrent ⟨F, C, J, false⟩) f.path [] J hcond]
  simp only [parsedBlock, blockRanges, List.nil_append]

theorem fold_blocks (fs : List NoteFile) :
    ∀ (F : List NoteFile) (C : Option NoteFile) (J : List Rstr),
    (∀ f ∈ fs, (trim f.path = f.path ∧ f.path ≠ [] ∧ f.path ≠ "---".data) ∧
      ∀ r ∈ f.ranges, (r.session_id ≠ [] ∧ ∀ c ∈ r.session_id, isWs c = false) ∧
        1 ≤ r.start_line ∧ r.start_line ≤ r.end_line ∧ r.end_line ≤ 2147483647) →
    ((fs.flatMap fileBlockLines).foldl noteLineStep ⟨F, C, J, false⟩).json_lines = J ∧
    ((fs.flatMap fileBlockLines).foldl noteLineStep ⟨F, C, J, false⟩).in_json = false ∧
    flushCurrent ((fs.flatMap fileBlockLines).foldl noteLineStep ⟨F, C, J, false⟩) =
      flushCurrent ⟨F, C, J, false⟩ ++ fs.map parsedBlock := by
  induction fs with
  | nil =>
    intro F C J _
    exact ⟨rfl, rfl, by simp⟩
  | cons f fs ih =>
    intro F C J hwf
    obtain ⟨⟨a, b, c⟩, d⟩ := hwf f (List.mem_cons_self _ _)
    rw [List.flatMap_cons, List.foldl_append, fold_fileBlock f F C J a b c d]
    obtain ⟨h1, h2, h3⟩ := ih (flushCurrent ⟨F, C, J, false⟩) (some (parsedBlock f)) J
      (fun u hu => hwf u (List.mem_cons_of_mem _ hu))
    refine ⟨h1, h2, ?_⟩
    rw [h3]
    show (flushCurrent ⟨F, C, J, false⟩ ++ [parsedBlock f]) ++ fs.map parsedBlock = _
    rw [List.map_cons, List.append_assoc, List.singleton_append]

theorem getLast?_append_right {α : Type _} (A P : List α) (h : P ≠ []) :
    (A ++ P).getLast? = P.getLast? := by
  rw [List.getLast?_eq_head?_reverse, List.getLast?_eq_head?_reverse,
    List.reverse_append]
  cases hp : P.reverse with
  | nil => exact absurd (List.reverse_eq_nil_iff.mp hp) h
  | cons c rest => rfl

theorem getLast?_some_mem {α : Type _} (l : List α) (c : α) (h : l.getLast? = some c) :
    c ∈ l := by
  rw [List.getLast?_eq_head?_reverse] at h
  cases hr : l.reverse with
  | nil => rw [hr] at h; cases h
  | cons d rest =>
    rw [hr, List.head?_cons, Option.some_inj] at h
    have hm : d ∈ l.reverse := by
      rw [hr]
      exact List.mem_cons_self _ _
    rw [h] at hm
    exact List.mem_reverse.mp hm

theorem map_stripCr_eq (A : List Rstr) (h : ∀ a ∈ A, a.getLast? ≠ some '\r') :
    A.map stripCr = A := by
  have hcong : ∀ a ∈ A, stripCr a = id a := by
    intro a ha
    unfold stripCr
    rw [if_neg (h a ha)]
    rfl
  rw [List.map_congr_left hcong, List.map_id]

theorem splitOnChar_joinWith_last (sep : Char) (A : List Rstr) (j : Rstr) :
    (∀ a ∈ A, sep ∉ a) →
    splitOnChar sep (joinWith [sep] (A ++ [j])) = A ++ splitOnChar sep j := by
  induction A with
  | nil => intro _; rfl
  | cons a A ih =>
    intro hA
    rw [List.cons_append, joinWith_cons _ _ _ (by simp), List.append_assoc,
      List.singleton_append,
      splitOnChar_append_sep sep a _ (hA a (List.mem_cons_self _ _)),
      ih (fun u hu => hA u (List.mem_cons_of_mem _ hu)), List.cons_append]

theorem rustLines_append_json (A : List Rstr) (j : Rstr)
    (hA : ∀ a ∈ A, '\n' ∉ a ∧ a.getLast? ≠ some '\r') :
    rustLines (joinWith ['\n'] (A ++ [j])) = A ++ rustLines j := by
  simp only [rustLines]
  rw [splitOnChar_joinWith_last '\n' A j (fun a ha => (hA a ha).1),
    getLast?_append_right A _ (splitOnChar_ne_nil '\n' j)]
  by_cases hlast : (splitOnChar '\n' j).getLast? = some ([] : Rstr)
  · rw [if_pos hlast, if_pos hlast,
      List.dropLast_append_of_ne_nil _ (splitOnChar_ne_nil '\n' j),
      List.map_append, map_stripCr_eq A (fun a ha => (hA a ha).2)]
  · rw [if_neg hlast, if_neg hlast, List.map_append,
      map_stripCr_eq A (fun a ha => (hA a ha).2)]

theorem trimmed_getLast_not_cr (p : Rstr) (hp : trim p = p) :
    p.getLast? ≠ some '\r' := by
  obtain ⟨hS, hE⟩ := trim_eq_self_parts p hp
  have hrev : trimStart p.reverse = p.reverse := by
    have hh := congrArg List.reverse hE
    unfold trimEnd at hh
    rwa [List.reverse_reverse] at hh
  rw [List.getLast?_eq_head?_reverse]
  cases hr : p.reverse with
  | nil => simp
  | cons c rest =>
    rw [hr] at hrev
    have hc := head_not_ws_of_trimStart_eq hrev
    rw [List.head?_cons]
    intro h
    rw [Option.some_inj] at h
    subst h
    exact absurd hc (by decide)

theorem append_getLast_not_cr (a b : Rstr) (hb : b ≠ [])
    (hbc : ∀ c ∈ b, isWs c = false) : (a ++ b).getLast? ≠ some '\r' := by
  rw [getLast?_append_right a b hb]
  intro h
  have hc := getLast?_some_mem b '\r' h
  have hw := hbc '\r' hc
  exact absurd hw (by decide)

theorem fileBlockLines_clean (f : NoteFile)
    (hp : trim f.path = f.path) (hnl : '\n' ∉ f.path)
    (hwf : ∀ r ∈ f.ranges, (r.session_id ≠ [] ∧ ∀ c ∈ r.session_id, isWs c = false) ∧
      1 ≤ r.start_line ∧ r.start_line ≤ r.end_line ∧ r.end_line ≤ 2147483647) :
    ∀ l ∈ fileBlockLines f, '\n' ∉ l ∧ l.getLast? ≠ some '\r' := by
  have hcond := block_session_wf f hwf
  intro l hl
  simp only [fileBlockLines] at hl
  rcases List.mem_cons.mp hl with hl | hl
  · subst hl
    exact ⟨hnl, trimmed_getLast_not_cr f.path hp⟩
  · rcases List.mem_map.mp hl with ⟨sid, hsid, rfl⟩
    obtain ⟨hs, hsw, hmne, hmwf⟩ := hcond sid hsid
    constructor
    · intro h
      have hform : sessionLine sid
          (Notes.merge_ranges (((groupRangesBySession f.ranges).lookup sid).getD [])) =
          ' ' :: ' ' :: (sid ++ ' ' ::
            rangeText (Notes.merge_ranges
              (((groupRangesBySession f.ranges).lookup sid).getD []))) := rfl
      rw [hform] at h
      rcases List.mem_cons.mp h with h | h
      · exact absurd h (by decide)
      rcases List.mem_cons.mp h with h | h
      · exact absurd h (by decide)
      rcases List.mem_append.mp h with h | h
      · exact absurd (hsw '\n' h) (by decide)
      rcases List.mem_cons.mp h with h | h
      · exact absurd h (by decide)
      · exact absurd (rangeText_nonws _ hmwf '\n' h) (by decide)
    · have hform : sessionLine sid
          (Notes.merge_ranges (((groupRangesBySession f.ranges).lookup sid).getD [])) =
          (' ' :: ' ' :: sid ++ [' ']) ++
            rangeText (Notes.merge_ranges
              (((groupRangesBySession f.ranges).lookup sid).getD [])) := by
        simp [sessionLine, List.append_assoc]
      rw [hform]
      exact append_getLast_not_cr _ _ (rangeText_ne_nil _ hmne hmwf)
        (rangeText_nonws _ hmwf)

theorem rustLines_build (x : List NoteFile) (j : Rstr)
    (hx : ∀ f ∈ x, (trim f.path = f.path ∧ f.path ≠ [] ∧ f.path ≠ "---".data ∧
        '\n' ∉ f.path) ∧
      ∀ r ∈ f.ranges, (r.session_id ≠ [] ∧ ∀ c ∈ r.session_id, isWs c = false) ∧
        1 ≤ r.start_line ∧ r.start_line ≤ r.end_line ∧ r.end_line ≤ 2147483647) :
    rustLines (build_attribution_note x j) =
      ((sortFilesByPath x).flatMap fileBlockLines ++ ["---".data]) ++ rustLines j := by
  unfold build_attribution_note
  have hre : (sortFilesByPath x).flatMap fileBlockLines ++ ["---".data, j] =
      ((sortFilesByPath x).flatMap fileBlockLines ++ ["---".data]) ++ [j] := by
    simp
  rw [hre]
  refine rustLines_append_json _ j ?_
  intro a ha
  rcases List.mem_append.mp ha with ha | ha
  · rcases List.mem_flatMap.mp ha with ⟨f, hf, hfa⟩
    have hfx := hx f (mem_sortFilesByPath.mp hf)
    exact fileBlockLines_clean f hfx.1.1 hfx.1.2.2.2 hfx.2 a hfa
  · rw [List.mem_singleton] at ha
    subst ha
    exact ⟨by decide, by decide⟩

theorem parse_build_files (pj : Rstr → Option NotePayload) (x : List NoteFile) (j : Rstr)
    (hx : ∀ f ∈ x, (trim f.path = f.path ∧ f.path ≠ [] ∧ f.path ≠ "---".data ∧
        '\n' ∉ f.path) ∧
      ∀ r ∈ f.ranges, (r.session_id ≠ [] ∧ ∀ c ∈ r.session_id, isWs c = false) ∧
        1 ≤ r.start_line ∧ r.start_line ≤ r.end_line ∧ r.end_line ≤ 2147483647) :
    (parse_attribution_note pj (build_attribution_note x j)).files =
      (sortFilesByPath x).map parsedBlock := by
  have hfiles : (parse_attribution_note pj (build_attribution_note x j)).files =
      flushCurrent (parseParts (build_attribution_note x j)) := by
    unfold parse_attribution_note
    dsimp only
    split
    · rfl
    · split <;> rfl
  rw [hfiles]
  unfold parseParts
  rw [rustLines_build x j hx, List.foldl_append, List.foldl_append]
  obtain ⟨h1, h2, h3⟩ := fold_blocks (sortFilesByPath x) [] none []
    (fun f hf =>
      ⟨⟨(hx f (mem_sortFilesByPath.mp hf)).1.1, (hx f (mem_sortFilesByPath.mp hf)).1.2.1,
        (hx f (mem_sortFilesByPath.mp hf)).1.2.2.1⟩, (hx f (mem_sortFilesByPath.mp hf)).2⟩)
  set S := ((sortFilesByPath x).flatMap fileBlockLines).foldl noteLineStep
    (⟨[], none, [], false⟩ : PState) with hSdef
  have hsep : List.foldl noteLineStep S ["---".data] = ⟨S.files, S.current, [], true⟩ := by
    rw [List.foldl_cons, List.foldl_nil]
    conv_lhs => rw [show S = (⟨S.files, S.current, S.json_lines, S.in_json⟩ : PState)
      from rfl]
    rw [h1, h2]
    exact noteLineStep_sep _ _ _ _ (by decide)
  rw [hsep, fold_json]
  have h3x : flushCurrent S = (sortFilesByPath x).map parsedBlock := by
    rw [h3]
    simp [flushCurrent]
  rw [← h3x]
  rfl

theorem group_tagged_run (sid : Rstr) (ps : List (Int × Int)) :
    ∀ (acc : List (Rstr × List (Int × Int))) (v : List (Int × Int)),
    (∀ g ∈ acc, ¬ g.1 = sid) →
    (ps.map (fun r => (⟨sid, r.1, r.2⟩ : NoteRange))).foldl groupStep (acc ++ [(sid, v)]) =
      acc ++ [(sid, v ++ ps)] := by
  induction ps with
  | nil =>
    intro acc v _
    simp
  | cons p ps ih =>
    intro acc v hall
    rw [List.map_cons, List.foldl_cons]
    have hstep : groupStep (acc ++ [(sid, v)]) ⟨sid, p.1, p.2⟩ =
        acc ++ [(sid, v ++ [p])] := by
      unfold groupStep
      rw [if_pos (List.any_eq_true.mpr
        ⟨(sid, v), List.mem_append_right _ (List.mem_singleton.mpr rfl), by simp⟩)]
      rw [List.map_append]
      congr 1
      · have hc : ∀ g ∈ acc,
            (if g.1 = (⟨sid, p.1, p.2⟩ : NoteRange).session_id
              then (g.1, g.2 ++ [((⟨sid, p.1, p.2⟩ : NoteRange).start_line,
                (⟨sid, p.1, p.2⟩ : NoteRange).end_line)])
              else g) = id g := by
          intro g hg
          rw [if_neg (hall g hg)]
          rfl
        calc acc.map _ = acc.map id := List.map_congr_left hc
          _ = acc := List.map_id acc
      · simp
    rw [hstep, ih acc (v ++ [p]) hall, List.append_assoc, List.singleton_append]

theorem group_tagged_blocks (msOf : Rstr → List (Int × Int)) (sids : List Rstr) :
    ∀ acc : List (Rstr × List (Int × Int)), sids.Nodup →
    (∀ sid ∈ sids, msOf sid ≠ []) →
    (∀ g ∈ acc, ∀ sid ∈ sids, ¬ g.1 = sid) →
    (sids.flatMap (fun sid =>
        (msOf sid).map (fun r => (⟨sid, r.1, r.2⟩ : NoteRange)))).foldl groupStep acc =
      acc ++ sids.map (fun sid => (sid, msOf sid)) := by
  induction sids with
  | nil =>
    intro acc _ _ _
    simp
  | cons sid sids ih =>
    intro acc hnd hne hall
    rw [List.flatMap_cons, List.foldl_append]
    cases hm : msOf sid with
    | nil => exact absurd hm (hne sid (List.mem_cons_self _ _))
    | cons p ps =>
      rw [List.map_cons, List.foldl_cons]
      have hstep0 : groupStep acc ⟨sid, p.1, p.2⟩ = acc ++ [(sid, [(p.1, p.2)])] := by
        unfold groupStep
        rw [if_neg (by
          intro hany
          rcases List.any_eq_true.mp hany with ⟨g, hg, hgid⟩
          exact hall g hg sid (List.mem_cons_self _ _) (by simpa using hgid))]
      rw [hstep0, group_tagged_run sid ps acc [(p.1, p.2)]
        (fun g hg => hall g hg sid (List.mem_cons_self _ _))]
      rw [List.nodup_cons] at hnd
      have hall2 : ∀ g ∈ acc ++ [(sid, [(p.1, p.2)] ++ ps)], ∀ u ∈ sids, ¬ g.1 = u := by
        intro g hg u hu hgu
        rcases List.mem_append.mp hg with hg | hg
        · exact hall g hg u (List.mem_cons_of_mem _ hu) hgu
        · rw [List.mem_singleton] at hg
          subst hg
          dsimp only at hgu
          subst hgu
          exact hnd.1 hu
      rw [ih (acc ++ [(sid, [(p.1, p.2)] ++ ps)]) hnd.2
        (fun u hu => hne u (List.mem_cons_of_mem _ hu)) hall2]
      have hval : ([(p.1, p.2)] ++ ps : List (Int × Int)) = msOf sid := by
        rw [hm, List.singleton_append]
      rw [hval, List.map_cons, List.append_assoc, List.singleton_append]

theorem group_blockRanges (f : NoteFile)
    (hwf : ∀ r ∈ f.ranges, (r.session_id ≠ [] ∧ ∀ c ∈ r.session_id, isWs c = false) ∧
      1 ≤ r.start_line ∧ r.start_line ≤ r.end_line ∧ r.end_line ≤ 2147483647) :
    groupRangesBySession (blockRanges f) =
      (sortLex ((groupRangesBySession f.ranges).map (fun g => g.1))).map
        (fun sid =>
          (sid, Notes.merge_ranges (((groupRangesBySession f.ranges).lookup sid).getD []))) := by
  have hcond := block_session_wf f hwf
  have hnodup := (group_props f.ranges).1
  show (blockRanges f).foldl groupStep [] = _
  simp only [blockRanges]
  have h := group_tagged_blocks
    (fun sid => Notes.merge_ranges (((groupRangesBySession f.ranges).lookup sid).getD []))
    (sortLex ((groupRangesBySession f.ranges).map (fun g => g.1)))
    [] ((sortLex_perm _).nodup_iff.mpr (by
      rw [show (groupRangesBySession f.ranges).map (fun g => g.1) =
        (groupRangesBySession f.ranges).map Prod.fst from rfl]
      exact hnodup))
    (fun sid hsid => (hcond sid hsid).2.2.1)
    (by simp)
  rw [h, List.nil_append]

theorem sortByStart_eq_self (l : List (Int × Int))
    (h : List.Pairwise (fun a b : Int × Int => a.1 ≤ b.1) l) : sortByStart l = l := by
  induction l with
  | nil => rfl
  | cons p rest ih =>
    rw [List.pairwise_cons] at h
    rw [sortByStart, ih h.2]
    cases rest with
    | nil => rfl
    | cons q rest2 =>
      rw [insertByStart, if_pos (h.1 q (List.mem_cons_self _ _))]

theorem mergeGoN_head (rest : List (Int × Int)) : ∀ cur : Int × Int,
    ∃ e2 tail, Notes.mergeGoN cur rest = (cur.1, e2) :: tail := by
  induction rest with
  | nil =>
    intro cur
    exact ⟨cur.2, [], by rw [Notes.mergeGoN]⟩
  | cons q rest ih =>
    intro cur
    obtain ⟨s, e⟩ := q
    rw [Notes.mergeGoN]
    split
    · exact ih (cur.1, max cur.2 e)
    · exact ⟨cur.2, Notes.mergeGoN (s, e) rest, rfl⟩

theorem mergeGoN_start_ge (rest : List (Int × Int)) : ∀ cur : Int × Int,
    (∀ r ∈ rest, cur.1 ≤ r.1) →
    List.Pairwise (fun a b : Int × Int => a.1 ≤ b.1) rest →
    ∀ x ∈ Notes.mergeGoN cur rest, cur.1 ≤ x.1 := by
  induction rest with
  | nil =>
    intro cur _ _ x hx
    rw [Notes.mergeGoN, List.mem_singleton] at hx
    subst hx
    exact le_refl _
  | cons q rest ih =>
    intro cur hge hsorted x hx
    obtain ⟨s, e⟩ := q
    rw [List.pairwise_cons] at hsorted
    rw [Notes.mergeGoN] at hx
    split at hx
    · exact ih (cur.1, max cur.2 e) (fun r hr => hge r (List.mem_cons_of_mem _ hr))
        hsorted.2 x hx
    · rcases List.mem_cons.mp hx with hx | hx
      · subst hx
        exact le_refl _
      · have hs : cur.1 ≤ s := hge (s, e) (List.mem_cons_self _ _)
        exact le_trans hs (ih (s, e) (fun r hr => hsorted.1 r hr) hsorted.2 x hx)

theorem mergeGoN_sorted (rest : List (Int × Int)) : ∀ cur : Int × Int,
    (∀ r ∈ rest, cur.1 ≤ r.1) →
    List.Pairwise (fun a b : Int × Int => a.1 ≤ b.1) rest →
    List.Pairwise (fun a b : Int × Int => a.1 ≤ b.1) (Notes.mergeGoN cur rest) := by
  induction rest with
  | nil =>
    intro cur _ _
    rw [Notes.mergeGoN]
    exact List.pairwise_singleton _ _
  | cons q rest ih =>
    intro cur hge hsorted
    obtain ⟨s, e⟩ := q
    rw [List.pairwise_cons] at hsorted
    rw [Notes.mergeGoN]
    split
    · exact ih (cur.1, max cur.2 e) (fun r hr => hge r (List.mem_cons_of_mem _ hr))
        hsorted.2
    · rw [List.pairwise_cons]
      refine ⟨?_, ih (s, e) (fun r hr => hsorted.1 r hr) hsorted.2⟩
      intro y hy
      have hs : cur.1 ≤ s := hge (s, e) (List.mem_cons_self _ _)
      exact le_trans hs (mergeGoN_start_ge rest (s, e) (fun r hr => hsorted.1 r hr)
        hsorted.2 y hy)

theorem mergeGoN_chain (rest : List (Int × Int)) : ∀ cur : Int × Int,
    List.Chain' (fun a b : Int × Int => ¬ (b.1 ≤ i32wrap (a.2 + 1)))
      (Notes.mergeGoN cur rest) := by
  induction rest with
  | nil =>
    intro cur
    rw [Notes.mergeGoN]
    exact List.chain'_singleton _
  | cons q rest ih =>
    intro cur
    obtain ⟨s, e⟩ := q
    rw [Notes.mergeGoN]
    split
    · exact ih (cur.1, max cur.2 e)
    · rename_i hpush
      obtain ⟨e2, tail, htl⟩ := mergeGoN_head rest (s, e)
      rw [htl, List.chain'_cons]
      exact ⟨hpush, by rw [← htl]; exact ih (s, e)⟩

theorem mergeGoN_of_chain (rest : List (Int × Int)) : ∀ cur : Int × Int,
    List.Chain' (fun a b : Int × Int => ¬ (b.1 ≤ i32wrap (a.2 + 1))) (cur :: rest) →
    Notes.mergeGoN cur rest = cur :: rest := by
  induction rest with
  | nil =>
    intro cur _
    rw [Notes.mergeGoN]
  | cons q rest ih =>
    intro cur h
    obtain ⟨s, e⟩ := q
    rw [List.chain'_cons] at h
    rw [Notes.mergeGoN, if_neg h.1, ih (s, e) h.2]

theorem notes_merge_idem (rs : List (Int × Int)) (_hwf : ∀ r ∈ rs, r.1 ≤ r.2) :
    Notes.merge_ranges (Notes.merge_ranges rs) = Notes.merge_ranges rs := by
  have hsorted : List.Pairwise (fun a b : Int × Int => a.1 ≤ b.1)
      (Notes.merge_ranges rs) := by
    unfold Notes.merge_ranges
    cases hs : sortByStart rs with
    | nil => exact List.Pairwise.nil
    | cons r rest =>
      have hps := sortByStart_sorted rs
      rw [hs, List.pairwise_cons] at hps
      exact mergeGoN_sorted rest r hps.1 hps.2
  have hchain : List.Chain' (fun a b : Int × Int => ¬ (b.1 ≤ i32wrap (a.2 + 1)))
      (Notes.merge_ranges rs) := by
    unfold Notes.merge_ranges
    cases hs : sortByStart rs with
    | nil => exact List.chain'_nil
    | cons r rest => exact mergeGoN_chain rest r
  cases hm : Notes.merge_ranges rs with
  | nil => rfl
  | cons c rest =>
    rw [hm] at hsorted hchain
    unfold Notes.merge_ranges
    rw [sortByStart_eq_self _ hsorted]
    exact mergeGoN_of_chain rest c hchain

/-- C3: for every codec input (a list of note files with session ranges) whose
paths are trimmed, nonempty, newline-free and distinct from the separator
`---`, whose session ids are nonempty and whitespace-free, and whose ranges
satisfy `1 ≤ start ≤ end ≤ i32::MAX`, parsing the built note yields the same
set of (file path, session id, merged range) triples as the input, whatever
the order of files and ranges in the input and whatever the serde payload
oracle or sources argument (`payloadJson`, abstracted as `j`). -/
theorem codec_round_trip (pj : Rstr → Option NotePayload) (j : Rstr) (x : List NoteFile)
    (hx : ∀ f ∈ x, (trim f.path = f.path ∧ f.path ≠ [] ∧ f.path ≠ "---".data ∧
        '\n' ∉ f.path) ∧
      ∀ r ∈ f.ranges, (r.session_id ≠ [] ∧ ∀ c ∈ r.session_id, isWs c = false) ∧
        1 ≤ r.start_line ∧ r.start_line ≤ r.end_line ∧ r.end_line ≤ 2147483647) :
    ∀ t, t ∈ noteTriples (parse_attribution_note pj (build_attribution_note x j)).files ↔
      t ∈ noteTriples x := by
  intro t
  rw [parse_build_files pj x j hx]
  simp only [noteTriples, List.mem_flatMap, List.mem_map]
  constructor
  · rintro ⟨pf, ⟨f, hf, rfl⟩, g, hg, r, hr, heq⟩
    have hfm : f ∈ x := mem_sortFilesByPath.mp hf
    have hfx := hx f hfm
    have hg2 : g ∈ groupRangesBySession (blockRanges f) := hg
    rw [group_blockRanges f hfx.2] at hg2
    rcases List.mem_map.mp hg2 with ⟨sid, hsid, rfl⟩
    have hk : sid ∈ (groupRangesBySession f.ranges).map (fun gg => gg.1) :=
      mem_sortLex.mp hsid
    rcases List.mem_map.mp hk with ⟨g0, hg0, hg01⟩
    obtain ⟨k, v⟩ := g0
    dsimp only at hg01
    subst hg01
    have hlk : (groupRangesBySession f.ranges).lookup k = some v :=
      lookup_of_mem_nodup _ (group_props f.ranges).1 k v hg0
    have hpts := ((group_props f.ranges).2 (k, v) hg0).2
    have hv2 : ∀ p ∈ v, p.1 ≤ p.2 := by
      intro p hp
      rcases hpts p hp with ⟨rr, hrr, _, hrp⟩
      have hb := (hfx.2 rr hrr).2
      rw [hrp]
      dsimp only
      omega
    rw [hlk] at hr
    simp only [Option.getD_some] at hr
    rw [notes_merge_idem v hv2] at hr
    exact ⟨f, hfm, (k, v), hg0, r, hr, heq⟩
  · rintro ⟨f, hfm, g, hg, r, hr, heq⟩
    obtain ⟨k, v⟩ := g
    have hfx := hx f hfm
    have hf : parsedBlock f ∈ (sortFilesByPath x).map parsedBlock :=
      List.mem_map.mpr ⟨f, mem_sortFilesByPath.mpr hfm, rfl⟩
    have hk : k ∈ (groupRangesBySession f.ranges).map (fun gg => gg.1) :=
      List.mem_map.mpr ⟨(k, v), hg, rfl⟩
    have hsid : k ∈ sortLex ((groupRangesBySession f.ranges).map (fun gg => gg.1)) :=
      mem_sortLex.mpr hk
    have hlk : (groupRangesBySession f.ranges).lookup k = some v :=
      lookup_of_mem_nodup _ (group_props f.ranges).1 k v hg
    have hpts := ((group_props f.ranges).2 (k, v) hg).2
    have hv2 : ∀ p ∈ v, p.1 ≤ p.2 := by
      intro p hp
      rcases hpts p hp with ⟨rr, hrr, _, hrp⟩
      have hb := (hfx.2 rr hrr).2
      rw [hrp]
      dsimp only
      omega
    have hgmem : (k, Notes.merge_ranges
        (((groupRangesBySession f.ranges).lookup k).getD []))
        ∈ groupRangesBySession (parsedBlock f).ranges := by
      show (k, Notes.merge_ranges (((groupRangesBySession f.ranges).lookup k).getD []))
        ∈ groupRangesBySession (blockRanges f)
      rw [group_blockRanges f hfx.2]
      exact List.mem_map.mpr ⟨k, hsid, rfl⟩
    refine ⟨parsedBlock f, ⟨f, mem_sortFilesByPath.mpr hfm, rfl⟩, _, hgmem, r, ?_, heq⟩
    show r ∈ Notes.merge_ranges (Notes.merge_ranges
      (((groupRangesBySession f.ranges).lookup k).getD []))
    rw [hlk]
    simp only [Option.getD_some]
    rw [notes_merge_idem v hv2]
    exact hr

/-- Witness for C3: two files given out of path order, with the second file's
ranges out of order and adjacent (`4-5` and `1-3` merge to `1-5`). -/
theorem codec_round_trip_witness :
    (∀ f ∈ ([⟨"b.rs".data, [⟨"s2".data, 7, 7⟩]⟩,
        ⟨"a.rs".data, [⟨"s1".data, 4, 5⟩, ⟨"s1".data, 1, 3⟩]⟩] : List NoteFile),
      (trim f.path = f.path ∧ f.path ≠ [] ∧ f.path ≠ "---".data ∧ '\n' ∉ f.path) ∧
      ∀ r ∈ f.ranges, (r.session_id ≠ [] ∧ ∀ c ∈ r.session_id, isWs c = false) ∧
        1 ≤ r.start_line ∧ r.start_line ≤ r.end_line ∧ r.end_line ≤ 2147483647) ∧
    ((("a.rs".data, "s1".data, (1 : Int), (5 : Int)) ∈
        noteTriples (parse_attribution_note (fun _ => none)
          (build_attribution_note [⟨"b.rs".data, [⟨"s2".data, 7, 7⟩]⟩,
            ⟨"a.rs".data, [⟨"s1".data, 4, 5⟩, ⟨"s1".data, 1, 3⟩]⟩] "oops".data)).files) ↔
      ("a.rs".data, "s1".data, (1 : Int), (5 : Int)) ∈
        noteTriples [⟨"b.rs".data, [⟨"s2".data, 7, 7⟩]⟩,
          ⟨"a.rs".data, [⟨"s1".data, 4, 5⟩, ⟨"s1".data, 1, 3⟩]⟩]) :=
  ⟨by decide,
    codec_round_trip (fun _ => none) "oops".data
      [⟨"b.rs".data, [⟨"s2".data, 7, 7⟩]⟩,
        ⟨"a.rs".data, [⟨"s1".data, 4, 5⟩, ⟨"s1".data, 1, 3⟩]⟩]
      (by decide) ("a.rs".data, "s1".data, 1, 5)⟩

end CodecLemmas

end Narrative
